import Mathlib

/-!
PanLang interpreter front end: lexer, parser, symbol table, evaluator.

A shallow embedding of `src/main.c`.  Every definition below is the translation of the C
function of the same name; the line numbers in the doc comments refer to `src/main.c`.

Modelling conventions
* A `const char*` is a `List Char`; `strlen` is the number of characters before the first
  NUL, and reading the string at an index at or past its end yields NUL.
* The C `int` of values is `Int`, with the results of `+ - * /` and of `atoi` reduced to the
  32-bit two's-complement range (`wrap32`).
* `exit(1)` is the `Except.error` result; the constructor of `Error` records which
  diagnostic was written to standard error.  Standard error itself is not modelled.
* Heap blocks are values and `free` leaves them untouched; a read through a pointer whose
  block has been freed is undefined behaviour and ends the run in `Error.UseAfterFree`.
* A pointer to a text that is passed where a pointer to a `Lexer` is expected (line 570)
  is undefined behaviour at the first read of a field through it and ends the run in
  `Error.TextUsedAsLexer`.
* Loops and recursion run on a fuel counter; a loop that still wants to iterate when its
  counter is spent yields `none` / `Error.OutOfFuel`.  The counters passed by the callers
  are sized from the number of unread characters.
-/

namespace PanLang

/-! ## Tokens (lines 6-31) -/

/-- The `TokenType` enum (lines 7-24), together with `TOKEN_UNKNOWN`, which line 283 and
line 286 use. -/
inductive TokenType
  | TOKEN_NUMBER
  | TOKEN_STRING
  | TOKEN_IDENTIFIER
  | TOKEN_ASSIGN
  | TOKEN_PLUS
  | TOKEN_MINUS
  | TOKEN_TIMES
  | TOKEN_DIVIDE
  | TOKEN_LPAREN
  | TOKEN_RPAREN
  | TOKEN_COMMA
  | TOKEN_COLON
  | TOKEN_NEWLINE
  | TOKEN_PRINT
  | TOKEN_EOF
  | TOKEN_UNKNOWN
  deriving DecidableEq, Repr

open TokenType

/-- The `Token` struct (lines 26-31); `value` is `none` for the NULL pointer. -/
structure Token where
  type : TokenType
  value : Option (List Char)
  line : Int
  column : Int
  deriving DecidableEq, Repr

/-! ## C library functions used by the lexer -/

/-- The string terminator. -/
def NUL : Char := Char.ofNat 0

/-- The C `strlen`: number of characters before the first NUL. -/
def strlen (s : List Char) : Nat := (s.takeWhile (fun c => c != NUL)).length

/-- The character `s[i]` of a C string; the terminator at and past the end. -/
def charAt (s : List Char) (i : Nat) : Char := s.getD i NUL

/-- The C `isdigit`. -/
def isdigit (c : Char) : Bool := c.isDigit

/-- The C `isalpha` in the "C" locale. -/
def isalpha (c : Char) : Bool := c.isAlpha

/-- The C `isalnum` in the "C" locale. -/
def isalnum (c : Char) : Bool := c.isAlphanum

/-- The C `isspace` in the "C" locale: space, `\t`, `\n`, `\v`, `\f`, `\r`. -/
def isspace (c : Char) : Bool :=
  c == ' ' || c == '\t' || c == '\n' || c == Char.ofNat 11 || c == Char.ofNat 12 || c == '\r'

/-- The `len` characters copied by `strncpy(value, code + start, len)`; in every use the
copied range was scanned by a loop that stops at the terminator, so it holds no NUL. -/
def substr (code : List Char) (start len : Nat) : List Char := (code.drop start).take len

/-! ## Lexer (lines 144-295) -/

/-- The `Lexer` struct (lines 145-151).  Its `current_token` field is written once by
`lexer_init` and never read, and is left out. -/
structure Lexer where
  code : List Char
  pos : Nat
  line : Int
  column : Int
  deriving DecidableEq, Repr

/-- The keyword table (lines 159-163), without its sentinel. -/
def keywords : List (List Char × TokenType) := [("darshaya".toList, TOKEN_PRINT)]

/-- Lines 165-171. -/
def lexer_init (code : List Char) : Lexer :=
  { code := code, pos := 0, line := 1, column := 1 }

/-- Lines 174-184. -/
def lexer_advance_char (lexer : Lexer) : Lexer :=
  if lexer.pos < strlen lexer.code then
    if charAt lexer.code lexer.pos = '\n' then
      { lexer with line := lexer.line + 1, column := 1, pos := lexer.pos + 1 }
    else
      { lexer with column := lexer.column + 1, pos := lexer.pos + 1 }
  else lexer

/-- The `while` loop of lines 189-191. -/
def lexer_read_number_loop : Nat → Lexer → Option Lexer
  | 0, lexer => if isdigit (charAt lexer.code lexer.pos) then none else some lexer
  | fuel + 1, lexer =>
    if isdigit (charAt lexer.code lexer.pos) then
      lexer_read_number_loop fuel (lexer_advance_char lexer)
    else some lexer

/-- Lines 187-197. -/
def lexer_read_number (lexer : Lexer) : Option (Token × Lexer) :=
  let start_pos := lexer.pos
  match lexer_read_number_loop (strlen lexer.code - lexer.pos) lexer with
  | none => none
  | some lexer =>
    let len := lexer.pos - start_pos
    let value := substr lexer.code start_pos len
    some ({ type := TOKEN_NUMBER, value := some value, line := lexer.line,
            column := lexer.column - len }, lexer)

/-- The `while` loop of lines 203-205. -/
def lexer_read_string_loop : Nat → Lexer → Option Lexer
  | 0, lexer =>
    if charAt lexer.code lexer.pos ≠ '"' ∧ charAt lexer.code lexer.pos ≠ NUL then none
    else some lexer
  | fuel + 1, lexer =>
    if charAt lexer.code lexer.pos ≠ '"' ∧ charAt lexer.code lexer.pos ≠ NUL then
      lexer_read_string_loop fuel (lexer_advance_char lexer)
    else some lexer

/-- Lines 200-214. -/
def lexer_read_string (lexer : Lexer) : Option (Token × Lexer) :=
  let lexer := lexer_advance_char lexer
  let start_pos := lexer.pos
  match lexer_read_string_loop (strlen lexer.code - lexer.pos) lexer with
  | none => none
  | some lexer =>
    let len := lexer.pos - start_pos
    let value := '"' :: (substr lexer.code start_pos len ++ ['"'])
    let lexer := lexer_advance_char lexer
    some ({ type := TOKEN_STRING, value := some value, line := lexer.line,
            column := lexer.column - len - 2 }, lexer)

/-- The `while` loop of lines 219-221. -/
def lexer_read_identifier_loop : Nat → Lexer → Option Lexer
  | 0, lexer =>
    if isalnum (charAt lexer.code lexer.pos) ∨ charAt lexer.code lexer.pos = '_' then none
    else some lexer
  | fuel + 1, lexer =>
    if isalnum (charAt lexer.code lexer.pos) ∨ charAt lexer.code lexer.pos = '_' then
      lexer_read_identifier_loop fuel (lexer_advance_char lexer)
    else some lexer

/-- Lines 217-236. -/
def lexer_read_identifier (lexer : Lexer) : Option (Token × Lexer) :=
  let start_pos := lexer.pos
  match lexer_read_identifier_loop (strlen lexer.code - lexer.pos) lexer with
  | none => none
  | some lexer =>
    let len := lexer.pos - start_pos
    let value := substr lexer.code start_pos len
    match keywords.find? (fun kw => kw.1 = value) with
    | some kw =>
      some ({ type := kw.2, value := some kw.1, line := lexer.line,
              column := lexer.column - len }, lexer)
    | none =>
      some ({ type := TOKEN_IDENTIFIER, value := some value, line := lexer.line,
              column := lexer.column - len }, lexer)

/-- The comment-skipping `while` loop of lines 245-247. -/
def lexer_skip_comment : Nat → Lexer → Option Lexer
  | 0, lexer =>
    if lexer.pos < strlen lexer.code ∧ charAt lexer.code lexer.pos ≠ '\n' then none
    else some lexer
  | fuel + 1, lexer =>
    if lexer.pos < strlen lexer.code ∧ charAt lexer.code lexer.pos ≠ '\n' then
      lexer_skip_comment fuel (lexer_advance_char lexer)
    else some lexer

/-- The `while` loop of lines 240-251: skip horizontal whitespace and comments. -/
def lexer_skip_blanks : Nat → Lexer → Option Lexer
  | 0, lexer =>
    if lexer.pos < strlen lexer.code then
      if isspace (charAt lexer.code lexer.pos) ∧ charAt lexer.code lexer.pos ≠ '\n' then none
      else if charAt lexer.code lexer.pos = '#' then none
      else some lexer
    else some lexer
  | fuel + 1, lexer =>
    if lexer.pos < strlen lexer.code then
      if isspace (charAt lexer.code lexer.pos) ∧ charAt lexer.code lexer.pos ≠ '\n' then
        lexer_skip_blanks fuel (lexer_advance_char lexer)
      else if charAt lexer.code lexer.pos = '#' then
        match lexer_skip_comment (strlen lexer.code - lexer.pos) lexer with
        | none => none
        | some lexer => lexer_skip_blanks fuel lexer
      else some lexer
    else some lexer

/-- The `switch` of lines 270-285: the token of a one-character operator, and the
`TOKEN_UNKNOWN` token of anything else. -/
def lexer_operator_token (lexer : Lexer) (c : Char) : Token :=
  let mk (t : TokenType) : Token :=
    { type := t, value := some [c], line := lexer.line, column := lexer.column }
  if c = '=' then mk TOKEN_ASSIGN
  else if c = '+' then mk TOKEN_PLUS
  else if c = '-' then mk TOKEN_MINUS
  else if c = '*' then mk TOKEN_TIMES
  else if c = '/' then mk TOKEN_DIVIDE
  else if c = '(' then mk TOKEN_LPAREN
  else if c = ')' then mk TOKEN_RPAREN
  else if c = ',' then mk TOKEN_COMMA
  else if c = ':' then mk TOKEN_COLON
  else mk TOKEN_UNKNOWN

/-- Lines 238-295, the counter bounding the recursive calls of line 291. -/
def lexer_get_next_token_fuel : Nat → Lexer → Option (Token × Lexer)
  | fuel, lexer0 =>
    match lexer_skip_blanks (strlen lexer0.code - lexer0.pos) lexer0 with
    | none => none
    | some lexer =>
      if lexer.pos ≥ strlen lexer.code then
        some ({ type := TOKEN_EOF, value := none, line := lexer.line,
                column := lexer.column }, lexer)
      else
        let c := charAt lexer.code lexer.pos
        if isdigit c then lexer_read_number lexer
        else if isalpha c ∨ c = '_' then lexer_read_identifier lexer
        else if c = '"' then lexer_read_string lexer
        else if c = '\n' then
          let lexer := lexer_advance_char lexer
          some ({ type := TOKEN_NEWLINE, value := some ['\n'], line := lexer.line - 1,
                  column := 1 }, lexer)
        else
          let token := lexer_operator_token lexer c
          if token.type ≠ TOKEN_UNKNOWN then some (token, lexer_advance_char lexer)
          else
            match fuel with
            | 0 => none
            | fuel + 1 => lexer_get_next_token_fuel fuel (lexer_advance_char lexer)

/-- Lines 238-295. -/
def lexer_get_next_token (lexer : Lexer) : Option (Token × Lexer) :=
  lexer_get_next_token_fuel (strlen lexer.code - lexer.pos) lexer

/-! ## AST (lines 33-113) -/

/-- The `ASTNode` tagged union (lines 34-63); the constructors carry the members of the
union that the `create_*_node` functions (lines 66-113) fill in. -/
inductive ASTNode
  | NODE_NUMBER (number_val : Int)
  | NODE_STRING (string_val : List Char)
  | NODE_VAR (var_name : List Char)
  | NODE_BINOP (left : ASTNode) (op : TokenType) (right : ASTNode)
  | NODE_ASSIGN (var_name : List Char) (expr : ASTNode)
  | NODE_PRINT (expr : ASTNode)
  deriving DecidableEq, Repr

open ASTNode

/-- The ways a run stops early.  All but the last three are an `exit(1)`, named after
the diagnostic printed just before it. -/
inductive Error
  /-- Line 333: "Syntax Error: Expected token type ..., but got ...". -/
  | SyntaxErrorExpected (expected : TokenType) (got : Token)
  /-- Line 398: "Syntax Error: Unexpected token for statement ...". -/
  | SyntaxErrorStatement (got : Token)
  /-- Line 447: "Syntax Error: Unexpected token ... for factor ...". -/
  | SyntaxErrorFactor (got : Token)
  /-- Line 493: "Name Error: Variable ... not found." -/
  | NameError (name : List Char)
  /-- Line 517: "Runtime Error: String ... cannot be evaluated as an integer expression." -/
  | StringNotInteger (string_val : List Char)
  /-- Line 530: "Runtime Error: Division by zero." -/
  | DivisionByZero
  /-- Line 535: "Runtime Error: Unknown binary operator." -/
  | UnknownBinaryOperator
  /-- Line 540: "Runtime Error: Unexpected node type in expression evaluation." -/
  | UnexpectedNodeType
  /-- Line 562: "Runtime Error: Unexpected statement type." -/
  | UnexpectedStatementType
  /-- A read through a pointer whose block has been passed to `free`: the behaviour of
  the C program is undefined from there on. -/
  | UseAfterFree
  /-- A read of the fields of a `Lexer` through a pointer that points to the characters of
  a text, as line 570 sets it up: the behaviour of the C program is undefined from there
  on.  `code` is the text. -/
  | TextUsedAsLexer (code : List Char)
  /-- A fuel counter of the model was spent. -/
  | OutOfFuel
  deriving DecidableEq, Repr

/-! ## Host integers -/

/-- Reduction of an integer to the range of the 32-bit two's-complement `int`. -/
def wrap32 (x : Int) : Int := (x + 2147483648) % 4294967296 - 2147483648

/-- The largest `int`. -/
def INT_MAX : Int := 2147483647

/-- The smallest `int`. -/
def INT_MIN : Int := -2147483648

/-- The digit loop of `atoi`: accumulate the leading decimal digits. -/
def atoi_digits : Int → List Char → Int
  | acc, [] => acc
  | acc, c :: cs => if isdigit c then atoi_digits (acc * 10 + ((c.toNat : Int) - 48)) cs else acc

/-- The C `atoi`: optional white space, optional sign, leading decimal digits.  A value
outside the `int` range (undefined in C) is reduced by `wrap32`. -/
def atoi (s : List Char) : Int :=
  match s.dropWhile isspace with
  | '-' :: rest => wrap32 (- atoi_digits 0 rest)
  | '+' :: rest => wrap32 (atoi_digits 0 rest)
  | rest => wrap32 (atoi_digits 0 rest)

/-- The text `printf("%d", v)` writes. -/
def format_d (v : Int) : List Char :=
  if v < 0 then '-' :: Nat.toDigits 10 v.natAbs else Nat.toDigits 10 v.natAbs

/-! ## Parser (lines 298-452) -/

/-- The `Parser` struct (lines 299-303); the lexer it points to is held by value. -/
structure Parser where
  lexer : Lexer
  current_token : Token
  peek_token : Token
  deriving DecidableEq, Repr

/-- The lexer call of the parser, with a spent counter reported as `OutOfFuel`. -/
def parser_next_token (lexer : Lexer) : Except Error (Token × Lexer) :=
  match lexer_get_next_token lexer with
  | none => .error .OutOfFuel
  | some r => .ok r

/-- Lines 305-310. -/
def parser_init (lexer : Lexer) : Except Error Parser :=
  match parser_next_token lexer with
  | .error e => .error e
  | .ok (current_token, lexer) =>
    match parser_next_token lexer with
    | .error e => .error e
    | .ok (peek_token, lexer) =>
      .ok { lexer := lexer, current_token := current_token, peek_token := peek_token }

/-- Lines 313-326.  The `free` of the current token's text (lines 316-322) leaves the
values of the model untouched; the one place that reads the freed text afterwards is
`parse_statement`. -/
def parser_advance (parser : Parser) : Except Error Parser :=
  match parser_next_token parser.lexer with
  | .error e => .error e
  | .ok (token, lexer) =>
    .ok { lexer := lexer, current_token := parser.peek_token, peek_token := token }

/-- Lines 329-338. -/
def parser_expect (parser : Parser) (type : TokenType) : Except Error Parser :=
  if parser.current_token.type = type then parser_advance parser
  else .error (.SyntaxErrorExpected type parser.current_token)

/-- Lines 341-345. -/
def parser_consume_newlines : Nat → Parser → Except Error Parser
  | 0, parser =>
    if parser.current_token.type = TOKEN_NEWLINE then .error .OutOfFuel else .ok parser
  | fuel + 1, parser =>
    if parser.current_token.type = TOKEN_NEWLINE then
      match parser_advance parser with
      | .error e => .error e
      | .ok parser => parser_consume_newlines fuel parser
    else .ok parser

/-- The number of unread characters of the parser's lexer. -/
def unread (parser : Parser) : Nat := strlen parser.lexer.code - parser.lexer.pos

mutual

/-- Lines 407-417, before the loop. -/
def parse_expression : Nat → Parser → Except Error (ASTNode × Parser)
  | 0, _ => .error .OutOfFuel
  | fuel + 1, parser =>
    match parse_term fuel parser with
    | .error e => .error e
    | .ok (left, parser) => parse_expression_loop fuel left parser

/-- The `while` loop of lines 410-415. -/
def parse_expression_loop : Nat → ASTNode → Parser → Except Error (ASTNode × Parser)
  | 0, _, _ => .error .OutOfFuel
  | fuel + 1, left, parser =>
    if parser.current_token.type = TOKEN_PLUS ∨ parser.current_token.type = TOKEN_MINUS then
      let op := parser.current_token.type
      match parser_advance parser with
      | .error e => .error e
      | .ok parser =>
        match parse_term fuel parser with
        | .error e => .error e
        | .ok (right, parser) => parse_expression_loop fuel (NODE_BINOP left op right) parser
    else .ok (left, parser)

/-- Lines 419-429, before the loop. -/
def parse_term : Nat → Parser → Except Error (ASTNode × Parser)
  | 0, _ => .error .OutOfFuel
  | fuel + 1, parser =>
    match parse_factor fuel parser with
    | .error e => .error e
    | .ok (left, parser) => parse_term_loop fuel left parser

/-- The `while` loop of lines 422-427. -/
def parse_term_loop : Nat → ASTNode → Parser → Except Error (ASTNode × Parser)
  | 0, _, _ => .error .OutOfFuel
  | fuel + 1, left, parser =>
    if parser.current_token.type = TOKEN_TIMES ∨ parser.current_token.type = TOKEN_DIVIDE then
      let op := parser.current_token.type
      match parser_advance parser with
      | .error e => .error e
      | .ok parser =>
        match parse_factor fuel parser with
        | .error e => .error e
        | .ok (right, parser) => parse_term_loop fuel (NODE_BINOP left op right) parser
    else .ok (left, parser)

/-- Lines 431-452.  A token's NULL text is read as the empty string. -/
def parse_factor : Nat → Parser → Except Error (ASTNode × Parser)
  | 0, _ => .error .OutOfFuel
  | fuel + 1, parser =>
    if parser.current_token.type = TOKEN_NUMBER then
      let node := NODE_NUMBER (atoi (parser.current_token.value.getD []))
      match parser_advance parser with
      | .error e => .error e
      | .ok parser => .ok (node, parser)
    else if parser.current_token.type = TOKEN_STRING then
      let node := NODE_STRING (parser.current_token.value.getD [])
      match parser_advance parser with
      | .error e => .error e
      | .ok parser => .ok (node, parser)
    else if parser.current_token.type = TOKEN_IDENTIFIER then
      let node := NODE_VAR (parser.current_token.value.getD [])
      match parser_advance parser with
      | .error e => .error e
      | .ok parser => .ok (node, parser)
    else if parser.current_token.type = TOKEN_LPAREN then
      match parser_advance parser with
      | .error e => .error e
      | .ok parser =>
        match parse_expression fuel parser with
        | .error e => .error e
        | .ok (node, parser) =>
          match parser_expect parser TOKEN_RPAREN with
          | .error e => .error e
          | .ok parser => .ok (node, parser)
    else .error (.SyntaxErrorFactor parser.current_token)

end

/-- The counter `parse_statement` gives `parse_expression`: three per unread character
and nine more. -/
def expression_fuel (parser : Parser) : Nat := 3 * unread parser + 9

/-- Lines 380-403; `none` is the NULL of line 396.

In the assignment branch line 389 keeps the pointer `current_token.value` in `var_name`
without copying the text.  The `parser_advance` of line 390 finds the current token to be
an identifier and frees that very block (lines 316-322).  `create_assign_node(var_name,
expr)` on line 393 then runs `strlen` and `strcpy` on it (lines 102-103): the name of the
node is read from freed memory, and the branch ends in `UseAfterFree`. -/
def parse_statement (parser : Parser) : Except Error (Option ASTNode × Parser) :=
  if parser.current_token.type = TOKEN_PRINT then
    match parser_advance parser with
    | .error e => .error e
    | .ok parser =>
      match parser_expect parser TOKEN_LPAREN with
      | .error e => .error e
      | .ok parser =>
        match parse_expression (expression_fuel parser) parser with
        | .error e => .error e
        | .ok (expr, parser) =>
          match parser_expect parser TOKEN_RPAREN with
          | .error e => .error e
          | .ok parser => .ok (some (NODE_PRINT expr), parser)
  else if parser.current_token.type = TOKEN_IDENTIFIER
      ∧ parser.peek_token.type = TOKEN_ASSIGN then
    match parser_advance parser with
    | .error e => .error e
    | .ok parser =>
      match parser_advance parser with
      | .error e => .error e
      | .ok parser =>
        match parse_expression (expression_fuel parser) parser with
        | .error e => .error e
        | .ok _ => .error .UseAfterFree
  else if parser.current_token.type = TOKEN_NEWLINE then
    match parser_advance parser with
    | .error e => .error e
    | .ok parser => .ok (none, parser)
  else .error (.SyntaxErrorStatement parser.current_token)

/-- The `while` loop of lines 364-376; `statements` is the array filled so far. -/
def parse_program_loop : Nat → List ASTNode → Parser → Except Error (List ASTNode × Parser)
  | 0, statements, parser =>
    if parser.current_token.type ≠ TOKEN_EOF then .error .OutOfFuel
    else .ok (statements, parser)
  | fuel + 1, statements, parser =>
    if parser.current_token.type ≠ TOKEN_EOF then
      match parse_statement parser with
      | .error e => .error e
      | .ok (stmt, parser) =>
        let statements :=
          match stmt with
          | some stmt => statements ++ [stmt]
          | none => statements
        match parser_consume_newlines (unread parser + 2) parser with
        | .error e => .error e
        | .ok parser => parse_program_loop fuel statements parser
    else .ok (statements, parser)

/-- Lines 354-378. -/
def parse_program (parser : Parser) : Except Error (List ASTNode × Parser) :=
  match parser_consume_newlines (unread parser + 2) parser with
  | .error e => .error e
  | .ok parser => parse_program_loop (unread parser + 2) [] parser

/-! ## Interpreter (lines 454-565) -/

/-- The `Symbol` struct (lines 456-460); `next` is the tail of the list. -/
structure Symbol where
  name : List Char
  value : Int
  deriving DecidableEq, Repr

/-- The process state the interpreter works on: the global `symbol_table` (line 462) and
what has been written to standard output. -/
structure Process where
  symbol_table : List Symbol
  stdout : List Char
  deriving DecidableEq, Repr

/-- The loop of lines 466-473: overwrite the first symbol called `name`; `none` when the
list has no such symbol. -/
def set_symbol_existing (name : List Char) (value : Int) : List Symbol → Option (List Symbol)
  | [] => none
  | current :: next =>
    if current.name = name then some ({ current with value := value } :: next)
    else
      match set_symbol_existing name value next with
      | none => none
      | some next => some (current :: next)

/-- Lines 465-482. -/
def set_symbol (symbol_table : List Symbol) (name : List Char) (value : Int) : List Symbol :=
  match set_symbol_existing name value symbol_table with
  | some updated => updated
  | none => { name := name, value := value } :: symbol_table

/-- Lines 485-495. -/
def get_symbol : List Symbol → List Char → Except Error Int
  | [], name => .error (.NameError name)
  | current :: next, name =>
    if current.name = name then .ok current.value else get_symbol next name

/-- Lines 498-507. -/
def free_symbol_table (process : Process) : Process :=
  { process with symbol_table := [] }

/-- Lines 511-543.  Nodes of the model are never NULL, so line 512 has no counterpart.
A result outside the `int` range (undefined in C) is reduced by `wrap32`. -/
def evaluate_expression (symbol_table : List Symbol) : ASTNode → Except Error Int
  | NODE_NUMBER number_val => .ok number_val
  | NODE_STRING string_val => .error (.StringNotInteger string_val)
  | NODE_VAR var_name => get_symbol symbol_table var_name
  | NODE_BINOP left op right =>
    match evaluate_expression symbol_table left with
    | .error e => .error e
    | .ok left_val =>
      match evaluate_expression symbol_table right with
      | .error e => .error e
      | .ok right_val =>
        match op with
        | TOKEN_PLUS => .ok (wrap32 (left_val + right_val))
        | TOKEN_MINUS => .ok (wrap32 (left_val - right_val))
        | TOKEN_TIMES => .ok (wrap32 (left_val * right_val))
        | TOKEN_DIVIDE =>
          if right_val = 0 then .error .DivisionByZero
          else .ok (wrap32 (Int.tdiv left_val right_val))
        | _ => .error .UnknownBinaryOperator
  | NODE_ASSIGN _ _ => .error .UnexpectedNodeType
  | NODE_PRINT _ => .error .UnexpectedNodeType

/-- Lines 546-565. -/
def execute_statement (node : ASTNode) (process : Process) : Except Error Process :=
  match node with
  | NODE_ASSIGN var_name expr =>
    match evaluate_expression process.symbol_table expr with
    | .error e => .error e
    | .ok value =>
      .ok { process with symbol_table := set_symbol process.symbol_table var_name value }
  | NODE_PRINT expr =>
    match expr with
    | NODE_STRING string_val =>
      .ok { process with stdout := process.stdout ++ string_val ++ ['\n'] }
    | _ =>
      match evaluate_expression process.symbol_table expr with
      | .error e => .error e
      | .ok value => .ok { process with stdout := process.stdout ++ format_d value ++ ['\n'] }
  | _ => .error .UnexpectedStatementType

/-- The loop of lines 584-586: execute the statements in order; an `exit(1)` stops the
run with the process state reached so far. -/
def execute_statements : List ASTNode → Process → Process × Option Error
  | [], process => (process, none)
  | node :: rest, process =>
    match execute_statement node process with
    | .error e => (process, some e)
    | .ok process => execute_statements rest process

/-- Lexing and parsing of a source text: `lexer_init` (lines 165-170) on the text,
`parser_init` (lines 304-309) on that lexer, then `parse_program` (lines 354-378).  It is
the composition of the three functions on a lexer that reads the text;
`run_panlang_code` does not reach it, see there. -/
def parse_source (code : List Char) : Except Error (List ASTNode) :=
  match parser_init (lexer_init code) with
  | .error e => .error e
  | .ok parser =>
    match parse_program parser with
    | .error e => .error e
    | .ok (statements, _) => .ok statements

/-- Equality of `Except` results is decidable when it is for errors and values. -/
instance instDecidableEqExcept {ε α : Type} [DecidableEq ε] [DecidableEq α] :
    DecidableEq (Except ε α)
  | .ok a, .ok b =>
    if h : a = b then isTrue (by rw [h]) else isFalse (fun h2 => h (Except.ok.inj h2))
  | .error a, .error b =>
    if h : a = b then isTrue (by rw [h]) else isFalse (fun h2 => h (Except.error.inj h2))
  | .ok _, .error _ => isFalse (fun h => Except.noConfusion h)
  | .error _, .ok _ => isFalse (fun h => Except.noConfusion h)

/-! ## Vocabulary of the statements -/

/-- The token kinds `+` and `-`. -/
def is_additive (t : TokenType) : Prop := t = TOKEN_PLUS ∨ t = TOKEN_MINUS

/-- The token kinds `*` and `/`. -/
def is_multiplicative (t : TokenType) : Prop := t = TOKEN_TIMES ∨ t = TOKEN_DIVIDE

instance instDecidableIsAdditive (t : TokenType) : Decidable (is_additive t) :=
  inferInstanceAs (Decidable (t = TOKEN_PLUS ∨ t = TOKEN_MINUS))

instance instDecidableIsMultiplicative (t : TokenType) : Decidable (is_multiplicative t) :=
  inferInstanceAs (Decidable (t = TOKEN_TIMES ∨ t = TOKEN_DIVIDE))

/-- The lexer stands inside its string with the characters `rest` from its position on. -/
structure LexAt (lexer : Lexer) (rest : List Char) : Prop where
  drop_eq : lexer.code.drop lexer.pos = rest
  pos_le : lexer.pos ≤ strlen lexer.code

/-- The lexer moved over one character `c` that is not the terminator: what
`lexer_advance_char` does inside the string. -/
def step_char (c : Char) (lexer : Lexer) : Lexer :=
  if c = '\n' then
    { lexer with line := lexer.line + 1, column := 1, pos := lexer.pos + 1 }
  else
    { lexer with column := lexer.column + 1, pos := lexer.pos + 1 }

/-- The lexer moved over the characters `cs` one after the other. -/
def advance_over (cs : List Char) (lexer : Lexer) : Lexer :=
  cs.foldl (fun lexer c => step_char c lexer) lexer

/-- Horizontal white space, the characters line 242 skips. -/
def is_blank (c : Char) : Bool := isspace c && c != '\n'

/-- The loop condition of `lexer_read_string` (line 203). -/
def in_string (c : Char) : Bool := decide (c ≠ '"' ∧ c ≠ NUL)

/-- The first character of an identifier: a letter or `_`. -/
def is_ident_start (c : Char) : Bool := isalpha c || c == '_'

/-- A character of an identifier: a letter, a digit or `_`. -/
def is_ident_char (c : Char) : Bool := isalnum c || c == '_'

/-- The one-character operators of lines 271-279. -/
def is_operator_char (c : Char) : Bool :=
  c == '=' || c == '+' || c == '-' || c == '*' || c == '/' || c == '(' || c == ')'
    || c == ',' || c == ':'

/-- A character that starts a token: a digit, a letter, `_`, `"`, a newline or one of the
one-character operators. -/
def is_token_start (c : Char) : Bool :=
  isdigit c || isalpha c || c == '_' || c == '"' || c == '\n' || is_operator_char c

/-- The node `parse_factor` builds from a one-token factor. -/
def factor_node (token : Token) : ASTNode :=
  if token.type = TOKEN_NUMBER then NODE_NUMBER (atoi (token.value.getD []))
  else if token.type = TOKEN_STRING then NODE_STRING (token.value.getD [])
  else NODE_VAR (token.value.getD [])

/-- The lexer after the closing quote of a string literal, when there is one. -/
def close_string (after : List Char) (scanned : Lexer) : Lexer :=
  if after.headD NUL = '"' then step_char '"' scanned else scanned

/-- The number a run of decimal digits denotes. -/
def decimal_value (ds : List Char) : Nat :=
  ds.foldl (fun acc c => 10 * acc + (c.toNat - 48)) 0

/-- The lexer of `code` after the nine characters `darshaya(`. -/
def after_print_paren (code : List Char) : Lexer :=
  { code := code, pos := 9, line := 1, column := 10 }

/-- The parser stands before `op1 f1 op2 f2 ... opn fn`: its current token is an operator
of the class `is_op`, after which `parse_factor` returns `f1`, and so on until the state
`p_end` is reached.  The list holds the pairs `(op_i, f_i)`. -/
inductive OperandChain (is_op : TokenType → Prop) :
    Parser → List (TokenType × ASTNode) → Parser → Prop
  | nil (p : Parser) : OperandChain is_op p [] p
  | cons (n : Nat) (p q p1 p_end : Parser) (f : ASTNode) (rest : List (TokenType × ASTNode)) :
      is_op p.current_token.type → parser_advance p = .ok q →
      parse_factor n q = .ok (f, p1) → OperandChain is_op p1 rest p_end →
      OperandChain is_op p ((p.current_token.type, f) :: rest) p_end

/-- The left fold `BinOp(...BinOp(BinOp(f0, op1, f1), op2, f2)..., opn, fn)`. -/
def left_fold (f0 : ASTNode) (steps : List (TokenType × ASTNode)) : ASTNode :=
  steps.foldl (fun acc step => NODE_BINOP acc step.1 step.2) f0

/-- The parser primed on a source text, for the worked examples. -/
def parser_of_text (code : List Char) : Parser :=
  match parser_init (lexer_init code) with
  | .ok parser => parser
  | .error _ =>
    { lexer := lexer_init code,
      current_token := { type := TOKEN_EOF, value := none, line := 1, column := 1 },
      peek_token := { type := TOKEN_EOF, value := none, line := 1, column := 1 } }

/-- The parser state after one factor, for the worked examples. -/
def after_factor (parser : Parser) : Parser :=
  match parse_factor 1 parser with
  | .ok (_, next) => next
  | .error _ => parser

/-- The parser state after `parser_advance`, for the worked examples. -/
def after_advance (parser : Parser) : Parser :=
  match parser_advance parser with
  | .ok next => next
  | .error _ => parser

/-! ## Main execution flow (lines 566-619) -/

/-- The three `printf` calls of lines 577-582, for a program of `num_statements`
statements. -/
def parsed_banner (num_statements : Nat) : List Char :=
  "\n--- Abstract Syntax Tree (Parsed) ---\n".toList
    ++ "Successfully parsed ".toList ++ format_d (num_statements : Int)
    ++ " statements.\n".toList
    ++ "\n--- Execution Results ---\n".toList

/-- The call `parser_init(&lexer, code)` of line 570, on the `Lexer lexer` that line 569
declares without a value.  `lexer_init` is not called.  `parser_init` (lines 304-309) takes
the address of that variable as its `Parser*` and the text as its `Lexer*`: line 305
stores the pointer to the text in the first field of the variable, and line 307 calls
`lexer_get_next_token` on the text, which reads the fields `code` and `pos` of a `Lexer`
(lines 258-259) out of the characters of the text.  No character of the text is lexed
before that read, so the call ends there for every text; the result type is the value the
variable `lexer` would hold after the call. -/
def parser_init_text (code : List Char) : Except Error Lexer :=
  .error (.TextUsedAsLexer code)

/-- Lines 567-598.  The whole text is to be lexed and parsed before the first `printf`;
an `exit(1)` anywhere ends the run with the process state reached so far and the
diagnostic.  The first call is that of line 570, see `parser_init_text`. -/
def run_panlang_code (code : List Char) (process : Process) : Process × Option Error :=
  match parser_init_text code with
  | .error e => (process, some e)
  | .ok lexer =>
    match parser_init lexer with
    | .error e => (process, some e)
    | .ok parser =>
      match parse_program parser with
      | .error e => (process, some e)
      | .ok (program_ast, _) =>
        let process :=
          { process with stdout := process.stdout ++ parsed_banner program_ast.length }
        match execute_statements program_ast process with
        | (process, some e) => (process, some e)
        | (process, none) => (free_symbol_table process, none)

/-- The `strcmp(a, b) == 0` test: the two C strings agree up to their terminators. -/
def strcmp_eq (a b : List Char) : Bool := decide (a.take (strlen a) = b.take (strlen b))

/-- The loop of lines 604-618.  `input` lists what the successive `fgets` calls of line
606 return: the lines of standard input, each with its newline; the empty list is the end
of input.  An `exit(1)` inside `run_panlang_code` ends the process and with it the loop. -/
def repl_loop : List (List Char) → Process → Process × Option Error
  | [], process =>
    ({ process with stdout := process.stdout ++ ">>> ".toList ++ "\nExiting REPL.\n".toList },
      none)
  | line :: input, process =>
    let process := { process with stdout := process.stdout ++ ">>> ".toList }
    if strcmp_eq line "nirgam\n".toList then
      ({ process with stdout := process.stdout ++ "Exiting PanLang REPL.\n".toList }, none)
    else
      match run_panlang_code line process with
      | (process, some e) => (process, some e)
      | (process, none) => repl_loop input (free_symbol_table process)

/-- Lines 601-619. -/
def repl (input : List (List Char)) (process : Process) : Process × Option Error :=
  repl_loop input
    { process with stdout := process.stdout ++ "PanLang REPL. Type 'nirgam' to exit.\n".toList }

/-! ## Vocabulary of the statements, continued -/

/-- The tokens that the first `n` successive calls of `lexer_get_next_token` return. -/
def lex_tokens : Nat → Lexer → List Token
  | 0, _ => []
  | n + 1, lexer =>
    match lexer_get_next_token lexer with
    | none => []
    | some (token, lexer) => token :: lex_tokens n lexer

/-- The errors that are one of the three "Syntax Error" diagnostics of the parser. -/
def is_syntax_error : Error → Bool
  | .SyntaxErrorExpected _ _ => true
  | .SyntaxErrorStatement _ => true
  | .SyntaxErrorFactor _ => true
  | _ => false

/-- What the statement `node` writes to standard output when it is executed in
`process`: the line of a print statement, nothing for an assignment. -/
def statement_output (node : ASTNode) (process : Process) : List Char :=
  match node with
  | NODE_PRINT (NODE_STRING string_val) => string_val ++ ['\n']
  | NODE_PRINT expr =>
    match evaluate_expression process.symbol_table expr with
    | .ok value => format_d value ++ ['\n']
    | .error _ => []
  | _ => []

/-- The output of a statement sequence as the specification words it: the lines of the
statements before the first one that fails, in order; that statement and the later ones
contribute nothing. -/
def output_before_first_failure : List ASTNode → Process → List Char
  | [], _ => []
  | node :: rest, process =>
    match execute_statement node process with
    | .error _ => []
    | .ok next => statement_output node process ++ output_before_first_failure rest next

/-- The result of `n` successive calls of `lexer_get_next_token`: the tokens returned
and the lexer state the last call leaves. -/
def lexer_calls : Nat → Lexer → Option (List Token × Lexer)
  | 0, lexer => some ([], lexer)
  | n + 1, lexer =>
    match lexer_get_next_token lexer with
    | none => none
    | some (token, lexer) =>
      match lexer_calls n lexer with
      | none => none
      | some (tokens, lexer) => some (token :: tokens, lexer)

/-! ## The lexer on the unread text -/

/-- A character of a comment after its `#`: anything but the newline and the terminator
(the loop condition of line 245). -/
def in_comment (c : Char) : Bool := c != '\n' && c != NUL

/-- A character that reaches the `default` of the switch of line 270: not the
terminator, not white space, not `#` and not the start of a token. -/
def is_unrecognized (c : Char) : Bool :=
  !(c == NUL || isspace c || c == '#' || is_token_start c)

/-- The text the lexer passes over before the next token: horizontal white space and
unrecognized characters, and then a comment up to the end of its line if one starts
there. -/
def token_gap : List Char → List Char
  | [] => []
  | c :: rest =>
    if is_blank c || is_unrecognized c then c :: token_gap rest
    else if c = '#' then c :: rest.takeWhile in_comment
    else []

/-- The text that is left after `token_gap`. -/
def after_gap : List Char → List Char
  | [] => []
  | c :: rest =>
    if is_blank c || is_unrecognized c then after_gap rest
    else if c = '#' then rest.dropWhile in_comment
    else c :: rest

/-- The token that starts with the first character of `rest`, and the lexer after it:
what lines 253-285 compute when nothing is left to skip. -/
def token_at (rest : List Char) (lexer : Lexer) : Token × Lexer :=
  if rest.headD NUL = NUL then
    ({ type := TOKEN_EOF, value := none, line := lexer.line, column := lexer.column }, lexer)
  else if isdigit (rest.headD NUL) then
    ({ type := TOKEN_NUMBER, value := some (rest.takeWhile isdigit),
       line := (advance_over (rest.takeWhile isdigit) lexer).line,
       column := (advance_over (rest.takeWhile isdigit) lexer).column
         - ((rest.takeWhile isdigit).length : Nat) },
     advance_over (rest.takeWhile isdigit) lexer)
  else if is_ident_start (rest.headD NUL) then
    ({ type := match keywords.find? (fun kw => kw.1 = rest.takeWhile is_ident_char) with
         | some kw => kw.2
         | none => TOKEN_IDENTIFIER,
       value := some (rest.takeWhile is_ident_char),
       line := (advance_over (rest.takeWhile is_ident_char) lexer).line,
       column := (advance_over (rest.takeWhile is_ident_char) lexer).column
         - ((rest.takeWhile is_ident_char).length : Nat) },
     advance_over (rest.takeWhile is_ident_char) lexer)
  else if rest.headD NUL = '"' then
    ({ type := TOKEN_STRING,
       value := some ('"' :: (rest.tail.takeWhile in_string ++ ['"'])),
       line := (close_string (rest.tail.dropWhile in_string)
         (advance_over (rest.tail.takeWhile in_string) (step_char '"' lexer))).line,
       column := (close_string (rest.tail.dropWhile in_string)
         (advance_over (rest.tail.takeWhile in_string) (step_char '"' lexer))).column
         - ((rest.tail.takeWhile in_string).length : Nat) - 2 },
     close_string (rest.tail.dropWhile in_string)
       (advance_over (rest.tail.takeWhile in_string) (step_char '"' lexer)))
  else if rest.headD NUL = '\n' then
    ({ type := TOKEN_NEWLINE, value := some ['\n'],
       line := (step_char '\n' lexer).line - 1, column := 1 }, step_char '\n' lexer)
  else (lexer_operator_token lexer (rest.headD NUL), step_char (rest.headD NUL) lexer)

/-- The text that is left after the token that starts with the first character of
`rest`. -/
def after_token (rest : List Char) : List Char :=
  if rest.headD NUL = NUL then rest
  else if isdigit (rest.headD NUL) then rest.dropWhile isdigit
  else if is_ident_start (rest.headD NUL) then rest.dropWhile is_ident_char
  else if rest.headD NUL = '"' then
    if (rest.tail.dropWhile in_string).headD NUL = '"' then
      (rest.tail.dropWhile in_string).tail
    else rest.tail.dropWhile in_string
  else rest.tail

/-- Where a character of the text stands for the lexer: in plain code, inside a string
literal, or inside a comment. -/
inductive TextMode
  | code
  | string
  | comment
  deriving DecidableEq, Repr

/-- The text of the claim about unrecognized characters: every unrecognized character
that stands outside string literals and comments is replaced by a space. A string literal
runs from a `"` met in plain code to the next `"`, a comment from a `#` met in plain code
to the end of its line; the text after the terminator is left alone. -/
def replace_unrecognized : TextMode → List Char → List Char
  | _, [] => []
  | .code, c :: rest =>
    if c = NUL then c :: rest
    else if c = '"' then c :: replace_unrecognized .string rest
    else if c = '#' then c :: replace_unrecognized .comment rest
    else if is_unrecognized c then ' ' :: replace_unrecognized .code rest
    else c :: replace_unrecognized .code rest
  | .string, c :: rest =>
    if c = NUL then c :: rest
    else if c = '"' then c :: replace_unrecognized .code rest
    else c :: replace_unrecognized .string rest
  | .comment, c :: rest =>
    if c = NUL then c :: rest
    else if c = '\n' then c :: replace_unrecognized .code rest
    else c :: replace_unrecognized .comment rest

/-! ## Vocabulary of the statements: the text of a token, positions, progress -/

/-- The characters of the token that starts with the first character of `rest`: what
the lexer moves over when it reads that token. -/
def token_text (rest : List Char) : List Char :=
  if rest.headD NUL = NUL then []
  else if isdigit (rest.headD NUL) then rest.takeWhile isdigit
  else if is_ident_start (rest.headD NUL) then rest.takeWhile is_ident_char
  else if rest.headD NUL = '"' then
    '"' :: (rest.tail.takeWhile in_string
      ++ (if (rest.tail.dropWhile in_string).headD NUL = '"' then ['"'] else []))
  else [rest.headD NUL]

/-- A bound on the tokens the parser has not consumed yet: the unread characters, and
one each for the current and the lookahead token unless they are the end of input. -/
def pending (parser : Parser) : Nat :=
  unread parser + (if parser.current_token.type = TOKEN_EOF then 0 else 1)
    + (if parser.peek_token.type = TOKEN_EOF then 0 else 1)

/-- The 1-based line of the character that follows the text `before`: one more than the
number of newlines in `before`. -/
def line_of (before : List Char) : Int := 1 + (before.count '\n' : Nat)

/-- The 1-based column of the character that follows the text `before`: one more than
the number of characters of `before` after its last newline. -/
def column_of (before : List Char) : Int :=
  1 + ((before.reverse.takeWhile (fun c => c != '\n')).length : Nat)

/-- The line and column of the lexer are those of the character at its position. -/
def tracks_position (lexer : Lexer) : Prop :=
  lexer.line = line_of (lexer.code.take lexer.pos)
    ∧ lexer.column = column_of (lexer.code.take lexer.pos)

/-- The index in the text of the first character of the token that the next call of
the lexer returns: the position after the text the call passes over. -/
def token_start (lexer : Lexer) : Nat :=
  lexer.pos + (token_gap (lexer.code.drop lexer.pos)).length

/-! ## Host integers: lemmas -/

theorem wrap32_of_range (x : Int) (h1 : INT_MIN ≤ x) (h2 : x ≤ INT_MAX) : wrap32 x = x := by
  unfold wrap32; unfold INT_MIN at h1; unfold INT_MAX at h2; omega

theorem wrap32_two : wrap32 2 = 2 := by decide

theorem format_d_two : format_d 2 = ['2'] := by decide!

/-! ## Symbol table: lemmas -/

theorem get_symbol_set_symbol_existing (name : List Char) (v : Int) :
    ∀ (tbl updated : List Symbol), set_symbol_existing name v tbl = some updated →
      get_symbol updated name = .ok v
        ∧ (∀ other, other ≠ name → get_symbol updated other = get_symbol tbl other)
        ∧ updated.map Symbol.name = tbl.map Symbol.name := by
  intro tbl
  induction tbl with
  | nil => intro updated h; simp [set_symbol_existing] at h
  | cons cur next ih =>
    intro updated h
    unfold set_symbol_existing at h
    by_cases hc : cur.name = name
    · simp only [hc, if_true, Option.some.injEq] at h
      subst h
      subst hc
      refine ⟨by simp [get_symbol], ?_, by simp⟩
      intro other ho
      have : ¬ cur.name = other := fun h => ho h.symm
      simp [get_symbol, this]
    · simp only [hc, if_false] at h
      cases hrec : set_symbol_existing name v next with
      | none => simp [hrec] at h
      | some next2 =>
        simp only [hrec, Option.some.injEq] at h
        subst h
        obtain ⟨h1, h2, h3⟩ := ih next2 hrec
        refine ⟨by simp [get_symbol, hc, h1], ?_, by simp [h3]⟩
        intro other ho
        simp only [get_symbol]
        rw [h2 other ho]

theorem set_symbol_existing_none (name : List Char) (v : Int) :
    ∀ (tbl : List Symbol), set_symbol_existing name v tbl = none →
      name ∉ tbl.map Symbol.name := by
  intro tbl
  induction tbl with
  | nil => intro _; simp
  | cons cur next ih =>
    intro h
    unfold set_symbol_existing at h
    by_cases hc : cur.name = name
    · simp [hc] at h
    · simp only [hc, if_false] at h
      cases hrec : set_symbol_existing name v next with
      | none =>
        have := ih hrec
        simp only [List.map_cons, List.mem_cons, not_or]
        exact ⟨fun h => hc h.symm, this⟩
      | some next2 => simp [hrec] at h

theorem get_symbol_set_symbol_same (tbl : List Symbol) (name : List Char) (v : Int) :
    get_symbol (set_symbol tbl name v) name = .ok v := by
  unfold set_symbol
  cases h : set_symbol_existing name v tbl with
  | some updated => exact (get_symbol_set_symbol_existing name v tbl updated h).1
  | none => simp [get_symbol]

theorem get_symbol_set_symbol_other (tbl : List Symbol) (name other : List Char) (v : Int)
    (ho : other ≠ name) : get_symbol (set_symbol tbl name v) other = get_symbol tbl other := by
  unfold set_symbol
  cases h : set_symbol_existing name v tbl with
  | some updated => exact (get_symbol_set_symbol_existing name v tbl updated h).2.1 other ho
  | none =>
    have : ¬ name = other := fun h => ho h.symm
    simp [get_symbol, this]

theorem set_symbol_nodup (tbl : List Symbol) (name : List Char) (v : Int)
    (hn : (tbl.map Symbol.name).Nodup) : ((set_symbol tbl name v).map Symbol.name).Nodup := by
  unfold set_symbol
  cases h : set_symbol_existing name v tbl with
  | some updated =>
    rw [(get_symbol_set_symbol_existing name v tbl updated h).2.2]; exact hn
  | none =>
    simp only [List.map_cons, List.nodup_cons]
    exact ⟨set_symbol_existing_none name v tbl h, hn⟩

theorem get_symbol_error_iff (tbl : List Symbol) (name : List Char) :
    (∃ e, get_symbol tbl name = .error e) ↔ name ∉ tbl.map Symbol.name := by
  induction tbl with
  | nil => simp [get_symbol]
  | cons cur next ih =>
    by_cases hc : cur.name = name
    · simp [get_symbol, hc]
    · have : ¬ name = cur.name := fun h => hc h.symm
      simp [get_symbol, hc, this, ih]

theorem get_symbol_error_is_name_error (tbl : List Symbol) (name : List Char) (e : Error)
    (h : get_symbol tbl name = .error e) : e = .NameError name := by
  induction tbl with
  | nil => simp [get_symbol] at h; exact h.symm
  | cons cur next ih =>
    by_cases hc : cur.name = name
    · simp [get_symbol, hc] at h
    · simp only [get_symbol, hc, if_false] at h; exact ih h

theorem get_symbol_of_mem (tbl : List Symbol) (name : List Char) (v : Int)
    (hn : (tbl.map Symbol.name).Nodup) (hm : ({ name := name, value := v } : Symbol) ∈ tbl) :
    get_symbol tbl name = .ok v := by
  induction tbl with
  | nil => simp at hm
  | cons cur next ih =>
    simp only [List.map_cons, List.nodup_cons] at hn
    rcases List.mem_cons.mp hm with h | h
    · subst h; simp [get_symbol]
    · have hne : ¬ cur.name = name := by
        intro hc
        apply hn.1
        rw [hc]
        exact List.mem_map.mpr ⟨_, h, rfl⟩
      simp only [get_symbol, hne, if_false]
      exact ih hn.2 h

/-! ## Statements: lemmas -/

theorem execute_print_value (process : Process) (expr : ASTNode) (v : Int)
    (hs : ∀ s, expr ≠ NODE_STRING s)
    (hv : evaluate_expression process.symbol_table expr = .ok v) :
    execute_statement (NODE_PRINT expr) process
      = .ok { process with stdout := process.stdout ++ format_d v ++ ['\n'] } := by
  cases expr with
  | NODE_STRING s => exact absurd rfl (hs s)
  | _ => simp only [execute_statement, hv]

theorem execute_print_error (process : Process) (expr : ASTNode) (e : Error)
    (hs : ∀ s, expr ≠ NODE_STRING s)
    (hv : evaluate_expression process.symbol_table expr = .error e) :
    execute_statement (NODE_PRINT expr) process = .error e := by
  cases expr with
  | NODE_STRING s => exact absurd rfl (hs s)
  | _ => simp only [execute_statement, hv]

theorem execute_statements_single_ok (node : ASTNode) (process next : Process)
    (h : execute_statement node process = .ok next) :
    execute_statements [node] process = (next, none) := by
  simp [execute_statements, h]

theorem execute_statements_single_error (node : ASTNode) (process : Process) (e : Error)
    (h : execute_statement node process = .error e) :
    execute_statements [node] process = (process, some e) := by
  simp [execute_statements, h]

/-! ## Truncating division: lemmas -/

theorem natAbs_tmod_eq (a b : Int) : (a.tmod b).natAbs = a.natAbs % b.natAbs := by
  cases a <;> cases b <;> simp [Int.tmod, Int.natAbs_neg] <;> rfl

theorem tdiv_truncates (a b : Int) (hb : b ≠ 0) :
    (Int.tdiv a b * b).natAbs ≤ a.natAbs ∧ (a - Int.tdiv a b * b).natAbs < b.natAbs := by
  constructor
  · rw [Int.natAbs_mul, Int.natAbs_tdiv]
    exact Nat.div_mul_le_self _ _
  · have : a - Int.tdiv a b * b = a.tmod b := by rw [Int.tmod_def, Int.mul_comm]
    rw [this, natAbs_tmod_eq]
    exact Nat.mod_lt _ (Int.natAbs_pos.mpr hb)

theorem set_symbol_foldl_nodup (updates : List (List Char × Int)) :
    ∀ tbl : List Symbol, (tbl.map Symbol.name).Nodup →
      ((updates.foldl (fun t u => set_symbol t u.1 u.2) tbl).map Symbol.name).Nodup := by
  induction updates with
  | nil => intro tbl h; exact h
  | cons u rest ih =>
    intro tbl h
    exact ih _ (set_symbol_nodup tbl u.1 u.2 h)

/-! ## Parser: lemmas -/

/-- One more unit of fuel does not change a successful parse. -/
theorem parse_fuel_succ (n : Nat) :
    (∀ p r, parse_expression n p = .ok r → parse_expression (n + 1) p = .ok r)
    ∧ (∀ l p r, parse_expression_loop n l p = .ok r → parse_expression_loop (n + 1) l p = .ok r)
    ∧ (∀ p r, parse_term n p = .ok r → parse_term (n + 1) p = .ok r)
    ∧ (∀ l p r, parse_term_loop n l p = .ok r → parse_term_loop (n + 1) l p = .ok r)
    ∧ (∀ p r, parse_factor n p = .ok r → parse_factor (n + 1) p = .ok r) := by
  induction n with
  | zero =>
    refine ⟨?_, ?_, ?_, ?_, ?_⟩ <;> intros <;> simp_all [parse_expression, parse_expression_loop,
      parse_term, parse_term_loop, parse_factor]
  | succ n ih =>
    obtain ⟨ihE, ihEL, ihT, ihTL, ihF⟩ := ih
    refine ⟨?_, ?_, ?_, ?_, ?_⟩
    · intro p r h
      rw [parse_expression] at h
      rw [parse_expression]
      cases ht : parse_term n p with
      | error e => simp [ht] at h
      | ok v =>
        obtain ⟨left, p1⟩ := v
        simp only [ht] at h
        rw [ihT p _ ht]
        exact ihEL _ _ _ h
    · intro l p r h
      rw [parse_expression_loop] at h
      rw [parse_expression_loop]
      by_cases hc : p.current_token.type = TOKEN_PLUS ∨ p.current_token.type = TOKEN_MINUS
      · simp only [hc, if_true] at h ⊢
        cases ha : parser_advance p with
        | error e => simp [ha] at h
        | ok p1 =>
          simp only [ha] at h ⊢
          cases ht : parse_term n p1 with
          | error e => simp [ht] at h
          | ok v =>
            obtain ⟨right, p2⟩ := v
            simp only [ht] at h
            rw [ihT p1 _ ht]
            exact ihEL _ _ _ h
      · simp only [hc, if_false] at h ⊢
        exact h
    · intro p r h
      rw [parse_term] at h
      rw [parse_term]
      cases ht : parse_factor n p with
      | error e => simp [ht] at h
      | ok v =>
        obtain ⟨left, p1⟩ := v
        simp only [ht] at h
        rw [ihF p _ ht]
        exact ihTL _ _ _ h
    · intro l p r h
      rw [parse_term_loop] at h
      rw [parse_term_loop]
      by_cases hc : p.current_token.type = TOKEN_TIMES ∨ p.current_token.type = TOKEN_DIVIDE
      · simp only [hc, if_true] at h ⊢
        cases ha : parser_advance p with
        | error e => simp [ha] at h
        | ok p1 =>
          simp only [ha] at h ⊢
          cases ht : parse_factor n p1 with
          | error e => simp [ht] at h
          | ok v =>
            obtain ⟨right, p2⟩ := v
            simp only [ht] at h
            rw [ihF p1 _ ht]
            exact ihTL _ _ _ h
      · simp only [hc, if_false] at h ⊢
        exact h
    · intro p r h
      rw [parse_factor] at h
      rw [parse_factor]
      by_cases h1 : p.current_token.type = TOKEN_NUMBER
      · simp only [h1, if_true] at h ⊢; exact h
      · by_cases h2 : p.current_token.type = TOKEN_STRING
        · simp only [h2, if_true, if_false] at h ⊢; exact h
        · by_cases h3 : p.current_token.type = TOKEN_IDENTIFIER
          · simp only [h3, if_true, if_false] at h ⊢; exact h
          · by_cases h4 : p.current_token.type = TOKEN_LPAREN
            · simp only [h4, if_true, if_false] at h ⊢
              cases ha : parser_advance p with
              | error e => simp [ha] at h
              | ok p1 =>
                simp only [ha] at h ⊢
                cases he : parse_expression n p1 with
                | error e => simp [he] at h
                | ok v =>
                  obtain ⟨node, p2⟩ := v
                  simp only [he] at h
                  rw [ihE p1 _ he]
                  exact h
            · simp only [h1, h2, h3, h4, if_false] at h ⊢
              exact h

theorem parse_factor_mono {n m : Nat} (h : n ≤ m) (p : Parser) (r : ASTNode × Parser)
    (hr : parse_factor n p = .ok r) : parse_factor m p = .ok r := by
  induction h with
  | refl => exact hr
  | step _ ih => exact (parse_fuel_succ _).2.2.2.2 p r ih

theorem parse_term_mono {n m : Nat} (h : n ≤ m) (p : Parser) (r : ASTNode × Parser)
    (hr : parse_term n p = .ok r) : parse_term m p = .ok r := by
  induction h with
  | refl => exact hr
  | step _ ih => exact (parse_fuel_succ _).2.2.1 p r ih

theorem parse_expression_mono {n m : Nat} (h : n ≤ m) (p : Parser) (r : ASTNode × Parser)
    (hr : parse_expression n p = .ok r) : parse_expression m p = .ok r := by
  induction h with
  | refl => exact hr
  | step _ ih => exact (parse_fuel_succ _).1 p r ih

theorem parse_term_loop_exit (n : Nat) (left : ASTNode) (p : Parser)
    (h : ¬ is_multiplicative p.current_token.type) :
    parse_term_loop (n + 1) left p = .ok (left, p) := by
  unfold is_multiplicative at h
  rw [parse_term_loop]; simp only [h, if_false]

theorem parse_expression_loop_exit (n : Nat) (left : ASTNode) (p : Parser)
    (h : ¬ is_additive p.current_token.type) :
    parse_expression_loop (n + 1) left p = .ok (left, p) := by
  unfold is_additive at h
  rw [parse_expression_loop]; simp only [h, if_false]

theorem parse_term_loop_step (n : Nat) (left right : ASTNode) (p q p2 : Parser)
    (h : is_multiplicative p.current_token.type) (ha : parser_advance p = .ok q)
    (hf : parse_factor n q = .ok (right, p2)) :
    parse_term_loop (n + 1) left p
      = parse_term_loop n (NODE_BINOP left p.current_token.type right) p2 := by
  unfold is_multiplicative at h
  rw [parse_term_loop]; simp only [h, if_true, ha, hf]

theorem parse_expression_loop_step (n : Nat) (left right : ASTNode) (p q p2 : Parser)
    (h : is_additive p.current_token.type) (ha : parser_advance p = .ok q)
    (hf : parse_term n q = .ok (right, p2)) :
    parse_expression_loop (n + 1) left p
      = parse_expression_loop n (NODE_BINOP left p.current_token.type right) p2 := by
  unfold is_additive at h
  rw [parse_expression_loop]; simp only [h, if_true, ha, hf]

theorem parse_term_eq (n : Nat) (p p1 : Parser) (a : ASTNode)
    (hf : parse_factor n p = .ok (a, p1)) :
    parse_term (n + 1) p = parse_term_loop n a p1 := by
  rw [parse_term, hf]

theorem parse_expression_eq (n : Nat) (p p1 : Parser) (a : ASTNode)
    (ht : parse_term n p = .ok (a, p1)) :
    parse_expression (n + 1) p = parse_expression_loop n a p1 := by
  rw [parse_expression, ht]

theorem parse_factor_fuel_pos (n : Nat) (p : Parser) (r : ASTNode × Parser)
    (hf : parse_factor n p = .ok r) : 1 ≤ n := by
  cases n with
  | zero => simp [parse_factor] at hf
  | succ n => omega

theorem parse_term_of_factor (n : Nat) (p p1 : Parser) (a : ASTNode)
    (hf : parse_factor n p = .ok (a, p1)) (h : ¬ is_multiplicative p1.current_token.type) :
    parse_term (n + 2) p = .ok (a, p1) := by
  rw [parse_term_eq (n + 1) p p1 a (parse_factor_mono (Nat.le_succ n) p _ hf)]
  exact parse_term_loop_exit n a p1 h

theorem not_multiplicative_of_additive {t : TokenType} (h : is_additive t) :
    ¬ is_multiplicative t := by
  unfold is_additive at h; unfold is_multiplicative
  rcases h with h | h <;> subst h <;> decide

theorem not_additive_of_multiplicative {t : TokenType} (h : is_multiplicative t) :
    ¬ is_additive t := by
  unfold is_multiplicative at h; unfold is_additive
  rcases h with h | h <;> subst h <;> decide

theorem operand_chain_head_not_multiplicative (p p_end : Parser)
    (steps : List (TokenType × ASTNode)) (hc : OperandChain is_additive p steps p_end)
    (hend : ¬ is_multiplicative p_end.current_token.type) :
    ¬ is_multiplicative p.current_token.type := by
  cases hc with
  | nil => exact hend
  | cons => exact not_multiplicative_of_additive (by assumption)

theorem parse_term_loop_chain (p p_end : Parser) (steps : List (TokenType × ASTNode))
    (hc : OperandChain is_multiplicative p steps p_end)
    (hend : ¬ is_multiplicative p_end.current_token.type) :
    ∀ left, ∃ N, ∀ fuel, N ≤ fuel →
      parse_term_loop fuel left p = .ok (left_fold left steps, p_end) := by
  induction hc with
  | nil p =>
    intro left
    refine ⟨1, fun fuel hf => ?_⟩
    obtain ⟨k, rfl⟩ : ∃ k, fuel = k + 1 := ⟨fuel - 1, by omega⟩
    exact parse_term_loop_exit k left p hend
  | cons n p q p1 p_end f rest hop hadv hf _ ih =>
    intro left
    obtain ⟨N, hN⟩ := ih hend (NODE_BINOP left p.current_token.type f)
    refine ⟨max N n + 1, fun fuel hfuel => ?_⟩
    obtain ⟨k, rfl, hk1, hk2⟩ : ∃ k, fuel = k + 1 ∧ N ≤ k ∧ n ≤ k :=
      ⟨fuel - 1, by omega, by omega, by omega⟩
    rw [parse_term_loop_step k left f p q p1 hop hadv (parse_factor_mono hk2 _ _ hf)]
    exact hN k hk1

theorem parse_expression_loop_chain (p p_end : Parser) (steps : List (TokenType × ASTNode))
    (hc : OperandChain is_additive p steps p_end)
    (hend : ¬ is_additive p_end.current_token.type
      ∧ ¬ is_multiplicative p_end.current_token.type) :
    ∀ left, ∃ N, ∀ fuel, N ≤ fuel →
      parse_expression_loop fuel left p = .ok (left_fold left steps, p_end) := by
  induction hc with
  | nil p =>
    intro left
    refine ⟨1, fun fuel hf => ?_⟩
    obtain ⟨k, rfl⟩ : ∃ k, fuel = k + 1 := ⟨fuel - 1, by omega⟩
    exact parse_expression_loop_exit k left p hend.1
  | cons n p q p1 p_end f rest hop hadv hf hrest ih =>
    intro left
    obtain ⟨N, hN⟩ := ih hend (NODE_BINOP left p.current_token.type f)
    refine ⟨max N (n + 2) + 1, fun fuel hfuel => ?_⟩
    obtain ⟨k, rfl, hk1, hk2⟩ : ∃ k, fuel = k + 1 ∧ N ≤ k ∧ n + 2 ≤ k :=
      ⟨fuel - 1, by omega, by omega, by omega⟩
    have hT : parse_term k q = .ok (f, p1) :=
      parse_term_mono hk2 _ _ (parse_term_of_factor n q p1 f hf
        (operand_chain_head_not_multiplicative p1 p_end rest hrest hend.2))
    rw [parse_expression_loop_step k left f p q p1 hop hadv hT]
    exact hN k hk1


/-! ## Lexer: lemmas -/

theorem strlen_nil : strlen [] = 0 := rfl

theorem strlen_cons (c : Char) (s : List Char) :
    strlen (c :: s) = if c = NUL then 0 else strlen s + 1 := by
  unfold strlen
  by_cases h : c = NUL <;> simp [List.takeWhile_cons, h]

theorem strlen_le_length (s : List Char) : strlen s ≤ s.length := by
  induction s with
  | nil => simp [strlen_nil]
  | cons c s ih =>
    rw [strlen_cons]
    by_cases h : c = NUL <;> simp [h]; omega

theorem charAt_nil (i : Nat) : charAt [] i = NUL := by simp [charAt]

theorem charAt_cons_zero (c : Char) (s : List Char) : charAt (c :: s) 0 = c := by simp [charAt]

theorem charAt_cons_succ (c : Char) (s : List Char) (i : Nat) :
    charAt (c :: s) (i + 1) = charAt s i := by simp [charAt]

theorem charAt_eq_headD_drop (s : List Char) (i : Nat) : charAt s i = (s.drop i).headD NUL := by
  induction s generalizing i with
  | nil => simp [charAt]
  | cons c s ih =>
    cases i with
    | zero => simp [charAt]
    | succ i => rw [charAt_cons_succ, ih]; simp

theorem strlen_drop (s : List Char) (i : Nat) (h : i ≤ strlen s) :
    strlen (s.drop i) = strlen s - i := by
  induction s generalizing i with
  | nil => simp [strlen_nil]
  | cons c s ih =>
    cases i with
    | zero => simp
    | succ i =>
      rw [strlen_cons] at h ⊢
      by_cases hc : c = NUL
      · simp [hc] at h
      · simp only [hc, if_false] at h ⊢
        rw [List.drop_succ_cons, ih i (by omega)]
        omega

theorem LexAt.charAt_eq {lexer : Lexer} {rest : List Char} (h : LexAt lexer rest) :
    charAt lexer.code lexer.pos = rest.headD NUL := by
  rw [charAt_eq_headD_drop, h.drop_eq]

theorem LexAt.unread_eq {lexer : Lexer} {rest : List Char} (h : LexAt lexer rest) :
    strlen lexer.code - lexer.pos = strlen rest := by
  rw [← h.drop_eq, strlen_drop _ _ h.pos_le]

theorem LexAt.pos_lt_iff {lexer : Lexer} {rest : List Char} (h : LexAt lexer rest) :
    lexer.pos < strlen lexer.code ↔ rest.headD NUL ≠ NUL := by
  have h1 := h.unread_eq
  have h2 := h.pos_le
  cases rest with
  | nil => simp [strlen_nil] at h1 ⊢; omega
  | cons c r =>
    rw [strlen_cons] at h1
    by_cases hc : c = NUL
    · simp [hc] at h1 ⊢; omega
    · simp [hc] at h1 ⊢; omega

theorem lexAt_init (code : List Char) : LexAt (lexer_init code) code :=
  ⟨by simp [lexer_init], by simp [lexer_init]⟩


theorem step_char_code (c : Char) (lexer : Lexer) : (step_char c lexer).code = lexer.code := by
  unfold step_char; split <;> rfl

theorem step_char_pos (c : Char) (lexer : Lexer) : (step_char c lexer).pos = lexer.pos + 1 := by
  unfold step_char; split <;> rfl

theorem advance_over_nil (lexer : Lexer) : advance_over [] lexer = lexer := rfl

theorem advance_over_cons (c : Char) (cs : List Char) (lexer : Lexer) :
    advance_over (c :: cs) lexer = advance_over cs (step_char c lexer) := rfl

theorem advance_over_append (cs ds : List Char) (lexer : Lexer) :
    advance_over (cs ++ ds) lexer = advance_over ds (advance_over cs lexer) := by
  simp [advance_over, List.foldl_append]

theorem advance_over_code (cs : List Char) (lexer : Lexer) :
    (advance_over cs lexer).code = lexer.code := by
  induction cs generalizing lexer with
  | nil => rfl
  | cons c cs ih => rw [advance_over_cons, ih, step_char_code]

theorem advance_over_pos (cs : List Char) (lexer : Lexer) :
    (advance_over cs lexer).pos = lexer.pos + cs.length := by
  induction cs generalizing lexer with
  | nil => rfl
  | cons c cs ih => rw [advance_over_cons, ih, step_char_pos, List.length_cons]; omega

theorem advance_over_same_line (cs : List Char) (lexer : Lexer) (h : ∀ c ∈ cs, c ≠ '\n') :
    advance_over cs lexer
      = { lexer with pos := lexer.pos + cs.length, column := lexer.column + cs.length } := by
  induction cs generalizing lexer with
  | nil => simp [advance_over]
  | cons c cs ih =>
    have hc : c ≠ '\n' := h c (List.mem_cons_self _ _)
    rw [advance_over_cons, ih _ (fun d hd => h d (List.mem_cons_of_mem _ hd))]
    simp only [step_char, hc, if_false, List.length_cons, Nat.cast_add, Nat.cast_one]
    congr 1 <;> omega

theorem lexAt_step {lexer : Lexer} {c : Char} {rest : List Char}
    (h : LexAt lexer (c :: rest)) (hc : c ≠ NUL) :
    lexer_advance_char lexer = step_char c lexer ∧ LexAt (step_char c lexer) rest := by
  have hlt : lexer.pos < strlen lexer.code := h.pos_lt_iff.mpr (by simpa using hc)
  have hch : charAt lexer.code lexer.pos = c := by rw [h.charAt_eq]; rfl
  refine ⟨?_, ?_, ?_⟩
  · unfold lexer_advance_char step_char
    simp only [hlt, if_true, hch]
  · rw [step_char_code, step_char_pos]
    have := h.drop_eq
    rw [← List.drop_drop, this]
    rfl
  · rw [step_char_code, step_char_pos]; omega

theorem takeWhile_length_le_strlen (P : Char → Bool) (hP : P NUL = false) (rest : List Char) :
    (rest.takeWhile P).length ≤ strlen rest := by
  induction rest with
  | nil => simp
  | cons c r ih =>
    rw [List.takeWhile_cons, strlen_cons]
    by_cases hc : P c = true
    · have : c ≠ NUL := fun h => by rw [h, hP] at hc; exact absurd hc (by simp)
      simp [hc, this]; exact ih
    · simp [hc]

/-- What a scanning loop `while (P(code[pos])) lexer_advance_char(lexer)` computes. -/
theorem scan_loop_spec (P : Char → Bool) (hP : P NUL = false)
    (loop : Nat → Lexer → Option Lexer)
    (h0 : ∀ lexer, loop 0 lexer
      = if P (charAt lexer.code lexer.pos) = true then none else some lexer)
    (hs : ∀ fuel lexer, loop (fuel + 1) lexer
      = if P (charAt lexer.code lexer.pos) = true then loop fuel (lexer_advance_char lexer)
        else some lexer) :
    ∀ (rest : List Char) (lexer : Lexer) (fuel : Nat), LexAt lexer rest →
      (rest.takeWhile P).length ≤ fuel →
      loop fuel lexer = some (advance_over (rest.takeWhile P) lexer)
        ∧ LexAt (advance_over (rest.takeWhile P) lexer) (rest.dropWhile P) := by
  intro rest
  induction rest with
  | nil =>
    intro lexer fuel h _
    have hch : P (charAt lexer.code lexer.pos) = false := by rw [h.charAt_eq]; exact hP
    cases fuel with
    | zero => simp [h0, hch, advance_over_nil, h]
    | succ f => simp [hs, hch, advance_over_nil, h]
  | cons c r ih =>
    intro lexer fuel h hfuel
    have hch : charAt lexer.code lexer.pos = c := by rw [h.charAt_eq]; rfl
    by_cases hc : P c = true
    · have hne : c ≠ NUL := fun h => by rw [h, hP] at hc; exact absurd hc (by simp)
      obtain ⟨hadv, hat⟩ := lexAt_step h hne
      simp only [List.takeWhile_cons, hc, if_true, List.length_cons] at hfuel
      obtain ⟨f, rfl⟩ : ∃ f, fuel = f + 1 := ⟨fuel - 1, by omega⟩
      obtain ⟨h1, h2⟩ := ih (step_char c lexer) f hat (by omega)
      rw [hs, hch]
      simp only [hc, if_true, hadv, List.takeWhile_cons, List.dropWhile_cons, advance_over_cons]
      exact ⟨h1, h2⟩
    · have hcf : P c = false := by simpa using hc
      cases fuel with
      | zero => simp [h0, hch, hcf, List.takeWhile_cons, List.dropWhile_cons, advance_over_nil, h]
      | succ f =>
        simp [hs, hch, hcf, List.takeWhile_cons, List.dropWhile_cons, advance_over_nil, h]


theorem take_length_takeWhile (P : Char → Bool) (rest : List Char) :
    rest.take (rest.takeWhile P).length = rest.takeWhile P := by
  induction rest with
  | nil => simp
  | cons c r ih =>
    rw [List.takeWhile_cons]
    by_cases hc : P c = true
    · simp [hc, ih]
    · simp [hc]

theorem substr_of_lexAt {lexer : Lexer} {rest : List Char} (h : LexAt lexer rest)
    (P : Char → Bool) :
    substr (advance_over (rest.takeWhile P) lexer).code lexer.pos
        ((advance_over (rest.takeWhile P) lexer).pos - lexer.pos) = rest.takeWhile P := by
  rw [advance_over_code, advance_over_pos]
  unfold substr
  rw [h.drop_eq, Nat.add_sub_cancel_left, take_length_takeWhile]

theorem isdigit_NUL : isdigit NUL = false := by decide

theorem lexer_read_number_spec {lexer : Lexer} {rest : List Char} (h : LexAt lexer rest) :
    lexer_read_number lexer
      = some ({ type := TOKEN_NUMBER, value := some (rest.takeWhile isdigit),
                line := (advance_over (rest.takeWhile isdigit) lexer).line,
                column := (advance_over (rest.takeWhile isdigit) lexer).column
                  - ((rest.takeWhile isdigit).length : Nat) },
              advance_over (rest.takeWhile isdigit) lexer)
      ∧ LexAt (advance_over (rest.takeWhile isdigit) lexer) (rest.dropWhile isdigit) := by
  have hfuel : (rest.takeWhile isdigit).length ≤ strlen lexer.code - lexer.pos := by
    rw [h.unread_eq]; exact takeWhile_length_le_strlen _ isdigit_NUL rest
  obtain ⟨h1, h2⟩ := scan_loop_spec isdigit isdigit_NUL lexer_read_number_loop
    (fun lx => by simp [lexer_read_number_loop])
    (fun f lx => by simp [lexer_read_number_loop]) rest lexer _ h hfuel
  refine ⟨?_, h2⟩
  unfold lexer_read_number
  simp only [h1, substr_of_lexAt h]
  simp [advance_over_pos]


/-- The loop condition of `lexer_read_identifier`. -/
theorem is_ident_char_NUL : (fun c : Char => isalnum c || c == '_') NUL = false := by decide

theorem lexer_read_identifier_loop_spec {lexer : Lexer} {rest : List Char} (h : LexAt lexer rest) :
    lexer_read_identifier_loop (strlen lexer.code - lexer.pos) lexer
      = some (advance_over (rest.takeWhile (fun c => isalnum c || c == '_')) lexer)
      ∧ LexAt (advance_over (rest.takeWhile (fun c => isalnum c || c == '_')) lexer)
          (rest.dropWhile (fun c => isalnum c || c == '_')) := by
  have hfuel : (rest.takeWhile (fun c => isalnum c || c == '_')).length
      ≤ strlen lexer.code - lexer.pos := by
    rw [h.unread_eq]; exact takeWhile_length_le_strlen _ is_ident_char_NUL rest
  exact scan_loop_spec (fun c => isalnum c || c == '_') is_ident_char_NUL
    lexer_read_identifier_loop
    (fun lx => by simp [lexer_read_identifier_loop])
    (fun f lx => by simp [lexer_read_identifier_loop]) rest lexer _ h hfuel

theorem lexer_read_identifier_spec {lexer : Lexer} {rest : List Char} (h : LexAt lexer rest) :
    lexer_read_identifier lexer
      = some ({ type := match keywords.find?
                    (fun kw => kw.1 = rest.takeWhile (fun c => isalnum c || c == '_')) with
                  | some kw => kw.2
                  | none => TOKEN_IDENTIFIER,
                value := some (rest.takeWhile (fun c => isalnum c || c == '_')),
                line := (advance_over (rest.takeWhile (fun c => isalnum c || c == '_')) lexer).line,
                column :=
                  (advance_over (rest.takeWhile (fun c => isalnum c || c == '_')) lexer).column
                  - ((rest.takeWhile (fun c => isalnum c || c == '_')).length : Nat) },
              advance_over (rest.takeWhile (fun c => isalnum c || c == '_')) lexer)
      ∧ LexAt (advance_over (rest.takeWhile (fun c => isalnum c || c == '_')) lexer)
          (rest.dropWhile (fun c => isalnum c || c == '_')) := by
  obtain ⟨h1, h2⟩ := lexer_read_identifier_loop_spec h
  refine ⟨?_, h2⟩
  unfold lexer_read_identifier
  simp only [h1, substr_of_lexAt h]
  cases hk : keywords.find? (fun kw => kw.1 = rest.takeWhile (fun c => isalnum c || c == '_')) with
  | none => simp [advance_over_pos]
  | some kw =>
    have : kw.1 = rest.takeWhile (fun c => isalnum c || c == '_') := by
      have := List.find?_some hk
      simpa using this
    simp [advance_over_pos, this]

theorem in_string_NUL : in_string NUL = false := by decide

theorem lexer_read_string_loop_spec {lexer : Lexer} {rest : List Char} (h : LexAt lexer rest) :
    lexer_read_string_loop (strlen lexer.code - lexer.pos) lexer
      = some (advance_over (rest.takeWhile in_string) lexer)
      ∧ LexAt (advance_over (rest.takeWhile in_string) lexer) (rest.dropWhile in_string) := by
  have hfuel : (rest.takeWhile in_string).length ≤ strlen lexer.code - lexer.pos := by
    rw [h.unread_eq]; exact takeWhile_length_le_strlen _ in_string_NUL rest
  exact scan_loop_spec in_string in_string_NUL lexer_read_string_loop
    (fun lx => by simp [lexer_read_string_loop, in_string])
    (fun f lx => by simp [lexer_read_string_loop, in_string]) rest lexer _ h hfuel


theorem lexer_advance_char_at_end (lexer : Lexer) (h : ¬ lexer.pos < strlen lexer.code) :
    lexer_advance_char lexer = lexer := by
  unfold lexer_advance_char; simp only [h, if_false]

theorem lexer_skip_blanks_none_to_skip (fuel : Nat) (lexer : Lexer)
    (h : lexer.pos < strlen lexer.code →
      isspace (charAt lexer.code lexer.pos) = false ∧ charAt lexer.code lexer.pos ≠ '#') :
    lexer_skip_blanks fuel lexer = some lexer := by
  by_cases hlt : lexer.pos < strlen lexer.code
  · obtain ⟨h1, h2⟩ := h hlt
    cases fuel <;> simp [lexer_skip_blanks, hlt, h1, h2]
  · cases fuel <;> simp [lexer_skip_blanks, hlt]

theorem lexer_get_next_token_eof (lexer : Lexer) (h : strlen lexer.code ≤ lexer.pos) :
    lexer_get_next_token lexer
      = some ({ type := TOKEN_EOF, value := none, line := lexer.line, column := lexer.column },
              lexer) := by
  have hlt : ¬ lexer.pos < strlen lexer.code := by omega
  unfold lexer_get_next_token
  rw [lexer_get_next_token_fuel]
  rw [lexer_skip_blanks_none_to_skip _ lexer (fun h => absurd h hlt)]
  simp [h]

/-- The dispatch of `lexer_get_next_token` on a first character that needs no skipping. -/
theorem lexer_get_next_token_dispatch (lexer : Lexer) (hlt : lexer.pos < strlen lexer.code)
    (hsp : isspace (charAt lexer.code lexer.pos) = false ∨ charAt lexer.code lexer.pos = '\n')
    (hhash : charAt lexer.code lexer.pos ≠ '#')
    (hknown : (lexer_operator_token lexer (charAt lexer.code lexer.pos)).type ≠ TOKEN_UNKNOWN
      ∨ isdigit (charAt lexer.code lexer.pos) = true
      ∨ isalpha (charAt lexer.code lexer.pos) = true
      ∨ charAt lexer.code lexer.pos = '_'
      ∨ charAt lexer.code lexer.pos = '"'
      ∨ charAt lexer.code lexer.pos = '\n') :
    lexer_get_next_token lexer =
      if isdigit (charAt lexer.code lexer.pos) then lexer_read_number lexer
      else if isalpha (charAt lexer.code lexer.pos) ∨ charAt lexer.code lexer.pos = '_' then
        lexer_read_identifier lexer
      else if charAt lexer.code lexer.pos = '"' then lexer_read_string lexer
      else if charAt lexer.code lexer.pos = '\n' then
        some ({ type := TOKEN_NEWLINE, value := some ['\n'],
                line := (lexer_advance_char lexer).line - 1, column := 1 },
              lexer_advance_char lexer)
      else some (lexer_operator_token lexer (charAt lexer.code lexer.pos),
                 lexer_advance_char lexer) := by
  unfold lexer_get_next_token
  rw [lexer_get_next_token_fuel]
  have hskip : lexer_skip_blanks (strlen lexer.code - lexer.pos) lexer = some lexer := by
    obtain ⟨f, hf⟩ : ∃ f, strlen lexer.code - lexer.pos = f + 1 :=
      ⟨strlen lexer.code - lexer.pos - 1, by omega⟩
    rw [hf, lexer_skip_blanks]
    rcases hsp with hsp | hsp
    · simp [hlt, hsp, hhash]
    · simp [hlt, hsp]
  rw [hskip]
  have hge : ¬ lexer.pos ≥ strlen lexer.code := by omega
  simp only [hge, if_false]
  by_cases h1 : isdigit (charAt lexer.code lexer.pos) = true
  · simp only [h1, if_true]
  · by_cases h2 : isalpha (charAt lexer.code lexer.pos) = true ∨ charAt lexer.code lexer.pos = '_'
    · simp only [h1, h2, if_true, if_false]
    · by_cases h3 : charAt lexer.code lexer.pos = '"'
      · simp only [h1, h2, h3, if_true, if_false]
      · by_cases h4 : charAt lexer.code lexer.pos = '\n'
        · simp only [h1, h2, h3, h4, if_true, if_false]
        · have hk : (lexer_operator_token lexer (charAt lexer.code lexer.pos)).type
              ≠ TOKEN_UNKNOWN := by
            rcases hknown with h | h | h | h | h | h
            · exact h
            · exact absurd h h1
            · exact absurd (Or.inl h) h2
            · exact absurd (Or.inr h) h2
            · exact absurd h h3
            · exact absurd h h4
          simp only [h1, h2, h3, h4, if_false, hk, ne_eq, not_false_eq_true, if_true]


theorem parser_advance_eq (parser : Parser) (token : Token) (lexer : Lexer)
    (h : lexer_get_next_token parser.lexer = some (token, lexer)) :
    parser_advance parser
      = .ok { lexer := lexer, current_token := parser.peek_token, peek_token := token } := by
  simp [parser_advance, parser_next_token, h]

theorem parse_factor_single (fuel : Nat) (parser : Parser) (token : Token) (lexer : Lexer)
    (ht : parser.current_token.type = TOKEN_NUMBER ∨ parser.current_token.type = TOKEN_STRING
      ∨ parser.current_token.type = TOKEN_IDENTIFIER)
    (h : lexer_get_next_token parser.lexer = some (token, lexer)) :
    parse_factor (fuel + 1) parser
      = .ok (factor_node parser.current_token,
             { lexer := lexer, current_token := parser.peek_token, peek_token := token }) := by
  rw [parse_factor, parser_advance_eq parser token lexer h]
  unfold factor_node
  rcases ht with ht | ht | ht <;> simp [ht]

theorem parser_expect_eq (parser : Parser) (type : TokenType) (token : Token) (lexer : Lexer)
    (ht : parser.current_token.type = type)
    (h : lexer_get_next_token parser.lexer = some (token, lexer)) :
    parser_expect parser type
      = .ok { lexer := lexer, current_token := parser.peek_token, peek_token := token } := by
  unfold parser_expect
  simp only [ht, if_true]
  exact parser_advance_eq parser token lexer h

theorem parser_consume_newlines_none (fuel : Nat) (parser : Parser)
    (h : parser.current_token.type ≠ TOKEN_NEWLINE) :
    parser_consume_newlines fuel parser = .ok parser := by
  cases fuel <;> simp [parser_consume_newlines, h]

theorem parse_program_loop_eof (fuel : Nat) (statements : List ASTNode) (parser : Parser)
    (h : parser.current_token.type = TOKEN_EOF) :
    parse_program_loop fuel statements parser = .ok (statements, parser) := by
  cases fuel <;> simp [parse_program_loop, h]

theorem parse_program_loop_step (fuel : Nat) (statements : List ASTNode)
    (parser p1 p2 : Parser) (stmt : ASTNode)
    (hne : parser.current_token.type ≠ TOKEN_EOF)
    (hs : parse_statement parser = .ok (some stmt, p1))
    (hc : parser_consume_newlines (unread p1 + 2) p1 = .ok p2) :
    parse_program_loop (fuel + 1) statements parser
      = parse_program_loop fuel (statements ++ [stmt]) p2 := by
  rw [parse_program_loop]
  simp only [hne, ne_eq, not_false_eq_true, if_true, hs, hc]

/-- The print statement `parse_statement` returns when `parse_expression` succeeds. -/
theorem parse_statement_print (p0 p1 p2 p3 p4 : Parser) (expr : ASTNode)
    (ht : p0.current_token.type = TOKEN_PRINT)
    (h1 : parser_advance p0 = .ok p1)
    (h2 : parser_expect p1 TOKEN_LPAREN = .ok p2)
    (h3 : parse_expression (expression_fuel p2) p2 = .ok (expr, p3))
    (h4 : parser_expect p3 TOKEN_RPAREN = .ok p4) :
    parse_statement p0 = .ok (some (NODE_PRINT expr), p4) := by
  unfold parse_statement
  simp only [ht, if_true, h1, h2, h3, h4]

/-- The parse of a source text whose tokens are the print keyword, `(`, one number,
string or identifier token, `)` and the end of input. -/
theorem parse_source_print_single (code : List Char) (t1 t2 t3 t4 t5 : Token)
    (L1 L2 L3 L4 : Lexer)
    (h1 : lexer_get_next_token (lexer_init code) = some (t1, L1))
    (ht1 : t1.type = TOKEN_PRINT)
    (h2 : lexer_get_next_token L1 = some (t2, L2))
    (ht2 : t2.type = TOKEN_LPAREN)
    (h3 : lexer_get_next_token L2 = some (t3, L3))
    (ht3 : t3.type = TOKEN_NUMBER ∨ t3.type = TOKEN_STRING ∨ t3.type = TOKEN_IDENTIFIER)
    (h4 : lexer_get_next_token L3 = some (t4, L4))
    (ht4 : t4.type = TOKEN_RPAREN)
    (h5 : lexer_get_next_token L4 = some (t5, L4))
    (ht5 : t5.type = TOKEN_EOF) :
    parse_source code = .ok [NODE_PRINT (factor_node t3)] := by
  have hinit : parser_init (lexer_init code)
      = .ok { lexer := L2, current_token := t1, peek_token := t2 } := by
    simp [parser_init, parser_next_token, h1, h2]
  have ha1 := parser_advance_eq { lexer := L2, current_token := t1, peek_token := t2 } t3 L3 h3
  have ha2 := parser_expect_eq { lexer := L3, current_token := t2, peek_token := t3 }
    TOKEN_LPAREN t4 L4 ht2 h4
  have hnm : ¬ is_multiplicative
      ({ lexer := L4, current_token := t4, peek_token := t5 } : Parser).current_token.type := by
    show ¬ is_multiplicative t4.type
    rw [ht4]; decide
  have hna : ¬ is_additive
      ({ lexer := L4, current_token := t4, peek_token := t5 } : Parser).current_token.type := by
    show ¬ is_additive t4.type
    rw [ht4]; decide
  have hf := parse_factor_single
    (3 * unread { lexer := L4, current_token := t3, peek_token := t4 } + 5)
    { lexer := L4, current_token := t3, peek_token := t4 } t5 L4 ht3 h5
  have hT := parse_term_of_factor _ _ _ _ hf hnm
  have hE : parse_expression
      (expression_fuel { lexer := L4, current_token := t3, peek_token := t4 })
      { lexer := L4, current_token := t3, peek_token := t4 }
      = .ok (factor_node t3, { lexer := L4, current_token := t4, peek_token := t5 }) := by
    unfold expression_fuel
    rw [parse_expression_eq _ _ _ _ hT]
    exact parse_expression_loop_exit _ _ _ hna
  have ha4 := parser_expect_eq { lexer := L4, current_token := t4, peek_token := t5 }
    TOKEN_RPAREN t5 L4 ht4 h5
  have hS := parse_statement_print _ _ _ _ _ _ ht1 ha1 ha2 hE ha4
  have hP : parse_program { lexer := L2, current_token := t1, peek_token := t2 }
      = .ok ([NODE_PRINT (factor_node t3)],
             { lexer := L4, current_token := t5, peek_token := t5 }) := by
    unfold parse_program
    rw [parser_consume_newlines_none _ _ (by show t1.type ≠ TOKEN_NEWLINE; rw [ht1]; decide)]
    show parse_program_loop (_ + 1) [] _ = _
    rw [parse_program_loop_step _ [] _ _ _ _ (by show t1.type ≠ TOKEN_EOF; rw [ht1]; decide) hS
      (parser_consume_newlines_none _ _ (by show t5.type ≠ TOKEN_NEWLINE; rw [ht5]; decide))]
    rw [parse_program_loop_eof _ _ _ ht5]
    rfl
  simp only [parse_source, hinit, hP]

theorem takeWhile_append_stop (P : Char → Bool) (w rest : List Char)
    (hw : ∀ c ∈ w, P c = true) (hr : P (rest.headD NUL) = false) :
    (w ++ rest).takeWhile P = w ∧ (w ++ rest).dropWhile P = rest := by
  induction w with
  | nil =>
    cases rest with
    | nil => simp
    | cons c r =>
      have : P c = false := by simpa using hr
      simp [List.takeWhile_cons, List.dropWhile_cons, this]
  | cons c w ih =>
    have hc : P c = true := hw c (List.mem_cons_self _ _)
    obtain ⟨h1, h2⟩ := ih (fun d hd => hw d (List.mem_cons_of_mem _ hd))
    simp [List.takeWhile_cons, List.dropWhile_cons, hc, h1, h2]

theorem lexAt_first {lexer : Lexer} {c : Char} {rest : List Char} (h : LexAt lexer (c :: rest))
    (hc : c ≠ NUL) : lexer.pos < strlen lexer.code ∧ charAt lexer.code lexer.pos = c :=
  ⟨h.pos_lt_iff.mpr (by simpa using hc), by rw [h.charAt_eq]; rfl⟩

theorem ne_of_class (P : Char → Bool) {c : Char} (d : Char) (hc : P c = true)
    (hd : P d = false) : c ≠ d := by
  intro h; rw [h, hd] at hc; exact absurd hc (by simp)

theorem not_space_of_class (P : Char → Bool) {c : Char} (hc : P c = true)
    (h1 : P ' ' = false) (h2 : P '\t' = false) (h3 : P '\n' = false)
    (h4 : P (Char.ofNat 11) = false) (h5 : P (Char.ofNat 12) = false) (h6 : P '\r' = false) :
    isspace c = false := by
  unfold isspace
  simp only [Bool.or_eq_false_iff, beq_eq_false_iff_ne]
  exact ⟨⟨⟨⟨⟨ne_of_class P _ hc h1, ne_of_class P _ hc h2⟩, ne_of_class P _ hc h3⟩,
    ne_of_class P _ hc h4⟩, ne_of_class P _ hc h5⟩, ne_of_class P _ hc h6⟩

/-- A digit run followed by a character that is no digit is lexed as one number token. -/
theorem next_token_number {lexer : Lexer} (ds rest : List Char)
    (h : LexAt lexer (ds ++ rest)) (hne : ds ≠ [])
    (hds : ∀ c ∈ ds, isdigit c = true) (hr : isdigit (rest.headD NUL) = false) :
    lexer_get_next_token lexer
      = some ({ type := TOKEN_NUMBER, value := some ds, line := lexer.line,
                column := lexer.column },
              { lexer with pos := lexer.pos + ds.length, column := lexer.column + ds.length })
      ∧ LexAt { lexer with pos := lexer.pos + ds.length, column := lexer.column + ds.length }
          rest := by
  obtain ⟨d, ds', rfl⟩ := List.exists_cons_of_ne_nil hne
  have hd : isdigit d = true := hds d (List.mem_cons_self _ _)
  obtain ⟨hlt, hch⟩ := @lexAt_first lexer d (ds' ++ rest) h
    (ne_of_class isdigit _ hd (by decide))
  have hsp : isspace d = false :=
    not_space_of_class isdigit hd (by decide) (by decide) (by decide) (by decide) (by decide)
      (by decide)
  have hhash : d ≠ '#' := ne_of_class isdigit _ hd (by decide)
  have hdisp := lexer_get_next_token_dispatch lexer hlt (Or.inl (by rw [hch]; exact hsp))
    (by rw [hch]; exact hhash) (Or.inr (Or.inl (by rw [hch]; exact hd)))
  rw [hch] at hdisp
  simp only [hd, if_true] at hdisp
  obtain ⟨h1, h2⟩ := lexer_read_number_spec h
  obtain ⟨ht, hdrop⟩ := takeWhile_append_stop isdigit (d :: ds') rest hds hr
  rw [ht] at h1
  rw [ht, hdrop] at h2
  have hline := advance_over_same_line (d :: ds') lexer
    (fun c hc => ne_of_class isdigit _ (hds c hc) (by decide))
  rw [hline] at h1 h2
  refine ⟨?_, h2⟩
  rw [hdisp, h1]
  simp

/-- A word followed by a character that cannot continue it is lexed as one keyword or
identifier token. -/
theorem next_token_word {lexer : Lexer} (c : Char) (w rest : List Char)
    (h : LexAt lexer (c :: w ++ rest)) (hc : is_ident_start c = true)
    (hw : ∀ d ∈ c :: w, is_ident_char d = true) (hr : is_ident_char (rest.headD NUL) = false) :
    lexer_get_next_token lexer
      = some ({ type := match keywords.find? (fun kw => kw.1 = c :: w) with
                  | some kw => kw.2
                  | none => TOKEN_IDENTIFIER,
                value := some (c :: w), line := lexer.line, column := lexer.column },
              { lexer with pos := lexer.pos + (c :: w).length,
                           column := lexer.column + (c :: w).length })
      ∧ LexAt { lexer with pos := lexer.pos + (c :: w).length,
                           column := lexer.column + (c :: w).length } rest := by
  have hnd : isdigit c = false := by
    cases hd : isdigit c with
    | false => rfl
    | true =>
      have := ne_of_class isdigit '_' hd (by decide)
      unfold is_ident_start at hc
      unfold isdigit at hd
      unfold isalpha at hc
      simp only [Bool.or_eq_true, beq_iff_eq, this, or_false] at hc
      unfold Char.isAlpha Char.isUpper Char.isLower at hc
      unfold Char.isDigit at hd
      simp only [Bool.or_eq_true, Bool.and_eq_true, decide_eq_true_eq, ge_iff_le] at hc hd
      have h1 : (48 : UInt32).toNat ≤ c.val.toNat := hd.1
      have h2 : c.val.toNat ≤ (57 : UInt32).toNat := hd.2
      rcases hc with hc | hc
      · have h3 : (65 : UInt32).toNat ≤ c.val.toNat := hc.1
        have e1 : (57 : UInt32).toNat = 57 := by decide
        have e2 : (65 : UInt32).toNat = 65 := by decide
        omega
      · have h3 : (97 : UInt32).toNat ≤ c.val.toNat := hc.1
        have e1 : (57 : UInt32).toNat = 57 := by decide
        have e2 : (97 : UInt32).toNat = 97 := by decide
        omega
  have hcc : is_ident_char c = true := hw c (List.mem_cons_self _ _)
  obtain ⟨hlt, hch⟩ := @lexAt_first lexer c (w ++ rest) h
    (ne_of_class is_ident_char _ hcc (by decide))
  have hsp : isspace c = false :=
    not_space_of_class is_ident_char hcc (by decide) (by decide) (by decide) (by decide)
      (by decide) (by decide)
  have hhash : c ≠ '#' := ne_of_class is_ident_char _ hcc (by decide)
  have hstart : isalpha c = true ∨ c = '_' := by
    unfold is_ident_start at hc
    simpa using hc
  have hdisp := lexer_get_next_token_dispatch lexer hlt (Or.inl (by rw [hch]; exact hsp))
    (by rw [hch]; exact hhash)
    (by rw [hch]; rcases hstart with h | h
        · exact Or.inr (Or.inr (Or.inl h))
        · exact Or.inr (Or.inr (Or.inr (Or.inl h))))
  rw [hch] at hdisp
  simp only [hnd, hstart, if_true, if_false] at hdisp
  obtain ⟨h1, h2⟩ := lexer_read_identifier_spec h
  obtain ⟨ht, hdrop⟩ := takeWhile_append_stop is_ident_char (c :: w) rest hw hr
  unfold is_ident_char at ht hdrop
  rw [ht] at h1
  rw [ht, hdrop] at h2
  have hline := advance_over_same_line (c :: w) lexer
    (fun d hd => ne_of_class is_ident_char _ (hw d hd) (by decide))
  rw [hline] at h1 h2
  refine ⟨?_, h2⟩
  rw [hdisp, h1]
  simp

theorem operator_char_cases (c : Char) (h : is_operator_char c = true) :
    c = '=' ∨ c = '+' ∨ c = '-' ∨ c = '*' ∨ c = '/' ∨ c = '(' ∨ c = ')' ∨ c = ',' ∨ c = ':' := by
  unfold is_operator_char at h
  simp only [Bool.or_eq_true, beq_iff_eq] at h
  tauto

/-- A one-character operator is lexed as its own token. -/
theorem next_token_operator {lexer : Lexer} (c : Char) (rest : List Char)
    (h : LexAt lexer (c :: rest)) (hc : is_operator_char c = true) :
    lexer_get_next_token lexer
      = some (lexer_operator_token lexer c,
              { lexer with pos := lexer.pos + 1, column := lexer.column + 1 })
      ∧ LexAt { lexer with pos := lexer.pos + 1, column := lexer.column + 1 } rest := by
  have hnn : c ≠ NUL := ne_of_class is_operator_char _ hc (by decide)
  obtain ⟨hlt, hch⟩ := lexAt_first h hnn
  obtain ⟨hadv, hat⟩ := lexAt_step h hnn
  have hnl : c ≠ '\n' := ne_of_class is_operator_char _ hc (by decide)
  have hstep : step_char c lexer
      = { lexer with pos := lexer.pos + 1, column := lexer.column + 1 } := by
    unfold step_char; simp only [hnl, if_false]
  rw [hstep] at hadv hat
  have hsp : isspace c = false :=
    not_space_of_class is_operator_char hc (by decide) (by decide) (by decide) (by decide)
      (by decide) (by decide)
  have hhash : c ≠ '#' := ne_of_class is_operator_char _ hc (by decide)
  have hknown : (lexer_operator_token lexer c).type ≠ TOKEN_UNKNOWN := by
    rcases operator_char_cases c hc with h | h | h | h | h | h | h | h | h <;>
      subst h <;> simp [lexer_operator_token]
  have hnd : isdigit c = false := by
    rcases operator_char_cases c hc with h | h | h | h | h | h | h | h | h <;>
      subst h <;> decide
  have hna : ¬ (isalpha c = true ∨ c = '_') := by
    rcases operator_char_cases c hc with h | h | h | h | h | h | h | h | h <;>
      subst h <;> decide
  have hnq : c ≠ '"' := ne_of_class is_operator_char _ hc (by decide)
  have hdisp := lexer_get_next_token_dispatch lexer hlt (Or.inl (by rw [hch]; exact hsp))
    (by rw [hch]; exact hhash) (Or.inl (by rw [hch]; exact hknown))
  rw [hch] at hdisp
  simp only [hnd, hna, hnq, hnl, if_false, hadv] at hdisp
  exact ⟨by rw [hdisp]; simp, hat⟩

/-- At the end of the string the lexer returns the end-of-input token and stays put. -/
theorem next_token_end {lexer : Lexer} (h : LexAt lexer []) :
    lexer_get_next_token lexer
      = some ({ type := TOKEN_EOF, value := none, line := lexer.line,
                column := lexer.column }, lexer) := by
  apply lexer_get_next_token_eof
  have := h.pos_lt_iff
  simp at this
  exact this


theorem headD_dropWhile (P : Char → Bool) (hP : P NUL = false) (rest : List Char) :
    P ((rest.dropWhile P).headD NUL) = false := by
  induction rest with
  | nil => simpa using hP
  | cons c r ih =>
    rw [List.dropWhile_cons]
    by_cases hc : P c = true
    · simp only [hc, if_true]; exact ih
    · simp only [hc, if_false]; simpa using hc

theorem in_string_false_cases (c : Char) (h : in_string c = false) (hq : c ≠ '"') :
    c = NUL := by
  unfold in_string at h
  simp only [decide_eq_false_iff_not, not_and, not_not] at h
  exact h hq

theorem lexer_read_string_spec {lexer : Lexer} {rest : List Char}
    (h : LexAt lexer ('"' :: rest)) :
    lexer_read_string lexer
      = some ({ type := TOKEN_STRING,
                value := some ('"' :: (rest.takeWhile in_string ++ ['"'])),
                line := (close_string (rest.dropWhile in_string)
                  (advance_over (rest.takeWhile in_string) (step_char '"' lexer))).line,
                column := (close_string (rest.dropWhile in_string)
                  (advance_over (rest.takeWhile in_string) (step_char '"' lexer))).column
                  - ((rest.takeWhile in_string).length : Nat) - 2 },
              close_string (rest.dropWhile in_string)
                (advance_over (rest.takeWhile in_string) (step_char '"' lexer)))
      ∧ LexAt (close_string (rest.dropWhile in_string)
                (advance_over (rest.takeWhile in_string) (step_char '"' lexer)))
          (if (rest.dropWhile in_string).headD NUL = '"' then (rest.dropWhile in_string).tail
           else rest.dropWhile in_string) := by
  obtain ⟨hadv, hat⟩ := lexAt_step h (by decide)
  obtain ⟨hloop, hat2⟩ := lexer_read_string_loop_spec hat
  have hsub := substr_of_lexAt hat in_string
  have hclose : lexer_advance_char (advance_over (rest.takeWhile in_string) (step_char '"' lexer))
      = close_string (rest.dropWhile in_string)
          (advance_over (rest.takeWhile in_string) (step_char '"' lexer))
      ∧ LexAt (close_string (rest.dropWhile in_string)
                (advance_over (rest.takeWhile in_string) (step_char '"' lexer)))
          (if (rest.dropWhile in_string).headD NUL = '"' then (rest.dropWhile in_string).tail
           else rest.dropWhile in_string) := by
    have hhead := headD_dropWhile in_string in_string_NUL rest
    unfold close_string
    generalize rest.dropWhile in_string = after at hat2 hhead ⊢
    generalize advance_over (rest.takeWhile in_string) (step_char '"' lexer) = scanned at hat2 ⊢
    by_cases hq : after.headD NUL = '"'
    · simp only [hq, if_true]
      cases after with
      | nil => exact absurd hq (by decide)
      | cons c r =>
        have hc : c = '"' := by simpa using hq
        subst hc
        exact lexAt_step hat2 (by decide)
    · simp only [hq, if_false]
      refine ⟨lexer_advance_char_at_end _ ?_, hat2⟩
      rw [hat2.pos_lt_iff]
      exact not_not.mpr (in_string_false_cases _ hhead hq)
  refine ⟨?_, hclose.2⟩
  unfold lexer_read_string
  simp only [hadv, hloop, hsub, hclose.1]
  simp [advance_over_pos, step_char_pos]


/-- The parse of `darshaya(` `mid` `)` when `mid` is lexed as one number, string or
identifier token. -/
theorem parse_source_print_token (mid : List Char) (t3 : Token) (L3 : Lexer)
    (hmid : LexAt (after_print_paren ("darshaya(".toList ++ mid ++ [')'])) (mid ++ [')']) →
      lexer_get_next_token (after_print_paren ("darshaya(".toList ++ mid ++ [')']))
        = some (t3, L3) ∧ LexAt L3 [')'])
    (ht3 : t3.type = TOKEN_NUMBER ∨ t3.type = TOKEN_STRING ∨ t3.type = TOKEN_IDENTIFIER) :
    parse_source ("darshaya(".toList ++ mid ++ [')']) = .ok [NODE_PRINT (factor_node t3)] := by
  generalize hcode : "darshaya(".toList ++ mid ++ [')'] = code at hmid
  have hshape : code = 'd' :: ("arshaya".toList ++ ('(' :: (mid ++ [')']))) := by
    rw [← hcode]; simp
  have h0 : LexAt (lexer_init code) ('d' :: ("arshaya".toList ++ ('(' :: (mid ++ [')'])))) := by
    have := lexAt_init code
    rw [hshape] at this ⊢
    exact this
  obtain ⟨h1, hat1⟩ := next_token_word 'd' "arshaya".toList ('(' :: (mid ++ [')'])) h0
    (by decide) (by decide) (by show is_ident_char '(' = false; decide)
  obtain ⟨h2, hat2⟩ := next_token_operator '(' (mid ++ [')']) hat1 (by decide)
  simp [lexer_init, keywords] at h1 hat1 h2 hat2
  obtain ⟨h3, hat3⟩ := hmid hat2
  obtain ⟨h4, hat4⟩ := next_token_operator ')' [] hat3 (by decide)
  have h5 := next_token_end hat4
  exact parse_source_print_single code _ _ t3 _ _ _ _ _ _ h1 rfl h2
    (by simp [lexer_operator_token]) h3 ht3 h4 (by simp [lexer_operator_token]) h5 rfl

theorem isdigit_toNat_ge (c : Char) (h : isdigit c = true) : 48 ≤ c.toNat := by
  unfold isdigit Char.isDigit at h
  simp only [Bool.and_eq_true, decide_eq_true_eq, ge_iff_le] at h
  have h1 : (48 : UInt32).toNat ≤ c.val.toNat := h.1
  have e1 : (48 : UInt32).toNat = 48 := by decide
  unfold Char.toNat
  omega

theorem atoi_digits_eq (ds : List Char) (hds : ∀ c ∈ ds, isdigit c = true) :
    ∀ acc : Nat, atoi_digits (acc : Int) ds
      = ((ds.foldl (fun acc c => 10 * acc + (c.toNat - 48)) acc : Nat) : Int) := by
  induction ds with
  | nil => intro acc; simp [atoi_digits]
  | cons c cs ih =>
    intro acc
    have hc := hds c (List.mem_cons_self _ _)
    have hge := isdigit_toNat_ge c hc
    rw [atoi_digits]
    simp only [hc, if_true, List.foldl_cons]
    rw [← ih (fun d hd => hds d (List.mem_cons_of_mem _ hd)) (10 * acc + (c.toNat - 48))]
    congr 1
    push_cast
    omega

theorem atoi_of_digits (ds : List Char) (hne : ds ≠ []) (hds : ∀ c ∈ ds, isdigit c = true)
    (hrange : (decimal_value ds : Int) ≤ INT_MAX) : atoi ds = (decimal_value ds : Int) := by
  obtain ⟨d, ds', rfl⟩ := List.exists_cons_of_ne_nil hne
  have hd : isdigit d = true := hds d (List.mem_cons_self _ _)
  have hsp : isspace d = false :=
    not_space_of_class isdigit hd (by decide) (by decide) (by decide) (by decide) (by decide)
      (by decide)
  have hminus : d ≠ '-' := ne_of_class isdigit _ hd (by decide)
  have hplus : d ≠ '+' := ne_of_class isdigit _ hd (by decide)
  have hval := atoi_digits_eq (d :: ds') hds 0
  unfold atoi
  rw [List.dropWhile_cons]
  simp only [hsp, Bool.false_eq_true, if_false]
  split
  · rename_i heq; simp at heq; exact absurd heq.1 hminus
  · rename_i heq; simp at heq; exact absurd heq.1 hplus
  · simp only [Nat.cast_zero] at hval
    rw [hval]
    unfold decimal_value at hrange ⊢
    apply wrap32_of_range _ _ hrange
    unfold INT_MIN
    omega

theorem format_d_nonneg (n : Nat) : format_d (n : Int) = Nat.toDigits 10 n := by
  unfold format_d
  have : ¬ ((n : Int) < 0) := by omega
  simp [this]


/-- A terminated string literal is lexed as one String token that keeps its quotes. -/
theorem next_token_string {lexer : Lexer} (s rest : List Char)
    (h : LexAt lexer ('"' :: (s ++ '"' :: rest)))
    (hs : ∀ c ∈ s, c ≠ '"' ∧ c ≠ NUL) :
    lexer_get_next_token lexer
      = some ({ type := TOKEN_STRING, value := some ('"' :: (s ++ ['"'])),
                line := (advance_over ('"' :: (s ++ ['"'])) lexer).line,
                column := (advance_over ('"' :: (s ++ ['"'])) lexer).column
                  - (s.length : Nat) - 2 },
              advance_over ('"' :: (s ++ ['"'])) lexer)
      ∧ LexAt (advance_over ('"' :: (s ++ ['"'])) lexer) rest := by
  obtain ⟨hlt, hch⟩ := lexAt_first h (by decide)
  have hdisp := lexer_get_next_token_dispatch lexer hlt (Or.inl (by rw [hch]; decide))
    (by rw [hch]; decide) (Or.inr (Or.inr (Or.inr (Or.inr (Or.inl hch)))))
  rw [hch] at hdisp
  have e1 : isdigit '"' = false := by decide
  have e2 : ¬ (isalpha '"' = true ∨ '"' = '_') := by decide
  simp only [e1, e2, if_true, if_false] at hdisp
  obtain ⟨h1, h2⟩ := lexer_read_string_spec h
  obtain ⟨ht, hdrop⟩ := takeWhile_append_stop in_string s ('"' :: rest)
    (fun c hc => by unfold in_string; simpa using hs c hc)
    (by show in_string '"' = false; decide)
  rw [ht, hdrop] at h1 h2
  have hclose : close_string ('"' :: rest) (advance_over s (step_char '"' lexer))
      = advance_over ('"' :: (s ++ ['"'])) lexer := by
    unfold close_string
    simp [advance_over_cons, advance_over_append, advance_over_nil]
  rw [hclose] at h1 h2
  refine ⟨by rw [hdisp, h1]; simp, ?_⟩
  simpa using h2

theorem keywords_find_none (word : List Char) (h : word ≠ "darshaya".toList) :
    keywords.find? (fun kw => kw.1 = word) = none := by
  have h2 : ¬ (['d', 'a', 'r', 's', 'h', 'a', 'y', 'a'] = word) := fun e => h e.symm
  simp [keywords, List.find?, h2]

/-! ## Lexer: horizontal white space before a token -/

theorem lexer_skip_blanks_stop (fuel : Nat) (lexer : Lexer)
    (h : lexer.pos < strlen lexer.code →
      is_blank (charAt lexer.code lexer.pos) = false ∧ charAt lexer.code lexer.pos ≠ '#') :
    lexer_skip_blanks fuel lexer = some lexer := by
  by_cases hlt : lexer.pos < strlen lexer.code
  · obtain ⟨h1, h2⟩ := h hlt
    have h3 : ¬ (isspace (charAt lexer.code lexer.pos) = true
        ∧ charAt lexer.code lexer.pos ≠ '\n') := by
      unfold is_blank at h1
      intro hc
      simp [hc.1, hc.2] at h1
    cases fuel <;> simp only [lexer_skip_blanks, hlt, h3, h2, if_true, if_false]
  · cases fuel <;> simp [lexer_skip_blanks, hlt]

theorem is_blank_ne_NUL (c : Char) (h : is_blank c = true) : c ≠ NUL :=
  ne_of_class is_blank NUL h (by decide)

/-- The skipping loop moves over a run of horizontal white space and stops before a
character that is neither white space nor `#`. -/
theorem lexer_skip_blanks_run (blanks rest : List Char) (hb : ∀ c ∈ blanks, is_blank c = true)
    (hr : is_blank (rest.headD NUL) = false ∧ rest.headD NUL ≠ '#') :
    ∀ (lexer : Lexer) (fuel : Nat), LexAt lexer (blanks ++ rest) → blanks.length ≤ fuel →
      lexer_skip_blanks fuel lexer = some (advance_over blanks lexer)
        ∧ LexAt (advance_over blanks lexer) rest := by
  induction blanks with
  | nil =>
    intro lexer fuel h _
    refine ⟨lexer_skip_blanks_stop fuel lexer (fun _ => ?_), h⟩
    rw [h.charAt_eq]
    exact hr
  | cons c bs ih =>
    intro lexer fuel h hfuel
    have hc : is_blank c = true := hb c (List.mem_cons_self _ _)
    obtain ⟨hlt, hch⟩ := lexAt_first h (is_blank_ne_NUL c hc)
    obtain ⟨hadv, hat⟩ := lexAt_step h (is_blank_ne_NUL c hc)
    obtain ⟨f, rfl⟩ : ∃ f, fuel = f + 1 := ⟨fuel - 1, by simp at hfuel; omega⟩
    have hcond : isspace (charAt lexer.code lexer.pos) = true
        ∧ charAt lexer.code lexer.pos ≠ '\n' := by
      rw [hch]
      unfold is_blank at hc
      simpa using hc
    rw [lexer_skip_blanks, if_pos hlt, if_pos hcond, hadv]
    exact ih (fun d hd => hb d (List.mem_cons_of_mem _ hd)) (step_char c lexer) f hat
      (by simp at hfuel; omega)

/-- The dispatch of `lexer_get_next_token` once the skipping loop has stopped inside the
text before a character that starts a token. -/
theorem lexer_get_next_token_fuel_known (fuel : Nat) (lexer0 lexer : Lexer)
    (hskip : lexer_skip_blanks (strlen lexer0.code - lexer0.pos) lexer0 = some lexer)
    (hlt : lexer.pos < strlen lexer.code)
    (hknown : (lexer_operator_token lexer (charAt lexer.code lexer.pos)).type ≠ TOKEN_UNKNOWN
      ∨ isdigit (charAt lexer.code lexer.pos) = true
      ∨ isalpha (charAt lexer.code lexer.pos) = true
      ∨ charAt lexer.code lexer.pos = '_'
      ∨ charAt lexer.code lexer.pos = '"'
      ∨ charAt lexer.code lexer.pos = '\n') :
    lexer_get_next_token_fuel fuel lexer0 =
      if isdigit (charAt lexer.code lexer.pos) then lexer_read_number lexer
      else if isalpha (charAt lexer.code lexer.pos) ∨ charAt lexer.code lexer.pos = '_' then
        lexer_read_identifier lexer
      else if charAt lexer.code lexer.pos = '"' then lexer_read_string lexer
      else if charAt lexer.code lexer.pos = '\n' then
        some ({ type := TOKEN_NEWLINE, value := some ['\n'],
                line := (lexer_advance_char lexer).line - 1, column := 1 },
              lexer_advance_char lexer)
      else some (lexer_operator_token lexer (charAt lexer.code lexer.pos),
                 lexer_advance_char lexer) := by
  rw [lexer_get_next_token_fuel, hskip]
  have hge : ¬ lexer.pos ≥ strlen lexer.code := by omega
  simp only [hge, if_false]
  by_cases h1 : isdigit (charAt lexer.code lexer.pos) = true
  · simp only [h1, if_true]
  · by_cases h2 : isalpha (charAt lexer.code lexer.pos) = true ∨ charAt lexer.code lexer.pos = '_'
    · simp only [h1, h2, if_true, if_false]
    · by_cases h3 : charAt lexer.code lexer.pos = '"'
      · simp only [h1, h2, h3, if_true, if_false]
      · by_cases h4 : charAt lexer.code lexer.pos = '\n'
        · simp only [h1, h2, h3, h4, if_true, if_false]
        · have hk : (lexer_operator_token lexer (charAt lexer.code lexer.pos)).type
              ≠ TOKEN_UNKNOWN := by
            rcases hknown with h | h | h | h | h | h
            · exact h
            · exact absurd h h1
            · exact absurd (Or.inl h) h2
            · exact absurd (Or.inr h) h2
            · exact absurd h h3
            · exact absurd h h4
          simp only [h1, h2, h3, h4, if_false, hk, ne_eq, not_false_eq_true, if_true]

theorem token_start_facts (c : Char) (h : is_token_start c = true) :
    c ≠ NUL ∧ is_blank c = false ∧ c ≠ '#' := by
  exact ⟨ne_of_class is_token_start _ h (by decide), by
    cases hb : is_blank c with
    | false => rfl
    | true =>
      exfalso
      unfold is_blank isspace at hb
      simp only [Bool.and_eq_true, Bool.or_eq_true, beq_iff_eq, bne_iff_ne] at hb
      obtain ⟨hsp, hnl⟩ := hb
      rcases hsp with ((((h1 | h1) | h1) | h1) | h1) | h1
      · rw [h1] at h; exact absurd h (by decide)
      · rw [h1] at h; exact absurd h (by decide)
      · exact hnl h1
      · rw [h1] at h; exact absurd h (by decide)
      · rw [h1] at h; exact absurd h (by decide)
      · rw [h1] at h; exact absurd h (by decide),
    ne_of_class is_token_start _ h (by decide)⟩

theorem token_start_known (lexer : Lexer) (c : Char) (h : is_token_start c = true) :
    (lexer_operator_token lexer c).type ≠ TOKEN_UNKNOWN
      ∨ isdigit c = true ∨ isalpha c = true ∨ c = '_' ∨ c = '"' ∨ c = '\n' := by
  by_cases hop : is_operator_char c = true
  · left
    rcases operator_char_cases c hop with e | e | e | e | e | e | e | e | e <;>
      subst e <;> simp [lexer_operator_token]
  · right
    unfold is_token_start at h
    simp only [Bool.or_eq_true, beq_iff_eq, hop, or_false] at h
    tauto

/-- Horizontal white space before a token is skipped: the token read is the one read
from the position after the white space. -/
theorem next_token_after_blanks {lexer : Lexer} (blanks : List Char) (c : Char)
    (rest : List Char) (h : LexAt lexer (blanks ++ c :: rest))
    (hb : ∀ d ∈ blanks, is_blank d = true) (hc : is_token_start c = true) :
    lexer_get_next_token lexer = lexer_get_next_token (advance_over blanks lexer)
      ∧ LexAt (advance_over blanks lexer) (c :: rest) := by
  obtain ⟨hnn, hnb, hnh⟩ := token_start_facts c hc
  have hfuel : blanks.length ≤ strlen lexer.code - lexer.pos := by
    rw [h.unread_eq]
    have := takeWhile_length_le_strlen is_blank (by decide) (blanks ++ c :: rest)
    rw [(takeWhile_append_stop is_blank blanks (c :: rest) hb hnb).1] at this
    exact this
  obtain ⟨hskip, hat⟩ := lexer_skip_blanks_run blanks (c :: rest) hb ⟨hnb, hnh⟩ lexer _ h hfuel
  refine ⟨?_, hat⟩
  obtain ⟨hlt, hch⟩ := lexAt_first hat hnn
  have hknown := token_start_known (advance_over blanks lexer) c hc
  rw [← hch] at hknown
  have hstop : lexer_skip_blanks
      (strlen (advance_over blanks lexer).code - (advance_over blanks lexer).pos)
      (advance_over blanks lexer) = some (advance_over blanks lexer) :=
    lexer_skip_blanks_stop _ _ (fun _ => by rw [hch]; exact ⟨hnb, hnh⟩)
  unfold lexer_get_next_token
  rw [lexer_get_next_token_fuel_known _ lexer _ hskip hlt hknown,
    lexer_get_next_token_fuel_known _ _ _ hstop hlt hknown]


/-! ## Parser: a print statement from its tokens -/

/-- The parse of a source text that starts with the print keyword and `(`, when
`parse_expression` returns `expr` before a `)` that is followed by the end of input. -/
theorem parse_source_print_expression (code : List Char) (t1 t2 t3 t4 t_end : Token)
    (L1 L2 L3 L4 L_end : Lexer) (expr : ASTNode) (p_end : Parser)
    (h1 : lexer_get_next_token (lexer_init code) = some (t1, L1))
    (ht1 : t1.type = TOKEN_PRINT)
    (h2 : lexer_get_next_token L1 = some (t2, L2))
    (ht2 : t2.type = TOKEN_LPAREN)
    (h3 : lexer_get_next_token L2 = some (t3, L3))
    (h4 : lexer_get_next_token L3 = some (t4, L4))
    (hE : parse_expression
        (expression_fuel { lexer := L4, current_token := t3, peek_token := t4 })
        { lexer := L4, current_token := t3, peek_token := t4 } = .ok (expr, p_end))
    (hclose : p_end.current_token.type = TOKEN_RPAREN)
    (hpeek : p_end.peek_token.type = TOKEN_EOF)
    (hend : lexer_get_next_token p_end.lexer = some (t_end, L_end)) :
    parse_source code = .ok [NODE_PRINT expr] := by
  have hinit : parser_init (lexer_init code)
      = .ok { lexer := L2, current_token := t1, peek_token := t2 } := by
    simp [parser_init, parser_next_token, h1, h2]
  have ha1 := parser_advance_eq { lexer := L2, current_token := t1, peek_token := t2 } t3 L3 h3
  have ha2 := parser_expect_eq { lexer := L3, current_token := t2, peek_token := t3 }
    TOKEN_LPAREN t4 L4 ht2 h4
  have ha4 := parser_expect_eq p_end TOKEN_RPAREN t_end L_end hclose hend
  have hS := parse_statement_print _ _ _ _ _ _ ht1 ha1 ha2 hE ha4
  have hP : parse_program { lexer := L2, current_token := t1, peek_token := t2 }
      = .ok ([NODE_PRINT expr],
             { lexer := L_end, current_token := p_end.peek_token, peek_token := t_end }) := by
    unfold parse_program
    rw [parser_consume_newlines_none _ _ (by show t1.type ≠ TOKEN_NEWLINE; rw [ht1]; decide)]
    show parse_program_loop (_ + 1) [] _ = _
    rw [parse_program_loop_step _ [] _ _ _ _ (by show t1.type ≠ TOKEN_EOF; rw [ht1]; decide) hS
      (parser_consume_newlines_none _ _
        (by show p_end.peek_token.type ≠ TOKEN_NEWLINE; rw [hpeek]; decide))]
    rw [parse_program_loop_eof _ _ _ hpeek]
    rfl
  simp only [parse_source, hinit, hP]

/-- The parse of a source text whose tokens are the print keyword, `(`, a one-token
factor, `*` or `/`, a one-token factor, `)` and the end of input. -/
theorem parse_source_print_product (code : List Char) (t1 t2 t3 t4 t5 t6 t7 : Token)
    (L1 L2 L3 L4 L5 L6 : Lexer)
    (h1 : lexer_get_next_token (lexer_init code) = some (t1, L1))
    (ht1 : t1.type = TOKEN_PRINT)
    (h2 : lexer_get_next_token L1 = some (t2, L2))
    (ht2 : t2.type = TOKEN_LPAREN)
    (h3 : lexer_get_next_token L2 = some (t3, L3))
    (ht3 : t3.type = TOKEN_NUMBER ∨ t3.type = TOKEN_STRING ∨ t3.type = TOKEN_IDENTIFIER)
    (h4 : lexer_get_next_token L3 = some (t4, L4))
    (ht4 : is_multiplicative t4.type)
    (h5 : lexer_get_next_token L4 = some (t5, L5))
    (ht5 : t5.type = TOKEN_NUMBER ∨ t5.type = TOKEN_STRING ∨ t5.type = TOKEN_IDENTIFIER)
    (h6 : lexer_get_next_token L5 = some (t6, L6))
    (ht6 : t6.type = TOKEN_RPAREN)
    (h7 : lexer_get_next_token L6 = some (t7, L6))
    (ht7 : t7.type = TOKEN_EOF) :
    parse_source code
      = .ok [NODE_PRINT (NODE_BINOP (factor_node t3) t4.type (factor_node t5))] := by
  have hf3 := parse_factor_single 0 { lexer := L4, current_token := t3, peek_token := t4 }
    t5 L5 ht3 h5
  have ha := parser_advance_eq { lexer := L5, current_token := t4, peek_token := t5 } t6 L6 h6
  have hf5 := parse_factor_single 0 { lexer := L6, current_token := t5, peek_token := t6 }
    t7 L6 ht5 h7
  have hnm : ¬ is_multiplicative
      ({ lexer := L6, current_token := t6, peek_token := t7 } : Parser).current_token.type := by
    show ¬ is_multiplicative t6.type
    rw [ht6]; decide
  have hna : ¬ is_additive
      ({ lexer := L6, current_token := t6, peek_token := t7 } : Parser).current_token.type := by
    show ¬ is_additive t6.type
    rw [ht6]; decide
  have hT : parse_term 3 { lexer := L4, current_token := t3, peek_token := t4 }
      = .ok (NODE_BINOP (factor_node t3) t4.type (factor_node t5),
             { lexer := L6, current_token := t6, peek_token := t7 }) := by
    rw [parse_term_eq 2 _ _ _ (parse_factor_mono (by decide) _ _ hf3),
      parse_term_loop_step 1 _ _ _ _ _ ht4 ha hf5]
    exact parse_term_loop_exit 0 _ _ hnm
  have hE : parse_expression 4 { lexer := L4, current_token := t3, peek_token := t4 }
      = .ok (NODE_BINOP (factor_node t3) t4.type (factor_node t5),
             { lexer := L6, current_token := t6, peek_token := t7 }) := by
    rw [parse_expression_eq 3 _ _ _ hT]
    exact parse_expression_loop_exit 2 _ _ hna
  exact parse_source_print_expression code t1 t2 t3 t4 t7 L1 L2 L3 L4 L6 _ _ h1 ht1 h2 ht2 h3 h4
    (parse_expression_mono (by unfold expression_fuel; omega) _ _ hE) ht6 ht7 h7


/-- The text `darshaya(` digits ` / 0)` is parsed to the print statement of the division
of the number literal by the number literal 0. -/
theorem parse_source_print_literal_over_zero (ds : List Char) (hne : ds ≠ [])
    (hds : ∀ c ∈ ds, isdigit c = true) :
    parse_source ("darshaya(".toList ++ ds ++ " / 0)".toList)
      = .ok [NODE_PRINT (NODE_BINOP (NODE_NUMBER (atoi ds)) TOKEN_DIVIDE (NODE_NUMBER 0))] := by
  generalize hcode : "darshaya(".toList ++ ds ++ " / 0)".toList = code
  have hshape : code
      = 'd' :: ("arshaya".toList ++ ('(' :: (ds ++ (' ' :: '/' :: ' ' :: '0' :: [')'])))) := by
    rw [← hcode]; simp
  have h0 : LexAt (lexer_init code)
      ('d' :: ("arshaya".toList ++ ('(' :: (ds ++ (' ' :: '/' :: ' ' :: '0' :: [')']))))) := by
    have := lexAt_init code
    rw [hshape] at this ⊢
    exact this
  obtain ⟨h1, hat1⟩ := next_token_word 'd' "arshaya".toList
    ('(' :: (ds ++ (' ' :: '/' :: ' ' :: '0' :: [')']))) h0
    (by decide) (by decide) (by show is_ident_char '(' = false; decide)
  obtain ⟨h2, hat2⟩ := next_token_operator '(' (ds ++ (' ' :: '/' :: ' ' :: '0' :: [')']))
    hat1 (by decide)
  obtain ⟨h3, hat3⟩ := next_token_number ds (' ' :: '/' :: ' ' :: '0' :: [')']) hat2 hne hds
    (by decide)
  obtain ⟨hb4, hatb4⟩ := next_token_after_blanks [' '] '/' (' ' :: '0' :: [')']) hat3
    (by decide) (by decide)
  obtain ⟨h4, hat4⟩ := next_token_operator '/' (' ' :: '0' :: [')']) hatb4 (by decide)
  obtain ⟨hb5, hatb5⟩ := next_token_after_blanks [' '] '0' [')'] hat4 (by decide) (by decide)
  obtain ⟨h5, hat5⟩ := next_token_number ['0'] [')'] hatb5 (by decide) (by decide) (by decide)
  obtain ⟨h6, hat6⟩ := next_token_operator ')' [] hat5 (by decide)
  have h7 := next_token_end hat6
  rw [← hb4] at h4
  rw [← hb5] at h5
  have hparse := parse_source_print_product code _ _ _ _ _ _ _ _ _ _ _ _ _ h1
    (by simp [keywords]) h2 (by simp [lexer_operator_token]) h3 (Or.inl rfl) h4
    (by simp [lexer_operator_token, is_multiplicative]) h5 (Or.inl rfl) h6
    (by simp [lexer_operator_token]) h7 rfl
  rw [hparse]
  have hzero : atoi ['0'] = 0 := by decide
  simp [factor_node, lexer_operator_token, hzero]


/-! ## Lexer: the kinds of token it returns -/

theorem lexer_operator_token_type (lexer : Lexer) (c : Char) :
    (lexer_operator_token lexer c).type ≠ TOKEN_EOF := by
  unfold lexer_operator_token
  simp only
  split_ifs <;> simp

theorem lexer_read_number_type (lexer next : Lexer) (token : Token)
    (h : lexer_read_number lexer = some (token, next)) : token.type = TOKEN_NUMBER := by
  unfold lexer_read_number at h
  simp only at h
  cases hl : lexer_read_number_loop (strlen lexer.code - lexer.pos) lexer with
  | none => rw [hl] at h; simp at h
  | some l1 =>
    rw [hl] at h
    simp only [Option.some.injEq, Prod.mk.injEq] at h
    rw [← h.1]

theorem lexer_read_string_type (lexer next : Lexer) (token : Token)
    (h : lexer_read_string lexer = some (token, next)) : token.type = TOKEN_STRING := by
  unfold lexer_read_string at h
  simp only at h
  cases hl : lexer_read_string_loop
      (strlen (lexer_advance_char lexer).code - (lexer_advance_char lexer).pos)
      (lexer_advance_char lexer) with
  | none => rw [hl] at h; simp at h
  | some l1 =>
    rw [hl] at h
    simp only [Option.some.injEq, Prod.mk.injEq] at h
    rw [← h.1]

theorem lexer_read_identifier_type (lexer next : Lexer) (token : Token)
    (h : lexer_read_identifier lexer = some (token, next)) :
    token.type = TOKEN_PRINT ∨ token.type = TOKEN_IDENTIFIER := by
  unfold lexer_read_identifier at h
  simp only at h
  cases hl : lexer_read_identifier_loop (strlen lexer.code - lexer.pos) lexer with
  | none => rw [hl] at h; simp at h
  | some l1 =>
    rw [hl] at h
    simp only at h
    cases hk : List.find? (fun kw => decide (kw.1 = substr l1.code lexer.pos (l1.pos - lexer.pos)))
        keywords with
    | none =>
      rw [hk] at h
      simp only [Option.some.injEq, Prod.mk.injEq] at h
      right; rw [← h.1]
    | some kw =>
      rw [hk] at h
      simp only [Option.some.injEq, Prod.mk.injEq] at h
      left
      have hm := List.mem_of_find?_eq_some hk
      simp only [keywords, List.mem_singleton] at hm
      rw [← h.1, hm]

/-- No call of the lexer returns a token of kind `TOKEN_UNKNOWN`, and when it returns the
end-of-input token it has left the lexer at the end of the text. -/
theorem lexer_get_next_token_fuel_type :
    ∀ (fuel : Nat) (lexer next : Lexer) (token : Token),
      lexer_get_next_token_fuel fuel lexer = some (token, next) →
      token.type ≠ TOKEN_UNKNOWN
        ∧ (token.type = TOKEN_EOF →
            strlen next.code ≤ next.pos
              ∧ token = { type := TOKEN_EOF, value := none, line := next.line,
                          column := next.column }) := by
  intro fuel
  induction fuel with
  | zero =>
    intro lexer next token h
    rw [lexer_get_next_token_fuel] at h
    cases hs : lexer_skip_blanks (strlen lexer.code - lexer.pos) lexer with
    | none => rw [hs] at h; simp at h
    | some l1 =>
      rw [hs] at h
      simp only at h
      split_ifs at h with h1 h2 h3 h4 h5 h6
      · simp only [Option.some.injEq, Prod.mk.injEq] at h
        obtain ⟨ht, hn⟩ := h
        subst hn; subst ht
        exact ⟨by simp, fun _ => ⟨h1, rfl⟩⟩
      · have := lexer_read_number_type _ _ _ h
        exact ⟨by rw [this]; simp, fun hc => by rw [this] at hc; simp at hc⟩
      · rcases lexer_read_identifier_type _ _ _ h with this | this <;>
          exact ⟨by rw [this]; simp, fun hc => by rw [this] at hc; simp at hc⟩
      · have := lexer_read_string_type _ _ _ h
        exact ⟨by rw [this]; simp, fun hc => by rw [this] at hc; simp at hc⟩
      · simp only [Option.some.injEq, Prod.mk.injEq] at h
        rw [← h.1]
        exact ⟨by simp, fun hc => by simp at hc⟩
      · simp only [Option.some.injEq, Prod.mk.injEq] at h
        rw [← h.1]
        exact ⟨h6, fun hc => absurd hc (lexer_operator_token_type _ _)⟩
  | succ fuel ih =>
    intro lexer next token h
    rw [lexer_get_next_token_fuel] at h
    cases hs : lexer_skip_blanks (strlen lexer.code - lexer.pos) lexer with
    | none => rw [hs] at h; simp at h
    | some l1 =>
      rw [hs] at h
      simp only at h
      split_ifs at h with h1 h2 h3 h4 h5 h6
      · simp only [Option.some.injEq, Prod.mk.injEq] at h
        obtain ⟨ht, hn⟩ := h
        subst hn; subst ht
        exact ⟨by simp, fun _ => ⟨h1, rfl⟩⟩
      · have := lexer_read_number_type _ _ _ h
        exact ⟨by rw [this]; simp, fun hc => by rw [this] at hc; simp at hc⟩
      · rcases lexer_read_identifier_type _ _ _ h with this | this <;>
          exact ⟨by rw [this]; simp, fun hc => by rw [this] at hc; simp at hc⟩
      · have := lexer_read_string_type _ _ _ h
        exact ⟨by rw [this]; simp, fun hc => by rw [this] at hc; simp at hc⟩
      · simp only [Option.some.injEq, Prod.mk.injEq] at h
        rw [← h.1]
        exact ⟨by simp, fun hc => by simp at hc⟩
      · simp only [Option.some.injEq, Prod.mk.injEq] at h
        rw [← h.1]
        exact ⟨h6, fun hc => absurd hc (lexer_operator_token_type _ _)⟩
      · exact ih _ _ _ h

theorem lex_tokens_at_end (lexer : Lexer) (h : strlen lexer.code ≤ lexer.pos) (n : Nat) :
    lex_tokens n lexer
      = List.replicate n { type := TOKEN_EOF, value := none, line := lexer.line,
                           column := lexer.column } := by
  induction n with
  | zero => rfl
  | succ n ih =>
    rw [lex_tokens, lexer_get_next_token_eof lexer h]
    simp only [List.replicate_succ, ih]

theorem lexer_calls_at_end (lexer : Lexer) (h : strlen lexer.code ≤ lexer.pos) (n : Nat) :
    lexer_calls n lexer
      = some (List.replicate n { type := TOKEN_EOF, value := none, line := lexer.line,
                                 column := lexer.column }, lexer) := by
  induction n with
  | zero => rfl
  | succ n ih =>
    rw [lexer_calls, lexer_get_next_token_eof lexer h]
    simp only [ih, List.replicate_succ]

/-! ## A print statement on a line of its own -/

theorem next_token_newline {lexer : Lexer} (rest : List Char)
    (h : LexAt lexer ('\n' :: rest)) :
    lexer_get_next_token lexer
      = some ({ type := TOKEN_NEWLINE, value := some ['\n'], line := lexer.line, column := 1 },
              { lexer with pos := lexer.pos + 1, line := lexer.line + 1, column := 1 })
      ∧ LexAt { lexer with pos := lexer.pos + 1, line := lexer.line + 1, column := 1 }
          rest := by
  obtain ⟨hlt, hch⟩ := lexAt_first h (by decide)
  obtain ⟨hadv, hat⟩ := lexAt_step h (by decide)
  have hstep : step_char '\n' lexer
      = { lexer with pos := lexer.pos + 1, line := lexer.line + 1, column := 1 } := by
    unfold step_char; simp
  rw [hstep] at hadv hat
  have hdisp := lexer_get_next_token_dispatch lexer hlt (Or.inr hch)
    (by rw [hch]; decide) (Or.inr (Or.inr (Or.inr (Or.inr (Or.inr hch)))))
  rw [hch] at hdisp
  have e1 : isdigit '\n' = false := by decide
  have e2 : ¬ (isalpha '\n' = true ∨ '\n' = '_') := by decide
  have e3 : ¬ ('\n' = '"') := by decide
  simp only [e1, e2, e3, if_false, if_true, hadv, Bool.false_eq_true] at hdisp
  refine ⟨?_, hat⟩
  rw [hdisp]
  simp

theorem parser_consume_newlines_one (fuel : Nat) (parser : Parser) (token : Token)
    (lexer : Lexer) (hc : parser.current_token.type = TOKEN_NEWLINE)
    (hp : parser.peek_token.type ≠ TOKEN_NEWLINE)
    (h : lexer_get_next_token parser.lexer = some (token, lexer)) :
    parser_consume_newlines (fuel + 1) parser
      = .ok { lexer := lexer, current_token := parser.peek_token, peek_token := token } := by
  rw [parser_consume_newlines, if_pos hc, parser_advance_eq parser token lexer h]
  exact parser_consume_newlines_none _ _ hp

/-- The parse of a source text whose tokens are the print keyword, `(`, one number,
string or identifier token, `)`, one newline and the end of input. -/
theorem parse_source_print_line (code : List Char) (t1 t2 t3 t4 t5 t6 : Token)
    (L1 L2 L3 L4 L5 L6 : Lexer)
    (h1 : lexer_get_next_token (lexer_init code) = some (t1, L1))
    (ht1 : t1.type = TOKEN_PRINT)
    (h2 : lexer_get_next_token L1 = some (t2, L2))
    (ht2 : t2.type = TOKEN_LPAREN)
    (h3 : lexer_get_next_token L2 = some (t3, L3))
    (ht3 : t3.type = TOKEN_NUMBER ∨ t3.type = TOKEN_STRING ∨ t3.type = TOKEN_IDENTIFIER)
    (h4 : lexer_get_next_token L3 = some (t4, L4))
    (ht4 : t4.type = TOKEN_RPAREN)
    (h5 : lexer_get_next_token L4 = some (t5, L5))
    (ht5 : t5.type = TOKEN_NEWLINE)
    (h6 : lexer_get_next_token L5 = some (t6, L6))
    (ht6 : t6.type = TOKEN_EOF)
    (h7 : lexer_get_next_token L6 = some (t6, L6)) :
    parse_source code = .ok [NODE_PRINT (factor_node t3)] := by
  have hinit : parser_init (lexer_init code)
      = .ok { lexer := L2, current_token := t1, peek_token := t2 } := by
    simp [parser_init, parser_next_token, h1, h2]
  have ha1 := parser_advance_eq { lexer := L2, current_token := t1, peek_token := t2 } t3 L3 h3
  have ha2 := parser_expect_eq { lexer := L3, current_token := t2, peek_token := t3 }
    TOKEN_LPAREN t4 L4 ht2 h4
  have hnm : ¬ is_multiplicative
      ({ lexer := L5, current_token := t4, peek_token := t5 } : Parser).current_token.type := by
    show ¬ is_multiplicative t4.type
    rw [ht4]; decide
  have hna : ¬ is_additive
      ({ lexer := L5, current_token := t4, peek_token := t5 } : Parser).current_token.type := by
    show ¬ is_additive t4.type
    rw [ht4]; decide
  have hf := parse_factor_single
    (3 * unread { lexer := L4, current_token := t3, peek_token := t4 } + 5)
    { lexer := L4, current_token := t3, peek_token := t4 } t5 L5 ht3 h5
  have hT := parse_term_of_factor _ _ _ _ hf hnm
  have hE : parse_expression
      (expression_fuel { lexer := L4, current_token := t3, peek_token := t4 })
      { lexer := L4, current_token := t3, peek_token := t4 }
      = .ok (factor_node t3, { lexer := L5, current_token := t4, peek_token := t5 }) := by
    unfold expression_fuel
    rw [parse_expression_eq _ _ _ _ hT]
    exact parse_expression_loop_exit _ _ _ hna
  have ha4 := parser_expect_eq { lexer := L5, current_token := t4, peek_token := t5 }
    TOKEN_RPAREN t6 L6 ht4 h6
  have hS := parse_statement_print _ _ _ _ _ _ ht1 ha1 ha2 hE ha4
  have hC := parser_consume_newlines_one
    (unread { lexer := L6, current_token := t5, peek_token := t6 } + 1)
    { lexer := L6, current_token := t5, peek_token := t6 } t6 L6 ht5
    (by show t6.type ≠ TOKEN_NEWLINE; rw [ht6]; decide) h7
  have hP : parse_program { lexer := L2, current_token := t1, peek_token := t2 }
      = .ok ([NODE_PRINT (factor_node t3)],
             { lexer := L6, current_token := t6, peek_token := t6 }) := by
    unfold parse_program
    rw [parser_consume_newlines_none _ _ (by show t1.type ≠ TOKEN_NEWLINE; rw [ht1]; decide)]
    show parse_program_loop (_ + 1) [] _ = _
    rw [parse_program_loop_step _ [] _ _ _ _ (by show t1.type ≠ TOKEN_EOF; rw [ht1]; decide) hS
      hC]
    rw [parse_program_loop_eof _ _ _ ht6]
    rfl
  simp only [parse_source, hinit, hP]

/-- The line `darshaya(` word `)` with its newline is parsed to the print statement of
the variable `word`. -/
theorem parse_source_print_word_line (c : Char) (w : List Char)
    (hc : is_ident_start c = true) (hw : ∀ d ∈ c :: w, is_ident_char d = true)
    (hkw : c :: w ≠ "darshaya".toList) :
    parse_source ("darshaya(".toList ++ (c :: w) ++ ")\n".toList)
      = .ok [NODE_PRINT (NODE_VAR (c :: w))] := by
  generalize hcode : "darshaya(".toList ++ (c :: w) ++ ")\n".toList = code
  have hshape : code = 'd' :: ("arshaya".toList ++ ('(' :: (c :: w ++ [')', '\n']))) := by
    rw [← hcode]; simp
  have h0 : LexAt (lexer_init code)
      ('d' :: ("arshaya".toList ++ ('(' :: (c :: w ++ [')', '\n'])))) := by
    have := lexAt_init code
    rw [hshape] at this ⊢
    exact this
  obtain ⟨h1, hat1⟩ := next_token_word 'd' "arshaya".toList ('(' :: (c :: w ++ [')', '\n'])) h0
    (by decide) (by decide) (by show is_ident_char '(' = false; decide)
  obtain ⟨h2, hat2⟩ := next_token_operator '(' (c :: w ++ [')', '\n']) hat1 (by decide)
  obtain ⟨h3, hat3⟩ := next_token_word c w [')', '\n'] hat2 hc hw (by decide)
  obtain ⟨h4, hat4⟩ := next_token_operator ')' ['\n'] hat3 (by decide)
  obtain ⟨h5, hat5⟩ := next_token_newline [] hat4
  have h6 := next_token_end hat5
  rw [keywords_find_none _ hkw] at h3
  have hparse := parse_source_print_line code _ _ _ _ _ _ _ _ _ _ _ _ h1 rfl h2
    (by simp [lexer_operator_token]) h3 (Or.inr (Or.inr rfl)) h4
    (by simp [lexer_operator_token]) h5 rfl h6 rfl h6
  rw [hparse]
  simp [factor_node]

/-! ## The lexer on the unread text: lemmas -/

theorem lexer_get_next_token_fuel_at_end (fuel : Nat) (lexer : Lexer)
    (h : strlen lexer.code ≤ lexer.pos) :
    lexer_get_next_token_fuel fuel lexer
      = some ({ type := TOKEN_EOF, value := none, line := lexer.line, column := lexer.column },
              lexer) := by
  have hlt : ¬ lexer.pos < strlen lexer.code := by omega
  rw [lexer_get_next_token_fuel]
  rw [lexer_skip_blanks_none_to_skip _ lexer (fun h => absurd h hlt)]
  simp [h]

theorem is_ident_start_cases (c : Char) :
    (is_ident_start c = true) ↔ (isalpha c = true ∨ c = '_') := by
  unfold is_ident_start
  simp

theorem token_at_spec {lexer : Lexer} {rest : List Char} (h : LexAt lexer rest)
    (hstop : rest.headD NUL = NUL ∨ is_token_start (rest.headD NUL) = true) (fuel : Nat) :
    lexer_get_next_token_fuel fuel lexer = some (token_at rest lexer)
      ∧ LexAt (token_at rest lexer).2 (after_token rest) := by
  by_cases hnul : rest.headD NUL = NUL
  · have hge : strlen lexer.code ≤ lexer.pos := by
      have := h.pos_lt_iff
      simp only [hnul, ne_eq, not_true_eq_false, iff_false, not_lt] at this
      exact this
    rw [lexer_get_next_token_fuel_at_end fuel lexer hge]
    unfold token_at after_token
    simp only [hnul, if_true]
    exact ⟨trivial, h⟩
  · have hts : is_token_start (rest.headD NUL) = true := by
      rcases hstop with h1 | h1
      · exact absurd h1 hnul
      · exact h1
    cases rest with
    | nil => exact absurd rfl hnul
    | cons c r =>
      simp only [List.headD_cons] at hnul hts
      obtain ⟨hlt, hch⟩ := lexAt_first h hnul
      obtain ⟨_, hnb, hnh⟩ := token_start_facts c hts
      have hskip : lexer_skip_blanks (strlen lexer.code - lexer.pos) lexer = some lexer :=
        lexer_skip_blanks_stop _ lexer (fun _ => by rw [hch]; exact ⟨hnb, hnh⟩)
      have hknown := token_start_known lexer c hts
      have hdisp := lexer_get_next_token_fuel_known fuel lexer lexer hskip hlt
        (by rw [hch]; exact hknown)
      rw [hch] at hdisp
      rw [hdisp]
      unfold token_at after_token
      simp only [List.headD_cons, hnul, if_false, List.tail_cons]
      by_cases h1 : isdigit c = true
      · simp only [h1, if_true]
        exact lexer_read_number_spec h
      · simp only [h1, if_false, Bool.false_eq_true]
        by_cases h2 : is_ident_start c = true
        · have h2b : isalpha c = true ∨ c = '_' := (is_ident_start_cases c).mp h2
          simp only [h2, h2b, if_true]
          exact lexer_read_identifier_spec h
        · have h2b : ¬ (isalpha c = true ∨ c = '_') := fun hc =>
            h2 ((is_ident_start_cases c).mpr hc)
          simp only [h2, h2b, if_false, Bool.false_eq_true]
          by_cases h3 : c = '"'
          · subst h3
            simp only [if_true]
            exact lexer_read_string_spec h
          · simp only [h3, if_false]
            obtain ⟨hadv, hat⟩ := lexAt_step h hnul
            by_cases h4 : c = '\n'
            · subst h4
              simp only [if_true, hadv]
              exact ⟨trivial, hat⟩
            · simp only [h4, if_false, hadv]
              exact ⟨trivial, hat⟩

theorem lexer_skip_comment_spec :
    ∀ (rest : List Char) (lexer : Lexer) (fuel : Nat), LexAt lexer rest →
      (rest.takeWhile in_comment).length ≤ fuel →
      lexer_skip_comment fuel lexer = some (advance_over (rest.takeWhile in_comment) lexer)
        ∧ LexAt (advance_over (rest.takeWhile in_comment) lexer)
            (rest.dropWhile in_comment) := by
  intro rest
  induction rest with
  | nil =>
    intro lexer fuel h _
    have hlt : ¬ lexer.pos < strlen lexer.code := by
      rw [h.pos_lt_iff]; simp
    have hcond : ¬ (lexer.pos < strlen lexer.code ∧ charAt lexer.code lexer.pos ≠ '\n') :=
      fun hc => hlt hc.1
    refine ⟨?_, h⟩
    cases fuel <;> simp only [lexer_skip_comment, if_neg hcond] <;> rfl
  | cons c r ih =>
    intro lexer fuel h hfuel
    have hch : charAt lexer.code lexer.pos = c := by rw [h.charAt_eq]; rfl
    by_cases hc : in_comment c = true
    · have hne : c ≠ NUL := ne_of_class in_comment NUL hc (by decide)
      have hnl : c ≠ '\n' := ne_of_class in_comment '\n' hc (by decide)
      obtain ⟨hlt, _⟩ := lexAt_first h hne
      obtain ⟨hadv, hat⟩ := lexAt_step h hne
      simp only [List.takeWhile_cons, hc, if_true, List.length_cons] at hfuel
      obtain ⟨f, rfl⟩ : ∃ f, fuel = f + 1 := ⟨fuel - 1, by omega⟩
      obtain ⟨h1, h2⟩ := ih (step_char c lexer) f hat (by omega)
      have hcond : lexer.pos < strlen lexer.code ∧ charAt lexer.code lexer.pos ≠ '\n' :=
        ⟨hlt, by rw [hch]; exact hnl⟩
      rw [lexer_skip_comment, if_pos hcond, hadv]
      simp only [List.takeWhile_cons, List.dropWhile_cons, hc, if_true, advance_over_cons]
      exact ⟨h1, h2⟩
    · have hcf : in_comment c = false := by simpa using hc
      have hcond : ¬ (lexer.pos < strlen lexer.code ∧ charAt lexer.code lexer.pos ≠ '\n') := by
        intro hcd
        have hne : c ≠ NUL := by
          have := h.pos_lt_iff.mp hcd.1
          simpa using this
        have hnl : c ≠ '\n' := by rw [← hch]; exact hcd.2
        unfold in_comment at hcf
        simp [hne, hnl] at hcf
      simp only [List.takeWhile_cons, List.dropWhile_cons, hcf, Bool.false_eq_true, if_false,
        advance_over_nil]
      refine ⟨?_, h⟩
      cases fuel <;> simp only [lexer_skip_comment, if_neg hcond]

theorem unrecognized_facts (c : Char) (h : is_unrecognized c = true) :
    c ≠ NUL ∧ isspace c = false ∧ c ≠ '#' ∧ is_token_start c = false := by
  unfold is_unrecognized at h
  simp only [Bool.not_eq_true', Bool.or_eq_false_iff, beq_eq_false_iff_ne, ne_eq] at h
  exact ⟨h.1.1.1, h.1.1.2, h.1.2, h.2⟩

theorem char_classes (c : Char) :
    c = NUL ∨ is_blank c = true ∨ c = '#' ∨ is_unrecognized c = true
      ∨ is_token_start c = true := by
  by_cases h1 : c = NUL
  · exact Or.inl h1
  by_cases h2 : c = '#'
  · exact Or.inr (Or.inr (Or.inl h2))
  by_cases h3 : is_token_start c = true
  · exact Or.inr (Or.inr (Or.inr (Or.inr h3)))
  by_cases h4 : isspace c = true
  · right; left
    unfold is_blank
    have hnl : c ≠ '\n' := by
      intro hc; rw [hc] at h3; exact h3 (by decide)
    simp [h4, hnl]
  · right; right; right; left
    unfold is_unrecognized
    simp [h1, h2, h3, h4]

theorem lexer_operator_token_unknown (lexer : Lexer) (c : Char)
    (h : is_operator_char c = false) :
    (lexer_operator_token lexer c).type = TOKEN_UNKNOWN := by
  unfold is_operator_char at h
  simp only [Bool.or_eq_false_iff, beq_eq_false_iff_ne, ne_eq] at h
  obtain ⟨⟨⟨⟨⟨⟨⟨⟨h1, h2⟩, h3⟩, h4⟩, h5⟩, h6⟩, h7⟩, h8⟩, h9⟩ := h
  unfold lexer_operator_token
  simp only [h1, h2, h3, h4, h5, h6, h7, h8, h9, if_false]

/-- An unrecognized character is passed over by a recursive call (line 291). -/
theorem lexer_get_next_token_fuel_unrecognized {lexer : Lexer} (c : Char) (rest : List Char)
    (h : LexAt lexer (c :: rest)) (hc : is_unrecognized c = true) (fuel : Nat) :
    lexer_get_next_token_fuel (fuel + 1) lexer
      = lexer_get_next_token_fuel fuel (step_char c lexer) := by
  obtain ⟨hnn, hsp, hnh, hts⟩ := unrecognized_facts c hc
  obtain ⟨hlt, hch⟩ := lexAt_first h hnn
  obtain ⟨hadv, _⟩ := lexAt_step h hnn
  have hskip : lexer_skip_blanks (strlen lexer.code - lexer.pos) lexer = some lexer :=
    lexer_skip_blanks_none_to_skip _ lexer (fun _ => by rw [hch]; exact ⟨hsp, hnh⟩)
  unfold is_token_start at hts
  simp only [Bool.or_eq_false_iff, beq_eq_false_iff_ne, ne_eq] at hts
  obtain ⟨⟨⟨⟨⟨h1, h2⟩, h3⟩, h4⟩, h5⟩, h6⟩ := hts
  have hunk := lexer_operator_token_unknown lexer c h6
  have hge : ¬ lexer.pos ≥ strlen lexer.code := by omega
  have h23 : ¬ (isalpha c = true ∨ c = '_') := by
    intro hx; rcases hx with hx | hx
    · rw [hx] at h2; exact absurd h2 (by simp)
    · exact h3 hx
  rw [lexer_get_next_token_fuel, hskip]
  simp only [hge, if_false, hch, h1, h23, h4, h5, hunk, ne_eq, not_true_eq_false, hadv,
    Bool.false_eq_true]

/-- Horizontal white space is passed over by the skipping loop. -/
theorem lexer_get_next_token_fuel_blank {lexer : Lexer} (c : Char) (rest : List Char)
    (h : LexAt lexer (c :: rest)) (hc : is_blank c = true) (fuel : Nat) :
    lexer_get_next_token_fuel fuel lexer
      = lexer_get_next_token_fuel fuel (step_char c lexer) := by
  have hnn := is_blank_ne_NUL c hc
  obtain ⟨hlt, hch⟩ := lexAt_first h hnn
  obtain ⟨hadv, hat⟩ := lexAt_step h hnn
  have hcond : isspace (charAt lexer.code lexer.pos) = true
      ∧ charAt lexer.code lexer.pos ≠ '\n' := by
    rw [hch]
    unfold is_blank at hc
    simpa using hc
  obtain ⟨n, hn⟩ : ∃ n, strlen lexer.code - lexer.pos = n + 1 :=
    ⟨strlen lexer.code - lexer.pos - 1, by omega⟩
  have hn2 : strlen (step_char c lexer).code - (step_char c lexer).pos = n := by
    rw [step_char_code, step_char_pos]; omega
  have hskip : lexer_skip_blanks (strlen lexer.code - lexer.pos) lexer
      = lexer_skip_blanks (strlen (step_char c lexer).code - (step_char c lexer).pos)
          (step_char c lexer) := by
    rw [hn, hn2, lexer_skip_blanks, if_pos hlt, if_pos hcond, hadv]
  rw [lexer_get_next_token_fuel, hskip]
  conv_rhs => rw [lexer_get_next_token_fuel]

/-- A comment is passed over by the skipping loop, up to the end of its line. -/
theorem lexer_get_next_token_fuel_comment {lexer : Lexer} (rest : List Char)
    (h : LexAt lexer ('#' :: rest)) (fuel : Nat) :
    lexer_get_next_token_fuel fuel lexer
      = lexer_get_next_token_fuel fuel
          (advance_over ('#' :: rest.takeWhile in_comment) lexer)
      ∧ LexAt (advance_over ('#' :: rest.takeWhile in_comment) lexer)
          (rest.dropWhile in_comment) := by
  obtain ⟨hlt, hch⟩ := lexAt_first h (by decide)
  have hfuel : (('#' :: rest).takeWhile in_comment).length ≤ strlen lexer.code - lexer.pos := by
    rw [h.unread_eq]
    exact takeWhile_length_le_strlen in_comment (by decide) _
  obtain ⟨hloop, hat⟩ := lexer_skip_comment_spec ('#' :: rest) lexer _ h hfuel
  have htw : ('#' :: rest).takeWhile in_comment = '#' :: rest.takeWhile in_comment := by
    rw [List.takeWhile_cons]; rfl
  have hdw : ('#' :: rest).dropWhile in_comment = rest.dropWhile in_comment := by
    rw [List.dropWhile_cons]; rfl
  rw [htw] at hloop hat
  rw [hdw] at hat
  refine ⟨?_, hat⟩
  have hhead := headD_dropWhile in_comment (by decide) rest
  have hstop : ∀ n, lexer_skip_blanks n (advance_over ('#' :: rest.takeWhile in_comment) lexer)
      = some (advance_over ('#' :: rest.takeWhile in_comment) lexer) := by
    intro n
    apply lexer_skip_blanks_stop
    intro hlt2
    rw [hat.charAt_eq]
    have hne : (rest.dropWhile in_comment).headD NUL ≠ NUL := hat.pos_lt_iff.mp hlt2
    have hnl : (rest.dropWhile in_comment).headD NUL = '\n' := by
      unfold in_comment at hhead
      simp only [Bool.and_eq_false_imp, bne_iff_ne, ne_eq, bne_eq_false_iff_eq] at hhead
      by_contra hx
      exact hne (hhead hx)
    rw [hnl]
    exact ⟨by decide, by decide⟩
  obtain ⟨n, hn⟩ : ∃ n, strlen lexer.code - lexer.pos = n + 1 :=
    ⟨strlen lexer.code - lexer.pos - 1, by omega⟩
  have hnb : ¬ (isspace (charAt lexer.code lexer.pos) = true
      ∧ charAt lexer.code lexer.pos ≠ '\n') := by
    rw [hch]; decide
  have hskip : lexer_skip_blanks (strlen lexer.code - lexer.pos) lexer
      = some (advance_over ('#' :: rest.takeWhile in_comment) lexer) := by
    conv_lhs => rw [hn, lexer_skip_blanks, if_pos hlt, if_neg hnb, if_pos hch, hloop]
    exact hstop n
  rw [lexer_get_next_token_fuel, hskip]
  conv_rhs => rw [lexer_get_next_token_fuel, hstop]

theorem after_gap_stop (rest : List Char) :
    (after_gap rest).headD NUL = NUL ∨ is_token_start ((after_gap rest).headD NUL) = true := by
  induction rest with
  | nil => left; rfl
  | cons c r ih =>
    unfold after_gap
    by_cases h1 : (is_blank c || is_unrecognized c) = true
    · simp only [h1, if_true]; exact ih
    · simp only [h1, if_false, Bool.false_eq_true]
      by_cases h2 : c = '#'
      · simp only [h2, if_true]
        have hhead := headD_dropWhile in_comment (by decide) r
        unfold in_comment at hhead
        simp only [Bool.and_eq_false_imp, bne_iff_ne, ne_eq, bne_eq_false_iff_eq] at hhead
        by_cases hx : (r.dropWhile in_comment).headD NUL = '\n'
        · right; rw [hx]; decide
        · left; exact hhead hx
      · simp only [h2, if_false, List.headD_cons]
        simp only [Bool.or_eq_true, not_or] at h1
        rcases char_classes c with h | h | h | h | h
        · exact Or.inl h
        · exact absurd h h1.1
        · exact absurd h h2
        · exact absurd h h1.2
        · exact Or.inr h

/-- What a call of the lexer computes on the unread text `rest`: it passes over
`token_gap rest` and returns the token that starts there. -/
theorem lexer_get_next_token_fuel_spec :
    ∀ (rest : List Char) (lexer : Lexer) (fuel : Nat), LexAt lexer rest → strlen rest ≤ fuel →
      lexer_get_next_token_fuel fuel lexer
          = some (token_at (after_gap rest) (advance_over (token_gap rest) lexer))
        ∧ LexAt (advance_over (token_gap rest) lexer) (after_gap rest)
        ∧ LexAt (token_at (after_gap rest) (advance_over (token_gap rest) lexer)).2
            (after_token (after_gap rest)) := by
  intro rest
  induction rest with
  | nil =>
    intro lexer fuel h _
    obtain ⟨h1, h2⟩ := token_at_spec h (Or.inl rfl) fuel
    exact ⟨h1, h, h2⟩
  | cons c r ih =>
    intro lexer fuel h hfuel
    by_cases hb : is_blank c = true
    · obtain ⟨_, hat⟩ := lexAt_step h (is_blank_ne_NUL c hb)
      have hlen : strlen r ≤ fuel := by
        rw [strlen_cons, if_neg (is_blank_ne_NUL c hb)] at hfuel; omega
      rw [lexer_get_next_token_fuel_blank c r h hb fuel]
      simp only [token_gap, after_gap, hb, Bool.true_or, if_true, advance_over_cons]
      exact ih (step_char c lexer) fuel hat hlen
    · by_cases hu : is_unrecognized c = true
      · obtain ⟨hnn, _, _, _⟩ := unrecognized_facts c hu
        obtain ⟨_, hat⟩ := lexAt_step h hnn
        rw [strlen_cons, if_neg hnn] at hfuel
        obtain ⟨f, rfl⟩ : ∃ f, fuel = f + 1 := ⟨fuel - 1, by omega⟩
        rw [lexer_get_next_token_fuel_unrecognized c r h hu f]
        simp only [token_gap, after_gap, hu, Bool.or_true, if_true, advance_over_cons]
        exact ih (step_char c lexer) f hat (by omega)
      · have hbu : ¬ ((is_blank c || is_unrecognized c) = true) := by
          simp only [Bool.or_eq_true, not_or]; exact ⟨hb, hu⟩
        by_cases hh : c = '#'
        · subst hh
          obtain ⟨hc1, hat⟩ := lexer_get_next_token_fuel_comment r h fuel
          have hhead := after_gap_stop ('#' :: r)
          simp only [token_gap, after_gap, hbu, if_false, if_true] at hhead ⊢
          rw [hc1]
          obtain ⟨h1, h2⟩ := token_at_spec hat hhead fuel
          exact ⟨h1, hat, h2⟩
        · have hhead := after_gap_stop (c :: r)
          simp only [token_gap, after_gap, hbu, hh, if_false, advance_over_nil] at hhead ⊢
          obtain ⟨h1, h2⟩ := token_at_spec h hhead fuel
          exact ⟨h1, h, h2⟩

theorem lexer_get_next_token_spec {lexer : Lexer} {rest : List Char} (h : LexAt lexer rest) :
    lexer_get_next_token lexer
        = some (token_at (after_gap rest) (advance_over (token_gap rest) lexer))
      ∧ LexAt (token_at (after_gap rest) (advance_over (token_gap rest) lexer)).2
          (after_token (after_gap rest)) := by
  have hfuel : strlen rest ≤ strlen lexer.code - lexer.pos := by rw [h.unread_eq]
  obtain ⟨h1, _, h3⟩ := lexer_get_next_token_fuel_spec rest lexer _ h hfuel
  exact ⟨h1, h3⟩

/-! ## Unrecognized characters replaced by spaces: lemmas -/

theorem replace_code_head (c : Char) (r : List Char) :
    ∃ d t, replace_unrecognized .code (c :: r) = d :: t ∧ (d = c ∨ d = ' ') := by
  simp only [replace_unrecognized]
  split_ifs
  · exact ⟨c, r, rfl, Or.inl rfl⟩
  · exact ⟨c, _, rfl, Or.inl rfl⟩
  · exact ⟨c, _, rfl, Or.inl rfl⟩
  · exact ⟨' ', _, rfl, Or.inr rfl⟩
  · exact ⟨c, _, rfl, Or.inl rfl⟩

theorem replace_code_keep (c : Char) (r : List Char) (h1 : c ≠ NUL) (h2 : c ≠ '"')
    (h3 : c ≠ '#') (h4 : is_unrecognized c = false) :
    replace_unrecognized .code (c :: r) = c :: replace_unrecognized .code r := by
  simp only [replace_unrecognized, h1, h2, h3, h4, if_false, Bool.false_eq_true]

theorem replace_takeWhile (P : Char → Bool)
    (hplain : ∀ c, P c = true → c ≠ NUL ∧ c ≠ '"' ∧ c ≠ '#' ∧ is_unrecognized c = false)
    (hsp : P ' ' = false) :
    ∀ r : List Char,
      (replace_unrecognized .code r).takeWhile P = r.takeWhile P
        ∧ (replace_unrecognized .code r).dropWhile P
            = replace_unrecognized .code (r.dropWhile P) := by
  intro r
  induction r with
  | nil => simp [replace_unrecognized]
  | cons c r ih =>
    by_cases hc : P c = true
    · obtain ⟨h1, h2, h3, h4⟩ := hplain c hc
      rw [replace_code_keep c r h1 h2 h3 h4]
      simp only [List.takeWhile_cons, List.dropWhile_cons, hc, if_true]
      exact ⟨by rw [ih.1], ih.2⟩
    · have hcf : P c = false := by simpa using hc
      obtain ⟨d, t, hd, hdc⟩ := replace_code_head c r
      have hdf : P d = false := by
        rcases hdc with e | e
        · rw [e]; exact hcf
        · rw [e]; exact hsp
      simp only [List.takeWhile_cons, List.dropWhile_cons, hcf, Bool.false_eq_true, if_false]
      rw [hd]
      simp only [List.takeWhile_cons, List.dropWhile_cons, hdf, Bool.false_eq_true, if_false]
      exact ⟨trivial, trivial⟩

theorem replace_comment_run :
    ∀ r : List Char,
      (replace_unrecognized .comment r).takeWhile in_comment = r.takeWhile in_comment
        ∧ (replace_unrecognized .comment r).dropWhile in_comment
            = replace_unrecognized .code (r.dropWhile in_comment) := by
  intro r
  induction r with
  | nil => simp [replace_unrecognized]
  | cons c r ih =>
    by_cases h1 : c = NUL
    · subst h1
      have e : in_comment NUL = false := by decide
      simp [replace_unrecognized, List.takeWhile_cons, List.dropWhile_cons, e]
    · by_cases h2 : c = '\n'
      · subst h2
        have e : in_comment '\n' = false := by decide
        have e2 : is_unrecognized '\n' = false := by decide
        simp only [replace_unrecognized, h1, if_false, if_true, List.takeWhile_cons,
          List.dropWhile_cons, e, Bool.false_eq_true]
        refine ⟨trivial, ?_⟩
        have q1 : ¬ ('\n' = '"') := by decide
        have q2 : ¬ ('\n' = '#') := by decide
        simp only [q1, q2, e2, if_false, Bool.false_eq_true]
      · have e : in_comment c = true := by
          unfold in_comment; simp [h1, h2]
        simp only [replace_unrecognized, h1, h2, if_false, List.takeWhile_cons,
          List.dropWhile_cons, e, if_true]
        exact ⟨by rw [ih.1], ih.2⟩

theorem replace_string_run :
    ∀ r : List Char,
      (replace_unrecognized .string r).takeWhile in_string = r.takeWhile in_string
        ∧ (replace_unrecognized .string r).dropWhile in_string
            = replace_unrecognized .string (r.dropWhile in_string) := by
  intro r
  induction r with
  | nil => simp [replace_unrecognized]
  | cons c r ih =>
    by_cases h1 : c = NUL
    · subst h1
      have e : in_string NUL = false := by decide
      simp [replace_unrecognized, List.takeWhile_cons, List.dropWhile_cons, e]
    · by_cases h2 : c = '"'
      · subst h2
        have e : in_string '"' = false := by decide
        simp [replace_unrecognized, List.takeWhile_cons, List.dropWhile_cons, e, h1]
      · have e : in_string c = true := by
          unfold in_string; simp [h1, h2]
        simp only [replace_unrecognized, h1, h2, if_false, List.takeWhile_cons,
          List.dropWhile_cons, e, if_true]
        exact ⟨by rw [ih.1], ih.2⟩

theorem token_start_not_unrecognized (c : Char) (h : is_token_start c = true) :
    is_unrecognized c = false := by
  unfold is_unrecognized
  simp [h]

theorem blank_not_unrecognized (c : Char) (h : is_blank c = true) :
    is_unrecognized c = false := by
  unfold is_blank at h
  unfold is_unrecognized
  simp only [Bool.and_eq_true] at h
  simp [h.1]

theorem isdigit_plain (c : Char) (h : isdigit c = true) :
    c ≠ NUL ∧ c ≠ '"' ∧ c ≠ '#' ∧ is_unrecognized c = false :=
  ⟨ne_of_class isdigit _ h (by decide), ne_of_class isdigit _ h (by decide),
    ne_of_class isdigit _ h (by decide),
    token_start_not_unrecognized c (by unfold is_token_start; simp [h])⟩

theorem is_ident_char_token_start (c : Char) (h : is_ident_char c = true) :
    is_token_start c = true := by
  unfold is_ident_char isalnum Char.isAlphanum at h
  unfold is_token_start isdigit isalpha
  simp only [Bool.or_eq_true, beq_iff_eq] at h ⊢
  tauto

theorem is_ident_char_plain (c : Char) (h : is_ident_char c = true) :
    c ≠ NUL ∧ c ≠ '"' ∧ c ≠ '#' ∧ is_unrecognized c = false :=
  ⟨ne_of_class is_ident_char _ h (by decide), ne_of_class is_ident_char _ h (by decide),
    ne_of_class is_ident_char _ h (by decide),
    token_start_not_unrecognized c (is_ident_char_token_start c h)⟩

theorem token_gap_of_stop (c : Char) (t : List Char)
    (h : c = NUL ∨ is_token_start c = true) :
    token_gap (c :: t) = [] ∧ after_gap (c :: t) = c :: t := by
  have hb : is_blank c = false := by
    rcases h with h | h
    · rw [h]; decide
    · exact (token_start_facts c h).2.1
  have hu : is_unrecognized c = false := by
    rcases h with h | h
    · rw [h]; decide
    · exact token_start_not_unrecognized c h
  have hh : c ≠ '#' := by
    rcases h with h | h
    · rw [h]; decide
    · exact (token_start_facts c h).2.2
  simp [token_gap, after_gap, hb, hu, hh]

theorem replace_code_of_stop (c : Char) (r : List Char)
    (h : c = NUL ∨ is_token_start c = true) :
    ∃ t, replace_unrecognized .code (c :: r) = c :: t := by
  by_cases h1 : c = NUL
  · exact ⟨r, by simp [replace_unrecognized, h1]⟩
  · by_cases h2 : c = '"'
    · subst h2
      exact ⟨replace_unrecognized .string r, by
        simp only [replace_unrecognized, h1, if_false, if_true]⟩
    · have hts : is_token_start c = true := by
        rcases h with h | h
        · exact absurd h h1
        · exact h
      exact ⟨_, replace_code_keep c r h1 h2 (token_start_facts c hts).2.2
        (token_start_not_unrecognized c hts)⟩

theorem replace_gap :
    ∀ (r : List Char) (lexer : Lexer),
      advance_over (token_gap (replace_unrecognized .code r)) lexer
          = advance_over (token_gap r) lexer
        ∧ after_gap (replace_unrecognized .code r) = replace_unrecognized .code (after_gap r) := by
  intro r
  induction r with
  | nil => intro lexer; simp [replace_unrecognized, token_gap, after_gap]
  | cons c r ih =>
    intro lexer
    rcases char_classes c with h | h | h | h | h
    · obtain ⟨t, ht⟩ := replace_code_of_stop c r (Or.inl h)
      obtain ⟨g1, g2⟩ := token_gap_of_stop c t (Or.inl h)
      obtain ⟨g3, g4⟩ := token_gap_of_stop c r (Or.inl h)
      rw [ht, g1, g2, g3, g4, ht]
      exact ⟨rfl, rfl⟩
    · have hnn := is_blank_ne_NUL c h
      have hq : c ≠ '"' := ne_of_class is_blank _ h (by decide)
      have hh : c ≠ '#' := ne_of_class is_blank _ h (by decide)
      rw [replace_code_keep c r hnn hq hh (blank_not_unrecognized c h)]
      simp only [token_gap, after_gap, h, Bool.true_or, if_true, advance_over_cons]
      exact ih (step_char c lexer)
    · subst h
      have e1 : (is_blank '#' || is_unrecognized '#') = false := by decide
      have e2 : ¬ ('#' = NUL) := by decide
      have e3 : ¬ ('#' = '"') := by decide
      simp only [replace_unrecognized, e2, e3, if_false, if_true, token_gap, after_gap, e1,
        Bool.false_eq_true]
      obtain ⟨c1, c2⟩ := replace_comment_run r
      rw [c1, c2]
      exact ⟨rfl, rfl⟩
    · obtain ⟨hnn, hsp, hh, _⟩ := unrecognized_facts c h
      have hq : c ≠ '"' := by
        intro hc; rw [hc] at h; exact absurd h (by decide)
      have hnl : c ≠ '\n' := by
        intro hc; rw [hc] at hsp; exact absurd hsp (by decide)
      have e1 : is_blank ' ' = true := by decide
      have hstep : step_char ' ' lexer = step_char c lexer := by
        unfold step_char
        have e2 : ¬ (' ' = '\n') := by decide
        simp only [e2, hnl, if_false]
      simp only [replace_unrecognized, hnn, hq, hh, h, if_false, if_true, token_gap, after_gap,
        e1, Bool.true_or, Bool.or_true, advance_over_cons, hstep]
      exact ih (step_char c lexer)
    · obtain ⟨t, ht⟩ := replace_code_of_stop c r (Or.inr h)
      obtain ⟨g1, g2⟩ := token_gap_of_stop c t (Or.inr h)
      obtain ⟨g3, g4⟩ := token_gap_of_stop c r (Or.inr h)
      rw [ht, g1, g2, g3, g4, ht]
      exact ⟨rfl, rfl⟩

theorem replace_string_head (r : List Char) :
    (replace_unrecognized .string r).headD NUL = r.headD NUL := by
  cases r with
  | nil => rfl
  | cons c r =>
    simp only [replace_unrecognized]
    split_ifs <;> rfl

theorem replace_after_string (r : List Char) :
    (if ((replace_unrecognized .string (r.dropWhile in_string)).headD NUL = '"') then
        (replace_unrecognized .string (r.dropWhile in_string)).tail
      else replace_unrecognized .string (r.dropWhile in_string))
      = replace_unrecognized .code
          (if (r.dropWhile in_string).headD NUL = '"' then (r.dropWhile in_string).tail
           else r.dropWhile in_string) := by
  have hhead := headD_dropWhile in_string in_string_NUL r
  rw [replace_string_head]
  generalize r.dropWhile in_string = after at hhead ⊢
  cases after with
  | nil => simp [replace_unrecognized]
  | cons c t =>
    simp only [List.headD_cons] at hhead ⊢
    by_cases hq : c = '"'
    · subst hq
      have e : ¬ ('"' = NUL) := by decide
      simp only [if_true, replace_unrecognized, e, if_false, List.tail_cons]
    · have hn : c = NUL := in_string_false_cases c hhead hq
      subst hn
      simp [replace_unrecognized, hq]

theorem replace_token_at (r : List Char) (lexer : Lexer)
    (hstop : r.headD NUL = NUL ∨ is_token_start (r.headD NUL) = true) :
    token_at (replace_unrecognized .code r) lexer = token_at r lexer
      ∧ after_token (replace_unrecognized .code r)
          = replace_unrecognized .code (after_token r) := by
  cases r with
  | nil => simp [replace_unrecognized, after_token]
  | cons c r =>
    simp only [List.headD_cons] at hstop
    by_cases hnul : c = NUL
    · subst hnul
      have e : replace_unrecognized .code (NUL :: r) = NUL :: r := by
        simp [replace_unrecognized]
      rw [e]
      refine ⟨rfl, ?_⟩
      simp only [after_token, List.headD_cons, if_true]
      exact e.symm
    · have hts : is_token_start c = true := by
        rcases hstop with h | h
        · exact absurd h hnul
        · exact h
      by_cases hq : c = '"'
      · subst hq
        have e : replace_unrecognized .code ('"' :: r)
            = '"' :: replace_unrecognized .string r := by
          simp only [replace_unrecognized, hnul, if_false, if_true]
        have d1 : isdigit '"' = false := by decide
        have d2 : is_ident_start '"' = false := by decide
        rw [e]
        unfold token_at after_token
        simp only [List.headD_cons, hnul, if_false, d1, d2, Bool.false_eq_true, if_true,
          List.tail_cons]
        rw [(replace_string_run r).1, (replace_string_run r).2]
        refine ⟨?_, replace_after_string r⟩
        unfold close_string
        rw [replace_string_head]
      · have hkeep := replace_code_keep c r hnul hq (token_start_facts c hts).2.2
          (token_start_not_unrecognized c hts)
        have hhead : (replace_unrecognized .code (c :: r)).headD NUL = c := by
          rw [hkeep]; rfl
        unfold token_at after_token
        simp only [hhead, List.headD_cons, hnul, if_false]
        by_cases h1 : isdigit c = true
        · simp only [h1, if_true]
          obtain ⟨t1, t2⟩ := replace_takeWhile isdigit isdigit_plain (by decide) (c :: r)
          rw [t1, t2]
          exact ⟨rfl, rfl⟩
        · simp only [h1, if_false, Bool.false_eq_true]
          by_cases h2 : is_ident_start c = true
          · simp only [h2, if_true]
            obtain ⟨t1, t2⟩ := replace_takeWhile is_ident_char is_ident_char_plain (by decide)
              (c :: r)
            rw [t1, t2]
            exact ⟨rfl, rfl⟩
          · simp only [h2, hq, if_false, Bool.false_eq_true]
            rw [hkeep]
            exact ⟨trivial, rfl⟩

theorem step_char_with_code (c : Char) (lexer : Lexer) (k : List Char) :
    step_char c { lexer with code := k } = { step_char c lexer with code := k } := by
  unfold step_char
  split <;> rfl

theorem advance_over_with_code (cs : List Char) (k : List Char) :
    ∀ lexer : Lexer,
      advance_over cs { lexer with code := k } = { advance_over cs lexer with code := k } := by
  induction cs with
  | nil => intro lexer; rfl
  | cons c cs ih =>
    intro lexer
    rw [advance_over_cons, advance_over_cons, step_char_with_code, ih]

theorem close_string_with_code (after : List Char) (lexer : Lexer) (k : List Char) :
    close_string after { lexer with code := k } = { close_string after lexer with code := k } := by
  unfold close_string
  split
  · exact step_char_with_code _ _ _
  · rfl

theorem token_at_with_code (r : List Char) (lexer : Lexer) (k : List Char) :
    token_at r { lexer with code := k }
      = ((token_at r lexer).1, { (token_at r lexer).2 with code := k }) := by
  unfold token_at
  split_ifs
  · rfl
  · simp only [advance_over_with_code]
  · simp only [advance_over_with_code]
  · simp only [step_char_with_code, advance_over_with_code, close_string_with_code]
  · simp only [step_char_with_code]
  · simp only [step_char_with_code]
    rfl

/-- The lexer returns the same tokens on a text and on the text with its unrecognized
characters replaced by spaces. -/
theorem lex_tokens_replace (k : List Char) :
    ∀ (n : Nat) (rest : List Char) (lexer : Lexer), LexAt lexer rest →
      LexAt { lexer with code := k } (replace_unrecognized .code rest) →
      lex_tokens n { lexer with code := k } = lex_tokens n lexer := by
  intro n
  induction n with
  | zero => intro rest lexer _ _; rfl
  | succ n ih =>
    intro rest lexer h hk
    obtain ⟨h1, h2⟩ := lexer_get_next_token_spec h
    obtain ⟨h3, h4⟩ := lexer_get_next_token_spec hk
    obtain ⟨g1, g2⟩ := replace_gap rest { lexer with code := k }
    obtain ⟨t1, t2⟩ := replace_token_at (after_gap rest)
      (advance_over (token_gap rest) { lexer with code := k }) (after_gap_stop rest)
    rw [g1, g2, t1, advance_over_with_code, token_at_with_code] at h3
    rw [g1, g2, t1, t2, advance_over_with_code, token_at_with_code] at h4
    rw [lex_tokens, lex_tokens, h1, h3]
    simp only
    rw [ih (after_token (after_gap rest)) _ h2 h4]

/-- Every call of the lexer returns a token. -/
theorem lex_tokens_length :
    ∀ (n : Nat) (rest : List Char) (lexer : Lexer), LexAt lexer rest →
      (lex_tokens n lexer).length = n := by
  intro n
  induction n with
  | zero => intro rest lexer _; rfl
  | succ n ih =>
    intro rest lexer h
    obtain ⟨h1, h2⟩ := lexer_get_next_token_spec h
    rw [lex_tokens, h1]
    simp only [List.length_cons]
    rw [ih _ _ h2]

theorem lexer_get_next_token_unrecognized {lexer : Lexer} (c : Char) (rest : List Char)
    (h : LexAt lexer (c :: rest)) (hc : is_unrecognized c = true) :
    lexer_get_next_token lexer = lexer_get_next_token (step_char c lexer) := by
  obtain ⟨hnn, _, _, _⟩ := unrecognized_facts c hc
  obtain ⟨hlt, _⟩ := lexAt_first h hnn
  obtain ⟨n, hn⟩ : ∃ n, strlen lexer.code - lexer.pos = n + 1 :=
    ⟨strlen lexer.code - lexer.pos - 1, by omega⟩
  have hn2 : strlen (step_char c lexer).code - (step_char c lexer).pos = n := by
    rw [step_char_code, step_char_pos]; omega
  unfold lexer_get_next_token
  rw [hn, hn2]
  exact lexer_get_next_token_fuel_unrecognized c rest h hc n

theorem lex_tokens_no_unknown :
    ∀ (n : Nat) (lexer : Lexer), ∀ token ∈ lex_tokens n lexer, token.type ≠ TOKEN_UNKNOWN := by
  intro n
  induction n with
  | zero => intro lexer token h; simp [lex_tokens] at h
  | succ n ih =>
    intro lexer token h
    rw [lex_tokens] at h
    cases hc : lexer_get_next_token lexer with
    | none => rw [hc] at h; simp at h
    | some r =>
      obtain ⟨first, next⟩ := r
      rw [hc] at h
      simp only [List.mem_cons] at h
      rcases h with h | h
      · rw [h]
        exact (lexer_get_next_token_fuel_type _ lexer next first hc).1
      · exact ih next token h

/-! ## Comment lines and blank lines -/

theorem token_gap_comment_line (pad text rest : List Char)
    (hp : ∀ c ∈ pad, is_blank c = true) (ht : ∀ c ∈ text, in_comment c = true) :
    token_gap (pad ++ '#' :: (text ++ '\n' :: rest)) = pad ++ '#' :: text
      ∧ after_gap (pad ++ '#' :: (text ++ '\n' :: rest)) = '\n' :: rest := by
  induction pad with
  | nil =>
    have e1 : (is_blank '#' || is_unrecognized '#') = false := by decide
    have e2 := takeWhile_append_stop in_comment text ('\n' :: rest) ht
      (by show in_comment '\n' = false; decide)
    simp only [List.nil_append, token_gap, after_gap, e1, Bool.false_eq_true, if_false, if_true,
      e2.1, e2.2]
    exact ⟨trivial, trivial⟩
  | cons c pad ih =>
    have hc : is_blank c = true := hp c (List.mem_cons_self _ _)
    obtain ⟨i1, i2⟩ := ih (fun d hd => hp d (List.mem_cons_of_mem _ hd))
    have e1 : token_gap (c :: (pad ++ '#' :: (text ++ '\n' :: rest)))
        = c :: token_gap (pad ++ '#' :: (text ++ '\n' :: rest)) := by
      simp only [token_gap, hc, Bool.true_or, if_true]
    have e2 : after_gap (c :: (pad ++ '#' :: (text ++ '\n' :: rest)))
        = after_gap (pad ++ '#' :: (text ++ '\n' :: rest)) := by
      simp only [after_gap, hc, Bool.true_or, if_true]
    rw [List.cons_append, e1, e2, i1, i2]
    exact ⟨rfl, rfl⟩

/-- A comment line, with or without white space before its `#`, is lexed as one Newline
token: the call passes over the comment and returns the token of the line end. -/
theorem next_token_comment_line {lexer : Lexer} (pad text rest : List Char)
    (h : LexAt lexer (pad ++ '#' :: (text ++ '\n' :: rest)))
    (hp : ∀ c ∈ pad, is_blank c = true) (ht : ∀ c ∈ text, in_comment c = true) :
    lexer_get_next_token lexer
      = some ({ type := TOKEN_NEWLINE, value := some ['\n'], line := lexer.line, column := 1 },
              { lexer with pos := lexer.pos + (pad ++ '#' :: text).length + 1,
                           line := lexer.line + 1, column := 1 })
      ∧ LexAt { lexer with pos := lexer.pos + (pad ++ '#' :: text).length + 1,
                           line := lexer.line + 1, column := 1 } rest := by
  obtain ⟨g1, g2⟩ := token_gap_comment_line pad text rest hp ht
  obtain ⟨h1, h2⟩ := lexer_get_next_token_spec h
  rw [g1, g2] at h1 h2
  have hline : ∀ c ∈ pad ++ '#' :: text, c ≠ '\n' := by
    intro c hc
    simp only [List.mem_append, List.mem_cons] at hc
    rcases hc with hc | hc | hc
    · exact ne_of_class is_blank _ (hp c hc) (by decide)
    · rw [hc]; decide
    · exact ne_of_class in_comment _ (ht c hc) (by decide)
  rw [advance_over_same_line _ _ hline] at h1 h2
  have e : token_at ('\n' :: rest)
      { lexer with pos := lexer.pos + (pad ++ '#' :: text).length,
                   column := lexer.column + (pad ++ '#' :: text).length }
      = ({ type := TOKEN_NEWLINE, value := some ['\n'], line := lexer.line, column := 1 },
         { lexer with pos := lexer.pos + (pad ++ '#' :: text).length + 1,
                      line := lexer.line + 1, column := 1 }) := by
    have q0 : ¬ ('\n' = NUL) := by decide
    have q1 : isdigit '\n' = false := by decide
    have q2 : is_ident_start '\n' = false := by decide
    have q3 : ¬ ('\n' = '"') := by decide
    simp only [token_at, List.headD_cons, q0, q1, q2, q3, if_false, if_true, step_char,
      Bool.false_eq_true]
    simp
  have e2 : after_token ('\n' :: rest) = rest := by
    have q0 : ¬ ('\n' = NUL) := by decide
    have q1 : isdigit '\n' = false := by decide
    have q2 : is_ident_start '\n' = false := by decide
    have q3 : ¬ ('\n' = '"') := by decide
    simp only [after_token, List.headD_cons, q0, q1, q2, q3, if_false, List.tail_cons,
      Bool.false_eq_true]
  rw [e] at h1 h2
  rw [e2] at h2
  exact ⟨h1, h2⟩

/-- A line of horizontal white space only, the empty line included, is lexed as one
Newline token. -/
theorem next_token_blank_line {lexer : Lexer} (pad rest : List Char)
    (h : LexAt lexer (pad ++ '\n' :: rest)) (hp : ∀ c ∈ pad, is_blank c = true) :
    lexer_get_next_token lexer
      = some ({ type := TOKEN_NEWLINE, value := some ['\n'], line := lexer.line, column := 1 },
              { lexer with pos := lexer.pos + pad.length + 1, line := lexer.line + 1,
                           column := 1 })
      ∧ LexAt { lexer with pos := lexer.pos + pad.length + 1, line := lexer.line + 1,
                           column := 1 } rest := by
  obtain ⟨h1, hat⟩ := next_token_after_blanks pad '\n' rest h hp (by decide)
  have hline : ∀ c ∈ pad, c ≠ '\n' := fun c hc => ne_of_class is_blank _ (hp c hc) (by decide)
  rw [advance_over_same_line _ _ hline] at h1 hat
  obtain ⟨h2, hat2⟩ := next_token_newline rest hat
  rw [h1]
  exact ⟨h2, hat2⟩

/-! ## Parser: the nodes `parse_statement` delivers -/

theorem parse_statement_node (parser next : Parser) (node : ASTNode)
    (h : parse_statement parser = .ok (some node, next)) :
    parser.current_token.type = TOKEN_PRINT ∧ ∃ expr, node = NODE_PRINT expr := by
  unfold parse_statement at h
  split_ifs at h with h1 h2 h3
  · refine ⟨h1, ?_⟩
    repeat' split at h
    all_goals first
      | (simp only [Except.ok.injEq, Prod.mk.injEq, Option.some.injEq] at h
         exact ⟨_, h.1.symm⟩)
      | (simp at h)
  · repeat' split at h
    all_goals simp at h
  · repeat' split at h
    all_goals simp at h

theorem parse_statement_assignment (parser : Parser)
    (h1 : parser.current_token.type = TOKEN_IDENTIFIER)
    (h2 : parser.peek_token.type = TOKEN_ASSIGN) :
    ∀ r, parse_statement parser ≠ .ok r := by
  intro r h
  unfold parse_statement at h
  have hp : ¬ parser.current_token.type = TOKEN_PRINT := by rw [h1]; simp
  rw [if_neg hp, if_pos ⟨h1, h2⟩] at h
  repeat' split at h
  all_goals simp at h

theorem parse_statement_other (parser : Parser)
    (h1 : parser.current_token.type ≠ TOKEN_PRINT)
    (h2 : ¬ (parser.current_token.type = TOKEN_IDENTIFIER
      ∧ parser.peek_token.type = TOKEN_ASSIGN))
    (h3 : parser.current_token.type ≠ TOKEN_NEWLINE) :
    parse_statement parser = .error (.SyntaxErrorStatement parser.current_token) := by
  unfold parse_statement
  rw [if_neg h1, if_neg h2, if_neg h3]

theorem parse_program_loop_nodes :
    ∀ (fuel : Nat) (statements : List ASTNode) (parser : Parser)
      (result : List ASTNode) (final : Parser),
      (∀ node ∈ statements, ∃ expr, node = NODE_PRINT expr) →
      parse_program_loop fuel statements parser = .ok (result, final) →
      ∀ node ∈ result, ∃ expr, node = NODE_PRINT expr := by
  intro fuel
  induction fuel with
  | zero =>
    intro statements parser result final hacc h
    unfold parse_program_loop at h
    split_ifs at h
    simp only [Except.ok.injEq, Prod.mk.injEq] at h
    rw [← h.1]; exact hacc
  | succ fuel ih =>
    intro statements parser result final hacc h
    rw [parse_program_loop] at h
    split_ifs at h with hne
    · cases hs : parse_statement parser with
      | error e => rw [hs] at h; simp at h
      | ok r =>
        obtain ⟨stmt, p1⟩ := r
        rw [hs] at h
        simp only at h
        cases hc : parser_consume_newlines (unread p1 + 2) p1 with
        | error e => rw [hc] at h; simp at h
        | ok p2 =>
          rw [hc] at h
          simp only at h
          refine ih _ p2 result final ?_ h
          cases stmt with
          | none => exact hacc
          | some node =>
            intro n hn
            simp only [List.mem_append, List.mem_singleton] at hn
            rcases hn with hn | hn
            · exact hacc n hn
            · rw [hn]; exact (parse_statement_node parser p1 node hs).2
    · simp only [Except.ok.injEq, Prod.mk.injEq] at h
      rw [← h.1]; exact hacc

theorem parse_source_nodes (code : List Char) (statements : List ASTNode)
    (h : parse_source code = .ok statements) :
    ∀ node ∈ statements, ∃ expr, node = NODE_PRINT expr := by
  unfold parse_source at h
  cases hi : parser_init (lexer_init code) with
  | error e => rw [hi] at h; simp at h
  | ok parser =>
    rw [hi] at h
    simp only at h
    cases hp : parse_program parser with
    | error e => rw [hp] at h; simp at h
    | ok r =>
      obtain ⟨stmts, final⟩ := r
      rw [hp] at h
      simp only [Except.ok.injEq] at h
      subst h
      unfold parse_program at hp
      cases hc : parser_consume_newlines (unread parser + 2) parser with
      | error e => rw [hc] at hp; simp at hp
      | ok p2 =>
        rw [hc] at hp
        simp only at hp
        exact parse_program_loop_nodes _ [] p2 stmts final (by simp) hp

/-! ## Main execution flow: lemmas -/

theorem execute_statements_append_ok (a b : List ASTNode) :
    ∀ (process mid : Process), execute_statements a process = (mid, none) →
      execute_statements (a ++ b) process = execute_statements b mid := by
  induction a with
  | nil =>
    intro process mid h
    simp only [execute_statements, Prod.mk.injEq, and_true] at h
    rw [← h]; rfl
  | cons node rest ih =>
    intro process mid h
    simp only [List.cons_append, execute_statements] at h ⊢
    cases hs : execute_statement node process with
    | error e => rw [hs] at h; simp at h
    | ok next =>
      rw [hs] at h
      simp only at h ⊢
      exact ih next mid h

theorem execute_statements_stops (a : List ASTNode) (node : ASTNode) (b : List ASTNode)
    (process mid : Process) (e : Error) (ha : execute_statements a process = (mid, none))
    (hn : execute_statement node mid = .error e) :
    execute_statements (a ++ node :: b) process = (mid, some e) := by
  rw [execute_statements_append_ok a (node :: b) process mid ha]
  simp [execute_statements, hn]

theorem execute_statement_effect (node : ASTNode) (process next : Process)
    (h : execute_statement node process = .ok next) :
    next.stdout = process.stdout ++ statement_output node process
    ∧ (∀ expr, node = NODE_PRINT expr → next.symbol_table = process.symbol_table)
    ∧ (∀ name expr, node = NODE_ASSIGN name expr →
        ∃ value, evaluate_expression process.symbol_table expr = .ok value
          ∧ next.symbol_table = set_symbol process.symbol_table name value) := by
  cases node with
  | NODE_ASSIGN name expr =>
    simp only [execute_statement] at h
    cases hv : evaluate_expression process.symbol_table expr with
    | error e => rw [hv] at h; simp at h
    | ok v =>
      rw [hv] at h
      have := Except.ok.inj h
      subst this
      refine ⟨by simp [statement_output], by simp, ?_⟩
      intro name2 expr2 heq
      injection heq with h1 h2
      subst h1; subst h2
      exact ⟨v, hv, rfl⟩
  | NODE_PRINT expr =>
    by_cases hs : ∃ s, expr = NODE_STRING s
    · obtain ⟨s, rfl⟩ := hs
      simp only [execute_statement] at h
      have := Except.ok.inj h
      subst this
      exact ⟨by simp [statement_output], by simp, by simp⟩
    · have hs2 : ∀ s, expr ≠ NODE_STRING s := fun s hc => hs ⟨s, hc⟩
      cases hv : evaluate_expression process.symbol_table expr with
      | error e =>
        rw [execute_print_error process expr e hs2 hv] at h
        simp at h
      | ok v =>
        rw [execute_print_value process expr v hs2 hv] at h
        have := Except.ok.inj h
        subst this
        refine ⟨?_, by simp, by simp⟩
        cases expr <;> simp_all [statement_output]
  | NODE_NUMBER _ => simp [execute_statement] at h
  | NODE_STRING _ => simp [execute_statement] at h
  | NODE_VAR _ => simp [execute_statement] at h
  | NODE_BINOP _ _ _ => simp [execute_statement] at h

theorem execute_statements_output (statements : List ASTNode) :
    ∀ process : Process,
      (execute_statements statements process).1.stdout
        = process.stdout ++ output_before_first_failure statements process := by
  induction statements with
  | nil => intro process; simp [execute_statements, output_before_first_failure]
  | cons node rest ih =>
    intro process
    simp only [execute_statements, output_before_first_failure]
    cases hs : execute_statement node process with
    | error e => simp
    | ok next =>
      simp only
      rw [ih next, (execute_statement_effect node process next hs).1, List.append_assoc]

theorem strcmp_eq_print_line (rest : List Char) :
    strcmp_eq ("darshaya(".toList ++ rest) "nirgam\n".toList = false := by
  have hd : ("darshaya(".toList ++ rest) = 'd' :: ("arshaya(".toList ++ rest) := rfl
  have hn : "nirgam\n".toList = 'n' :: "irgam\n".toList := rfl
  unfold strcmp_eq
  rw [hd, hn, strlen_cons, strlen_cons]
  simp [NUL]

theorem run_panlang_code_text_as_lexer (code : List Char) (process : Process) :
    run_panlang_code code process = (process, some (.TextUsedAsLexer code)) := rfl

theorem repl_loop_first_line (line : List Char) (input : List (List Char))
    (process : Process) (hq : strcmp_eq line "nirgam\n".toList = false) :
    repl_loop (line :: input) process
      = ({ process with stdout := process.stdout ++ ">>> ".toList },
          some (.TextUsedAsLexer line)) := by
  rw [repl_loop]
  simp only [hq, Bool.false_eq_true, if_false, run_panlang_code_text_as_lexer]

theorem execute_statements_free_empty (statements : List ASTNode) (process : Process) :
    (free_symbol_table (execute_statements statements process).1).symbol_table = [] := rfl

/-! ## The lexer moves forward -/

theorem token_gap_append (rest : List Char) : token_gap rest ++ after_gap rest = rest := by
  induction rest with
  | nil => rfl
  | cons c r ih =>
    unfold token_gap after_gap
    by_cases h1 : (is_blank c || is_unrecognized c) = true
    · simp only [h1, if_true, List.cons_append, ih]
    · simp only [h1, if_false, Bool.false_eq_true]
      by_cases h2 : c = '#'
      · simp only [h2, if_true, List.cons_append, List.takeWhile_append_dropWhile]
      · simp only [h2, if_false, List.nil_append]

theorem token_text_append (rest : List Char) : token_text rest ++ after_token rest = rest := by
  unfold token_text after_token
  by_cases h0 : rest.headD NUL = NUL
  · simp only [h0, if_true, List.nil_append]
  · simp only [h0, if_false]
    cases rest with
    | nil => exact absurd rfl h0
    | cons c r =>
      simp only [List.headD_cons, List.tail_cons] at h0 ⊢
      by_cases h1 : isdigit c = true
      · simp only [h1, if_true, List.takeWhile_append_dropWhile]
      · simp only [h1, if_false, Bool.false_eq_true]
        by_cases h2 : is_ident_start c = true
        · simp only [h2, if_true, List.takeWhile_append_dropWhile]
        · simp only [h2, if_false, Bool.false_eq_true]
          by_cases h3 : c = '"'
          · subst h3
            simp only [if_true]
            have hsplit := List.takeWhile_append_dropWhile in_string r
            by_cases h4 : (r.dropWhile in_string).headD NUL = '"'
            · simp only [h4, if_true]
              cases hd : r.dropWhile in_string with
              | nil => rw [hd] at h4; exact absurd h4 (by decide)
              | cons d t =>
                rw [hd] at h4 hsplit
                simp only [List.headD_cons] at h4
                subst h4
                simp only [List.tail_cons, List.cons_append, List.append_assoc,
                  List.singleton_append, List.nil_append, hsplit]
            · simp only [h4, if_false, List.append_nil, List.cons_append, hsplit]
          · simp only [h3, if_false, List.singleton_append]

theorem token_at_lexer (rest : List Char) (lexer : Lexer) :
    (token_at rest lexer).2 = advance_over (token_text rest) lexer := by
  unfold token_at token_text
  by_cases h0 : rest.headD NUL = NUL
  · simp only [h0, if_true]; rfl
  · simp only [h0, if_false]
    by_cases h1 : isdigit (rest.headD NUL) = true
    · simp only [h1, if_true]
    · simp only [h1, if_false, Bool.false_eq_true]
      by_cases h2 : is_ident_start (rest.headD NUL) = true
      · simp only [h2, if_true]
      · simp only [h2, if_false, Bool.false_eq_true]
        by_cases h3 : rest.headD NUL = '"'
        · simp only [h3, if_true, advance_over_cons, advance_over_append]
          unfold close_string
          split <;> rfl
        · simp only [h3, if_false]
          by_cases h4 : rest.headD NUL = '\n'
          · simp only [h4, if_true]; rfl
          · simp only [h4, if_false]; rfl

theorem token_text_length_pos (rest : List Char) (h : rest.headD NUL ≠ NUL) :
    0 < (token_text rest).length := by
  cases rest with
  | nil => exact absurd rfl h
  | cons c r =>
    simp only [List.headD_cons] at h
    unfold token_text
    simp only [List.headD_cons, h, if_false]
    by_cases h1 : isdigit c = true
    · simp [h1, List.takeWhile_cons]
    · simp only [h1, if_false, Bool.false_eq_true]
      by_cases h2 : is_ident_start c = true
      · have h2c : is_ident_char c = true := by
          unfold is_ident_start at h2
          unfold is_ident_char isalnum Char.isAlphanum
          unfold isalpha at h2
          simp only [Bool.or_eq_true, beq_iff_eq] at h2 ⊢
          tauto
        simp [h2, h2c, List.takeWhile_cons]
      · simp only [h2, if_false, Bool.false_eq_true]
        split <;> simp

theorem token_at_type_eof (rest : List Char) (lexer : Lexer)
    (h : (token_at rest lexer).1.type = TOKEN_EOF) : rest.headD NUL = NUL := by
  by_contra h0
  unfold token_at at h
  simp only [h0, if_false] at h
  by_cases h1 : isdigit (rest.headD NUL) = true
  · simp only [h1, if_true] at h
    simp at h
  · simp only [h1, if_false, Bool.false_eq_true] at h
    by_cases h2 : is_ident_start (rest.headD NUL) = true
    · simp only [h2, if_true] at h
      cases hf : keywords.find? (fun kw => kw.1 = rest.takeWhile is_ident_char) with
      | none => rw [hf] at h; simp at h
      | some kw =>
        rw [hf] at h
        have hm := List.mem_of_find?_eq_some hf
        simp only [keywords, List.mem_singleton] at hm
        rw [hm] at h
        simp at h
    · simp only [h2, if_false, Bool.false_eq_true] at h
      by_cases h3 : rest.headD NUL = '"'
      · simp only [h3, if_true] at h
        simp at h
      · simp only [h3, if_false] at h
        by_cases h4 : rest.headD NUL = '\n'
        · simp only [h4, if_true] at h
          simp at h
        · simp only [h4, if_false] at h
          exact lexer_operator_token_type _ _ h

/-- Every call of `lexer_get_next_token` returns; it leaves the text alone, never moves
the position back nor past the end of the text, and moves it forward when the token it
returns is not the end of input. -/
theorem lexer_get_next_token_progress (lexer : Lexer) :
    ∃ token next, lexer_get_next_token lexer = some (token, next)
      ∧ next.code = lexer.code ∧ lexer.pos ≤ next.pos
      ∧ (lexer.pos ≤ strlen lexer.code → next.pos ≤ strlen next.code)
      ∧ (token.type ≠ TOKEN_EOF → lexer.pos < next.pos)
      ∧ (token.type = TOKEN_EOF → strlen next.code ≤ next.pos) := by
  by_cases hle : lexer.pos ≤ strlen lexer.code
  · have h : LexAt lexer (lexer.code.drop lexer.pos) := ⟨rfl, hle⟩
    obtain ⟨h1, h2⟩ := lexer_get_next_token_spec h
    have e := token_at_lexer (after_gap (lexer.code.drop lexer.pos))
      (advance_over (token_gap (lexer.code.drop lexer.pos)) lexer)
    have hty := token_at_type_eof (after_gap (lexer.code.drop lexer.pos))
      (advance_over (token_gap (lexer.code.drop lexer.pos)) lexer)
    cases htk : token_at (after_gap (lexer.code.drop lexer.pos))
        (advance_over (token_gap (lexer.code.drop lexer.pos)) lexer) with
    | mk token next =>
      rw [htk] at h1 h2 e hty
      simp only at h2 e hty
      refine ⟨token, next, h1, ?_, ?_, ?_, ?_, ?_⟩
      · rw [e, advance_over_code, advance_over_code]
      · rw [e, advance_over_pos, advance_over_pos]; omega
      · intro _
        exact h2.pos_le
      · intro hne
        have hhead : (after_gap (lexer.code.drop lexer.pos)).headD NUL ≠ NUL := by
          intro hc
          apply hne
          have : (token_at (after_gap (lexer.code.drop lexer.pos))
              (advance_over (token_gap (lexer.code.drop lexer.pos)) lexer)).1.type
              = TOKEN_EOF := by
            unfold token_at; simp only [hc, if_true]
          rw [htk] at this
          exact this
        have := token_text_length_pos _ hhead
        rw [e, advance_over_pos, advance_over_pos]; omega
      · intro he
        exact ((lexer_get_next_token_fuel_type _ lexer _ _ h1).2 he).1
  · have hge : strlen lexer.code ≤ lexer.pos := by omega
    refine ⟨_, _, lexer_get_next_token_eof lexer hge, rfl, le_refl _, fun h => absurd h hle,
      fun hne => absurd rfl hne, fun _ => hge⟩

/-! ## The parser moves forward -/

theorem lexer_get_next_token_unread (lexer : Lexer) :
    ∃ token next, lexer_get_next_token lexer = some (token, next)
      ∧ strlen next.code - next.pos ≤ strlen lexer.code - lexer.pos
      ∧ (token.type ≠ TOKEN_EOF →
          strlen next.code - next.pos < strlen lexer.code - lexer.pos) := by
  obtain ⟨token, next, h, hcode, hle, hin, hlt, _⟩ := lexer_get_next_token_progress lexer
  refine ⟨token, next, h, ?_, ?_⟩
  · rw [hcode]; omega
  · intro hne
    have h1 := hlt hne
    by_cases hp : lexer.pos ≤ strlen lexer.code
    · have h2 := hin hp
      rw [hcode] at h2 ⊢
      omega
    · have hge : strlen lexer.code ≤ lexer.pos := by omega
      rw [lexer_get_next_token_eof lexer hge] at h
      simp only [Option.some.injEq, Prod.mk.injEq] at h
      exact absurd (by rw [← h.1]) hne

/-- `parser_advance` always succeeds, and it lowers `pending` unless the current token is
the end of input. -/
theorem parser_advance_progress (parser : Parser) :
    ∃ next, parser_advance parser = .ok next
      ∧ next.current_token = parser.peek_token
      ∧ pending next ≤ pending parser
      ∧ (parser.current_token.type ≠ TOKEN_EOF → pending next < pending parser) := by
  obtain ⟨token, lexer, h, hle, hlt⟩ := lexer_get_next_token_unread parser.lexer
  refine ⟨_, parser_advance_eq parser token lexer h, rfl, ?_, ?_⟩
  · unfold pending unread
    simp only
    by_cases ht : token.type = TOKEN_EOF
    · simp only [ht, if_true]
      split_ifs <;> omega
    · have := hlt ht
      simp only [ht, if_false]
      split_ifs <;> omega
  · intro hc
    unfold pending unread
    simp only [hc, if_false]
    by_cases ht : token.type = TOKEN_EOF
    · simp only [ht, if_true]
      split_ifs <;> omega
    · have := hlt ht
      simp only [ht, if_false]
      split_ifs <;> omega

theorem parser_advance_ok (parser next : Parser) (h : parser_advance parser = .ok next) :
    pending next ≤ pending parser
      ∧ (parser.current_token.type ≠ TOKEN_EOF → pending next < pending parser) := by
  obtain ⟨n2, h2, _, h3, h4⟩ := parser_advance_progress parser
  rw [h] at h2
  rw [Except.ok.inj h2]
  exact ⟨h3, h4⟩

theorem parser_advance_not_error (parser : Parser) (e : Error) :
    parser_advance parser ≠ .error e := by
  obtain ⟨n2, h2, _⟩ := parser_advance_progress parser
  rw [h2]; simp

theorem parser_expect_ok (parser next : Parser) (type : TokenType)
    (h : parser_expect parser type = .ok next) (ht : type ≠ TOKEN_EOF) :
    pending next < pending parser := by
  unfold parser_expect at h
  split_ifs at h with hc
  exact (parser_advance_ok parser next h).2 (by rw [hc]; exact ht)

theorem parser_expect_fuel (parser : Parser) (type : TokenType) :
    parser_expect parser type ≠ .error .OutOfFuel := by
  unfold parser_expect
  split_ifs
  · exact parser_advance_not_error _ _
  · simp

/-- A successful parse of an expression, a term or a factor lowers `pending`; the loops
do not raise it. -/
theorem parse_progress (n : Nat) :
    (∀ p a q, parse_expression n p = .ok (a, q) → pending q < pending p)
    ∧ (∀ l p a q, parse_expression_loop n l p = .ok (a, q) → pending q ≤ pending p)
    ∧ (∀ p a q, parse_term n p = .ok (a, q) → pending q < pending p)
    ∧ (∀ l p a q, parse_term_loop n l p = .ok (a, q) → pending q ≤ pending p)
    ∧ (∀ p a q, parse_factor n p = .ok (a, q) → pending q < pending p) := by
  induction n with
  | zero =>
    refine ⟨?_, ?_, ?_, ?_, ?_⟩ <;> intros <;> simp_all [parse_expression,
      parse_expression_loop, parse_term, parse_term_loop, parse_factor]
  | succ n ih =>
    obtain ⟨ihE, ihEL, ihT, ihTL, ihF⟩ := ih
    refine ⟨?_, ?_, ?_, ?_, ?_⟩
    · intro p a q h
      rw [parse_expression] at h
      cases ht : parse_term n p with
      | error e => rw [ht] at h; simp at h
      | ok v =>
        obtain ⟨left, p1⟩ := v
        rw [ht] at h
        simp only at h
        have h1 := ihT p left p1 ht
        have h2 := ihEL left p1 a q h
        omega
    · intro l p a q h
      rw [parse_expression_loop] at h
      split_ifs at h with hop
      · have hne : p.current_token.type ≠ TOKEN_EOF := by
          rcases hop with hc | hc <;> rw [hc] <;> simp
        cases ha : parser_advance p with
        | error e => rw [ha] at h; simp at h
        | ok p1 =>
          rw [ha] at h
          simp only at h
          have h1 := (parser_advance_ok p p1 ha).2 hne
          cases ht : parse_term n p1 with
          | error e => rw [ht] at h; simp at h
          | ok v =>
            obtain ⟨right, p2⟩ := v
            rw [ht] at h
            simp only at h
            have h2 := ihT p1 right p2 ht
            have h3 := ihEL _ p2 a q h
            omega
      · simp only [Except.ok.injEq, Prod.mk.injEq] at h
        rw [← h.2]
    · intro p a q h
      rw [parse_term] at h
      cases ht : parse_factor n p with
      | error e => rw [ht] at h; simp at h
      | ok v =>
        obtain ⟨left, p1⟩ := v
        rw [ht] at h
        simp only at h
        have h1 := ihF p left p1 ht
        have h2 := ihTL left p1 a q h
        omega
    · intro l p a q h
      rw [parse_term_loop] at h
      split_ifs at h with hop
      · have hne : p.current_token.type ≠ TOKEN_EOF := by
          rcases hop with hc | hc <;> rw [hc] <;> simp
        cases ha : parser_advance p with
        | error e => rw [ha] at h; simp at h
        | ok p1 =>
          rw [ha] at h
          simp only at h
          have h1 := (parser_advance_ok p p1 ha).2 hne
          cases ht : parse_factor n p1 with
          | error e => rw [ht] at h; simp at h
          | ok v =>
            obtain ⟨right, p2⟩ := v
            rw [ht] at h
            simp only at h
            have h2 := ihF p1 right p2 ht
            have h3 := ihTL _ p2 a q h
            omega
      · simp only [Except.ok.injEq, Prod.mk.injEq] at h
        rw [← h.2]
    · intro p a q h
      rw [parse_factor] at h
      split_ifs at h with h1 h2 h3 h4
      · cases ha : parser_advance p with
        | error e => rw [ha] at h; simp at h
        | ok p1 =>
          rw [ha] at h
          simp only [Except.ok.injEq, Prod.mk.injEq] at h
          rw [← h.2]
          exact (parser_advance_ok p p1 ha).2 (by rw [h1]; simp)
      · cases ha : parser_advance p with
        | error e => rw [ha] at h; simp at h
        | ok p1 =>
          rw [ha] at h
          simp only [Except.ok.injEq, Prod.mk.injEq] at h
          rw [← h.2]
          exact (parser_advance_ok p p1 ha).2 (by rw [h2]; simp)
      · cases ha : parser_advance p with
        | error e => rw [ha] at h; simp at h
        | ok p1 =>
          rw [ha] at h
          simp only [Except.ok.injEq, Prod.mk.injEq] at h
          rw [← h.2]
          exact (parser_advance_ok p p1 ha).2 (by rw [h3]; simp)
      · cases ha : parser_advance p with
        | error e => rw [ha] at h; simp at h
        | ok p1 =>
          rw [ha] at h
          simp only at h
          have g1 := (parser_advance_ok p p1 ha).2 (by rw [h4]; simp)
          cases he : parse_expression n p1 with
          | error e => rw [he] at h; simp at h
          | ok v =>
            obtain ⟨node, p2⟩ := v
            rw [he] at h
            simp only at h
            have g2 := ihE p1 node p2 he
            cases hx : parser_expect p2 TOKEN_RPAREN with
            | error e => rw [hx] at h; simp at h
            | ok p3 =>
              rw [hx] at h
              simp only [Except.ok.injEq, Prod.mk.injEq] at h
              rw [← h.2]
              have g3 := parser_expect_ok p2 p3 TOKEN_RPAREN hx (by simp)
              omega

/-- The fuel counters are large enough: with three units per pending token and one to
three more, no parse of a factor, a term or an expression runs out of fuel. -/
theorem parse_fuel_adequate :
    ∀ (m : Nat) (p : Parser), pending p ≤ m →
      (∀ fuel, 3 * m + 1 ≤ fuel → parse_factor fuel p ≠ .error .OutOfFuel)
      ∧ (∀ fuel l, 3 * m + 1 ≤ fuel → parse_term_loop fuel l p ≠ .error .OutOfFuel)
      ∧ (∀ fuel, 3 * m + 2 ≤ fuel → parse_term fuel p ≠ .error .OutOfFuel)
      ∧ (∀ fuel l, 3 * m + 2 ≤ fuel → parse_expression_loop fuel l p ≠ .error .OutOfFuel)
      ∧ (∀ fuel, 3 * m + 3 ≤ fuel → parse_expression fuel p ≠ .error .OutOfFuel) := by
  intro m
  induction m using Nat.strong_induction_on with
  | _ m ih =>
    intro p hp
    have hF : ∀ fuel, 3 * m + 1 ≤ fuel → parse_factor fuel p ≠ .error .OutOfFuel := by
      intro fuel hfuel h
      obtain ⟨f, rfl⟩ : ∃ f, fuel = f + 1 := ⟨fuel - 1, by omega⟩
      rw [parse_factor] at h
      split_ifs at h with h1 h2 h3 h4
      · cases ha : parser_advance p with
        | error e => exact parser_advance_not_error p e ha
        | ok p1 => rw [ha] at h; simp at h
      · cases ha : parser_advance p with
        | error e => exact parser_advance_not_error p e ha
        | ok p1 => rw [ha] at h; simp at h
      · cases ha : parser_advance p with
        | error e => exact parser_advance_not_error p e ha
        | ok p1 => rw [ha] at h; simp at h
      · cases ha : parser_advance p with
        | error e => exact parser_advance_not_error p e ha
        | ok p1 =>
          rw [ha] at h
          simp only at h
          have g1 := (parser_advance_ok p p1 ha).2 (by rw [h4]; simp)
          have hlow := (ih (pending p1) (by omega) p1 (le_refl _)).2.2.2.2 f (by omega)
          cases he : parse_expression f p1 with
          | error e =>
            rw [he] at h
            simp only [Except.error.injEq] at h
            rw [h] at he
            exact hlow he
          | ok v =>
            obtain ⟨node, p2⟩ := v
            rw [he] at h
            simp only at h
            cases hx : parser_expect p2 TOKEN_RPAREN with
            | error e =>
              rw [hx] at h
              simp only [Except.error.injEq] at h
              rw [h] at hx
              exact parser_expect_fuel _ _ hx
            | ok p3 => rw [hx] at h; simp at h
      · simp at h
    have hTL : ∀ fuel l, 3 * m + 1 ≤ fuel → parse_term_loop fuel l p ≠ .error .OutOfFuel := by
      intro fuel l hfuel h
      obtain ⟨f, rfl⟩ : ∃ f, fuel = f + 1 := ⟨fuel - 1, by omega⟩
      rw [parse_term_loop] at h
      split_ifs at h with hop
      have hne : p.current_token.type ≠ TOKEN_EOF := by
        rcases hop with hc | hc <;> rw [hc] <;> simp
      cases ha : parser_advance p with
      | error e => exact parser_advance_not_error p e ha
      | ok p1 =>
        rw [ha] at h
        simp only at h
        have g1 := (parser_advance_ok p p1 ha).2 hne
        have hlow := (ih (pending p1) (by omega) p1 (le_refl _)).1 f (by omega)
        cases hf : parse_factor f p1 with
        | error e =>
          rw [hf] at h
          simp only [Except.error.injEq] at h
          rw [h] at hf
          exact hlow hf
        | ok v =>
          obtain ⟨right, p2⟩ := v
          rw [hf] at h
          simp only at h
          have g2 := (parse_progress f).2.2.2.2 p1 right p2 hf
          exact (ih (pending p2) (by omega) p2 (le_refl _)).2.1 f _ (by omega) h
    have hT : ∀ fuel, 3 * m + 2 ≤ fuel → parse_term fuel p ≠ .error .OutOfFuel := by
      intro fuel hfuel h
      obtain ⟨f, rfl⟩ : ∃ f, fuel = f + 1 := ⟨fuel - 1, by omega⟩
      rw [parse_term] at h
      cases hf : parse_factor f p with
      | error e =>
        rw [hf] at h
        simp only [Except.error.injEq] at h
        rw [h] at hf
        exact hF f (by omega) hf
      | ok v =>
        obtain ⟨left, p1⟩ := v
        rw [hf] at h
        simp only at h
        have g1 := (parse_progress f).2.2.2.2 p left p1 hf
        exact (ih (pending p1) (by omega) p1 (le_refl _)).2.1 f _ (by omega) h
    have hEL : ∀ fuel l, 3 * m + 2 ≤ fuel →
        parse_expression_loop fuel l p ≠ .error .OutOfFuel := by
      intro fuel l hfuel h
      obtain ⟨f, rfl⟩ : ∃ f, fuel = f + 1 := ⟨fuel - 1, by omega⟩
      rw [parse_expression_loop] at h
      split_ifs at h with hop
      have hne : p.current_token.type ≠ TOKEN_EOF := by
        rcases hop with hc | hc <;> rw [hc] <;> simp
      cases ha : parser_advance p with
      | error e => exact parser_advance_not_error p e ha
      | ok p1 =>
        rw [ha] at h
        simp only at h
        have g1 := (parser_advance_ok p p1 ha).2 hne
        have hlow := (ih (pending p1) (by omega) p1 (le_refl _)).2.2.1 f (by omega)
        cases ht : parse_term f p1 with
        | error e =>
          rw [ht] at h
          simp only [Except.error.injEq] at h
          rw [h] at ht
          exact hlow ht
        | ok v =>
          obtain ⟨right, p2⟩ := v
          rw [ht] at h
          simp only at h
          have g2 := (parse_progress f).2.2.1 p1 right p2 ht
          exact (ih (pending p2) (by omega) p2 (le_refl _)).2.2.2.1 f _ (by omega) h
    have hE : ∀ fuel, 3 * m + 3 ≤ fuel → parse_expression fuel p ≠ .error .OutOfFuel := by
      intro fuel hfuel h
      obtain ⟨f, rfl⟩ : ∃ f, fuel = f + 1 := ⟨fuel - 1, by omega⟩
      rw [parse_expression] at h
      cases ht : parse_term f p with
      | error e =>
        rw [ht] at h
        simp only [Except.error.injEq] at h
        rw [h] at ht
        exact hT f (by omega) ht
      | ok v =>
        obtain ⟨left, p1⟩ := v
        rw [ht] at h
        simp only at h
        have g1 := (parse_progress f).2.2.1 p left p1 ht
        exact (ih (pending p1) (by omega) p1 (le_refl _)).2.2.2.1 f _ (by omega) h
    exact ⟨hF, hTL, hT, hEL, hE⟩

theorem pending_le (p : Parser) : pending p ≤ unread p + 2 := by
  unfold pending
  split_ifs <;> omega

theorem parse_expression_fuel (p : Parser) :
    parse_expression (expression_fuel p) p ≠ .error .OutOfFuel :=
  (parse_fuel_adequate (pending p) p (le_refl _)).2.2.2.2 _ (by
    unfold expression_fuel
    have := pending_le p
    omega)

theorem parse_statement_fuel (p : Parser) : parse_statement p ≠ .error .OutOfFuel := by
  intro h
  unfold parse_statement at h
  split_ifs at h with h1 h2 h3
  · cases ha : parser_advance p with
    | error e => exact parser_advance_not_error p e ha
    | ok p1 =>
      rw [ha] at h
      simp only at h
      cases hx : parser_expect p1 TOKEN_LPAREN with
      | error e =>
        rw [hx] at h
        simp only [Except.error.injEq] at h
        rw [h] at hx
        exact parser_expect_fuel _ _ hx
      | ok p2 =>
        rw [hx] at h
        simp only at h
        cases he : parse_expression (expression_fuel p2) p2 with
        | error e =>
          rw [he] at h
          simp only [Except.error.injEq] at h
          rw [h] at he
          exact parse_expression_fuel p2 he
        | ok v =>
          obtain ⟨expr, p3⟩ := v
          rw [he] at h
          simp only at h
          cases hy : parser_expect p3 TOKEN_RPAREN with
          | error e =>
            rw [hy] at h
            simp only [Except.error.injEq] at h
            rw [h] at hy
            exact parser_expect_fuel _ _ hy
          | ok p4 => rw [hy] at h; simp at h
  · cases ha : parser_advance p with
    | error e => exact parser_advance_not_error p e ha
    | ok p1 =>
      rw [ha] at h
      simp only at h
      cases hb : parser_advance p1 with
      | error e => exact parser_advance_not_error p1 e hb
      | ok p2 =>
        rw [hb] at h
        simp only at h
        cases he : parse_expression (expression_fuel p2) p2 with
        | error e =>
          rw [he] at h
          simp only [Except.error.injEq] at h
          rw [h] at he
          exact parse_expression_fuel p2 he
        | ok v => rw [he] at h; simp at h
  · cases ha : parser_advance p with
    | error e => exact parser_advance_not_error p e ha
    | ok p1 => rw [ha] at h; simp at h
  · simp at h

theorem parse_statement_progress (p q : Parser) (stmt : Option ASTNode)
    (h : parse_statement p = .ok (stmt, q)) : pending q < pending p := by
  unfold parse_statement at h
  split_ifs at h with h1 h2 h3
  · cases ha : parser_advance p with
    | error e => rw [ha] at h; simp at h
    | ok p1 =>
      rw [ha] at h
      simp only at h
      have g1 := (parser_advance_ok p p1 ha).1
      cases hx : parser_expect p1 TOKEN_LPAREN with
      | error e => rw [hx] at h; simp at h
      | ok p2 =>
        rw [hx] at h
        simp only at h
        have g2 := parser_expect_ok p1 p2 _ hx (by simp)
        cases he : parse_expression (expression_fuel p2) p2 with
        | error e => rw [he] at h; simp at h
        | ok v =>
          obtain ⟨expr, p3⟩ := v
          rw [he] at h
          simp only at h
          have g3 := (parse_progress _).1 p2 expr p3 he
          cases hy : parser_expect p3 TOKEN_RPAREN with
          | error e => rw [hy] at h; simp at h
          | ok p4 =>
            rw [hy] at h
            simp only [Except.ok.injEq, Prod.mk.injEq] at h
            have g4 := parser_expect_ok p3 p4 _ hy (by simp)
            rw [← h.2]
            omega
  · cases ha : parser_advance p with
    | error e => rw [ha] at h; simp at h
    | ok p1 =>
      rw [ha] at h
      simp only at h
      cases hb : parser_advance p1 with
      | error e => rw [hb] at h; simp at h
      | ok p2 =>
        rw [hb] at h
        simp only at h
        cases he : parse_expression (expression_fuel p2) p2 with
        | error e => rw [he] at h; simp at h
        | ok v => rw [he] at h; simp at h
  · cases ha : parser_advance p with
    | error e => rw [ha] at h; simp at h
    | ok p1 =>
      rw [ha] at h
      simp only [Except.ok.injEq, Prod.mk.injEq] at h
      rw [← h.2]
      exact (parser_advance_ok p p1 ha).2 (by rw [h3]; simp)

theorem parser_consume_newlines_progress :
    ∀ (fuel : Nat) (p q : Parser), parser_consume_newlines fuel p = .ok q →
      pending q ≤ pending p ∧ q.current_token.type ≠ TOKEN_NEWLINE := by
  intro fuel
  induction fuel with
  | zero =>
    intro p q h
    unfold parser_consume_newlines at h
    split_ifs at h with hc
    simp only [Except.ok.injEq] at h
    rw [← h]
    exact ⟨le_refl _, hc⟩
  | succ f ih =>
    intro p q h
    rw [parser_consume_newlines] at h
    split_ifs at h with hc
    · cases ha : parser_advance p with
      | error e => rw [ha] at h; simp at h
      | ok p1 =>
        rw [ha] at h
        simp only at h
        have g1 := (parser_advance_ok p p1 ha).1
        have g2 := ih p1 q h
        exact ⟨by omega, g2.2⟩
    · simp only [Except.ok.injEq] at h
      rw [← h]
      exact ⟨le_refl _, hc⟩

theorem parser_consume_newlines_fuel :
    ∀ (fuel : Nat) (p : Parser), pending p ≤ fuel →
      parser_consume_newlines fuel p ≠ .error .OutOfFuel := by
  intro fuel
  induction fuel with
  | zero =>
    intro p hp h
    unfold parser_consume_newlines at h
    split_ifs at h with hc
    have : 0 < pending p := by
      unfold pending
      have hne : ¬ p.current_token.type = TOKEN_EOF := by rw [hc]; simp
      simp only [hne, if_false]
      omega
    omega
  | succ f ih =>
    intro p hp h
    rw [parser_consume_newlines] at h
    split_ifs at h with hc
    cases ha : parser_advance p with
    | error e => exact parser_advance_not_error p e ha
    | ok p1 =>
      rw [ha] at h
      simp only at h
      have g1 := (parser_advance_ok p p1 ha).2 (by rw [hc]; simp)
      exact ih p1 (by omega) h

theorem parse_program_loop_fuel :
    ∀ (fuel : Nat) (statements : List ASTNode) (p : Parser), pending p ≤ fuel →
      parse_program_loop fuel statements p ≠ .error .OutOfFuel := by
  intro fuel
  induction fuel with
  | zero =>
    intro statements p hp h
    unfold parse_program_loop at h
    split_ifs at h with hc
    have : 0 < pending p := by
      unfold pending
      simp only [hc, if_false]
      omega
    omega
  | succ f ih =>
    intro statements p hp h
    rw [parse_program_loop] at h
    split_ifs at h with hc
    cases hs : parse_statement p with
    | error e =>
      rw [hs] at h
      simp only [Except.error.injEq] at h
      rw [h] at hs
      exact parse_statement_fuel p hs
    | ok v =>
      obtain ⟨stmt, p1⟩ := v
      rw [hs] at h
      simp only at h
      have g1 := parse_statement_progress p p1 stmt hs
      cases hn : parser_consume_newlines (unread p1 + 2) p1 with
      | error e =>
        rw [hn] at h
        simp only [Except.error.injEq] at h
        rw [h] at hn
        exact parser_consume_newlines_fuel _ p1 (pending_le p1) hn
      | ok p2 =>
        rw [hn] at h
        simp only at h
        have g2 := (parser_consume_newlines_progress _ p1 p2 hn).1
        exact ih _ p2 (by omega) h

theorem parse_program_fuel (p : Parser) : parse_program p ≠ .error .OutOfFuel := by
  intro h
  unfold parse_program at h
  cases hn : parser_consume_newlines (unread p + 2) p with
  | error e =>
    rw [hn] at h
    simp only [Except.error.injEq] at h
    rw [h] at hn
    exact parser_consume_newlines_fuel _ p (pending_le p) hn
  | ok p2 =>
    rw [hn] at h
    simp only at h
    exact parse_program_loop_fuel _ [] p2 (pending_le p2) h

theorem parser_init_ok (lexer : Lexer) : ∃ parser, parser_init lexer = .ok parser := by
  obtain ⟨t1, l1, h1, _⟩ := lexer_get_next_token_progress lexer
  obtain ⟨t2, l2, h2, _⟩ := lexer_get_next_token_progress l1
  exact ⟨{ lexer := l2, current_token := t1, peek_token := t2 }, by
    simp [parser_init, parser_next_token, h1, h2]⟩

theorem parse_source_fuel (code : List Char) : parse_source code ≠ .error .OutOfFuel := by
  intro h
  unfold parse_source at h
  obtain ⟨parser, hi⟩ := parser_init_ok (lexer_init code)
  rw [hi] at h
  simp only at h
  cases hp : parse_program parser with
  | error e =>
    rw [hp] at h
    simp only [Except.error.injEq] at h
    rw [h] at hp
    exact parse_program_fuel parser hp
  | ok v => rw [hp] at h; simp at h

/-- After as many calls as there are unread characters the lexer returns the end of
input only. -/
theorem lex_tokens_drop_unread :
    ∀ (k : Nat) (lexer : Lexer) (m : Nat), strlen lexer.code - lexer.pos ≤ k →
      ∀ token ∈ (lex_tokens m lexer).drop k, token.type = TOKEN_EOF := by
  intro k
  induction k with
  | zero =>
    intro lexer m hk token hm
    have hge : strlen lexer.code ≤ lexer.pos := by omega
    rw [lex_tokens_at_end lexer hge m, List.drop_zero] at hm
    rw [List.eq_of_mem_replicate hm]
  | succ k ih =>
    intro lexer m hk token hm
    cases m with
    | zero => simp [lex_tokens] at hm
    | succ m =>
      obtain ⟨first, next, h, hle, hlt⟩ := lexer_get_next_token_unread lexer
      rw [lex_tokens, h] at hm
      simp only [List.drop_succ_cons] at hm
      by_cases he : first.type = TOKEN_EOF
      · obtain ⟨_, _, h2, _, _, _, _, hend⟩ := lexer_get_next_token_progress lexer
        rw [h] at h2
        simp only [Option.some.injEq, Prod.mk.injEq] at h2
        have hge : strlen next.code ≤ next.pos := by
          have := hend (by rw [← h2.1]; exact he)
          rw [← h2.2] at this
          exact this
        exact ih next m (by omega) token hm
      · have := hlt he
        exact ih next m (by omega) token hm

theorem lex_tokens_count (lexer : Lexer) (m : Nat) :
    ((lex_tokens m lexer).filter (fun token => decide (token.type ≠ TOKEN_EOF))).length
      ≤ strlen lexer.code - lexer.pos := by
  have hdrop := lex_tokens_drop_unread (strlen lexer.code - lexer.pos) lexer m (le_refl _)
  have hsplit := List.take_append_drop (strlen lexer.code - lexer.pos) (lex_tokens m lexer)
  rw [← hsplit, List.filter_append]
  have hnil : ((lex_tokens m lexer).drop (strlen lexer.code - lexer.pos)).filter
      (fun token => decide (token.type ≠ TOKEN_EOF)) = [] := by
    rw [List.filter_eq_nil_iff]
    intro token hm
    simp [hdrop token hm]
  rw [hnil, List.append_nil]
  exact le_trans (List.length_filter_le _ _) (List.length_take_le _ _)

theorem lexer_get_next_token_moves (lexer next : Lexer) (token : Token)
    (h : lexer_get_next_token lexer = some (token, next)) :
    next.code = lexer.code ∧ lexer.pos ≤ next.pos
      ∧ (lexer.pos ≤ strlen lexer.code → next.pos ≤ strlen lexer.code)
      ∧ (token.type ≠ TOKEN_EOF → lexer.pos < next.pos ∧ next.pos ≤ strlen lexer.code) := by
  obtain ⟨t2, n2, h2, hcode, hle, hin, hlt, _⟩ := lexer_get_next_token_progress lexer
  rw [h] at h2
  simp only [Option.some.injEq, Prod.mk.injEq] at h2
  obtain ⟨e1, e2⟩ := h2
  subst e1; subst e2
  refine ⟨hcode, hle, fun hp => by rw [← hcode]; exact hin hp, fun hne => ⟨hlt hne, ?_⟩⟩
  by_cases hp : lexer.pos ≤ strlen lexer.code
  · rw [← hcode]; exact hin hp
  · have hge : strlen lexer.code ≤ lexer.pos := by omega
    rw [lexer_get_next_token_eof lexer hge] at h
    simp only [Option.some.injEq, Prod.mk.injEq] at h
    exact absurd (by rw [← h.1]) hne

/-! ## The ways the parser stops -/

theorem parser_expect_error (parser : Parser) (type : TokenType) (e : Error)
    (h : parser_expect parser type = .error e) : is_syntax_error e = true := by
  unfold parser_expect at h
  split_ifs at h
  · exact absurd h (parser_advance_not_error _ _)
  · simp only [Except.error.injEq] at h
    rw [← h]; rfl

theorem parse_error_kind (n : Nat) :
    (∀ p e, parse_expression n p = .error e → is_syntax_error e = true ∨ e = .OutOfFuel)
    ∧ (∀ l p e, parse_expression_loop n l p = .error e →
        is_syntax_error e = true ∨ e = .OutOfFuel)
    ∧ (∀ p e, parse_term n p = .error e → is_syntax_error e = true ∨ e = .OutOfFuel)
    ∧ (∀ l p e, parse_term_loop n l p = .error e → is_syntax_error e = true ∨ e = .OutOfFuel)
    ∧ (∀ p e, parse_factor n p = .error e → is_syntax_error e = true ∨ e = .OutOfFuel) := by
  induction n with
  | zero =>
    refine ⟨?_, ?_, ?_, ?_, ?_⟩ <;> intros <;> simp_all [parse_expression,
      parse_expression_loop, parse_term, parse_term_loop, parse_factor]
  | succ n ih =>
    obtain ⟨ihE, ihEL, ihT, ihTL, ihF⟩ := ih
    refine ⟨?_, ?_, ?_, ?_, ?_⟩
    · intro p e h
      rw [parse_expression] at h
      cases ht : parse_term n p with
      | error e1 =>
        rw [ht] at h
        simp only [Except.error.injEq] at h
        rw [← h]; exact ihT p e1 ht
      | ok v =>
        obtain ⟨left, p1⟩ := v
        rw [ht] at h
        exact ihEL left p1 e h
    · intro l p e h
      rw [parse_expression_loop] at h
      split_ifs at h with hop
      cases ha : parser_advance p with
      | error e1 => exact absurd ha (parser_advance_not_error _ _)
      | ok p1 =>
        rw [ha] at h
        simp only at h
        cases ht : parse_term n p1 with
        | error e1 =>
          rw [ht] at h
          simp only [Except.error.injEq] at h
          rw [← h]; exact ihT p1 e1 ht
        | ok v =>
          obtain ⟨right, p2⟩ := v
          rw [ht] at h
          exact ihEL _ p2 e h
    · intro p e h
      rw [parse_term] at h
      cases ht : parse_factor n p with
      | error e1 =>
        rw [ht] at h
        simp only [Except.error.injEq] at h
        rw [← h]; exact ihF p e1 ht
      | ok v =>
        obtain ⟨left, p1⟩ := v
        rw [ht] at h
        exact ihTL left p1 e h
    · intro l p e h
      rw [parse_term_loop] at h
      split_ifs at h with hop
      cases ha : parser_advance p with
      | error e1 => exact absurd ha (parser_advance_not_error _ _)
      | ok p1 =>
        rw [ha] at h
        simp only at h
        cases ht : parse_factor n p1 with
        | error e1 =>
          rw [ht] at h
          simp only [Except.error.injEq] at h
          rw [← h]; exact ihF p1 e1 ht
        | ok v =>
          obtain ⟨right, p2⟩ := v
          rw [ht] at h
          exact ihTL _ p2 e h
    · intro p e h
      rw [parse_factor] at h
      split_ifs at h with h1 h2 h3 h4
      · cases ha : parser_advance p with
        | error e1 => exact absurd ha (parser_advance_not_error _ _)
        | ok p1 => rw [ha] at h; simp at h
      · cases ha : parser_advance p with
        | error e1 => exact absurd ha (parser_advance_not_error _ _)
        | ok p1 => rw [ha] at h; simp at h
      · cases ha : parser_advance p with
        | error e1 => exact absurd ha (parser_advance_not_error _ _)
        | ok p1 => rw [ha] at h; simp at h
      · cases ha : parser_advance p with
        | error e1 => exact absurd ha (parser_advance_not_error _ _)
        | ok p1 =>
          rw [ha] at h
          simp only at h
          cases he : parse_expression n p1 with
          | error e1 =>
            rw [he] at h
            simp only [Except.error.injEq] at h
            rw [← h]; exact ihE p1 e1 he
          | ok v =>
            obtain ⟨node, p2⟩ := v
            rw [he] at h
            simp only at h
            cases hx : parser_expect p2 TOKEN_RPAREN with
            | error e1 =>
              rw [hx] at h
              simp only [Except.error.injEq] at h
              rw [← h]; exact Or.inl (parser_expect_error _ _ _ hx)
            | ok p3 => rw [hx] at h; simp at h
      · simp only [Except.error.injEq] at h
        rw [← h]; exact Or.inl rfl

theorem parse_statement_error (p : Parser) (e : Error) (h : parse_statement p = .error e) :
    is_syntax_error e = true ∨ e = .UseAfterFree := by
  have hfuel : e ≠ .OutOfFuel := fun hc => parse_statement_fuel p (by rw [h, hc])
  have hexp : ∀ q e1, parse_expression (expression_fuel q) q = .error e1 →
      e1 = e → is_syntax_error e = true := by
    intro q e1 he heq
    rcases (parse_error_kind _).1 q e1 he with hk | hk
    · rw [← heq]; exact hk
    · exact absurd (by rw [← heq, hk]) hfuel
  unfold parse_statement at h
  split_ifs at h with h1 h2 h3
  · cases ha : parser_advance p with
    | error e1 => exact absurd ha (parser_advance_not_error _ _)
    | ok p1 =>
      rw [ha] at h
      simp only at h
      cases hx : parser_expect p1 TOKEN_LPAREN with
      | error e1 =>
        rw [hx] at h
        simp only [Except.error.injEq] at h
        rw [← h]; exact Or.inl (parser_expect_error _ _ _ hx)
      | ok p2 =>
        rw [hx] at h
        simp only at h
        cases he : parse_expression (expression_fuel p2) p2 with
        | error e1 =>
          rw [he] at h
          simp only [Except.error.injEq] at h
          exact Or.inl (hexp p2 e1 he h)
        | ok v =>
          obtain ⟨expr, p3⟩ := v
          rw [he] at h
          simp only at h
          cases hy : parser_expect p3 TOKEN_RPAREN with
          | error e1 =>
            rw [hy] at h
            simp only [Except.error.injEq] at h
            rw [← h]; exact Or.inl (parser_expect_error _ _ _ hy)
          | ok p4 => rw [hy] at h; simp at h
  · cases ha : parser_advance p with
    | error e1 => exact absurd ha (parser_advance_not_error _ _)
    | ok p1 =>
      rw [ha] at h
      simp only at h
      cases hb : parser_advance p1 with
      | error e1 => exact absurd hb (parser_advance_not_error _ _)
      | ok p2 =>
        rw [hb] at h
        simp only at h
        cases he : parse_expression (expression_fuel p2) p2 with
        | error e1 =>
          rw [he] at h
          simp only [Except.error.injEq] at h
          exact Or.inl (hexp p2 e1 he h)
        | ok v =>
          rw [he] at h
          simp only [Except.error.injEq] at h
          exact Or.inr h.symm
  · cases ha : parser_advance p with
    | error e1 => exact absurd ha (parser_advance_not_error _ _)
    | ok p1 => rw [ha] at h; simp at h
  · simp only [Except.error.injEq] at h
    rw [← h]; exact Or.inl rfl

theorem parser_consume_newlines_error :
    ∀ (fuel : Nat) (p : Parser) (e : Error), parser_consume_newlines fuel p = .error e →
      e = .OutOfFuel := by
  intro fuel
  induction fuel with
  | zero =>
    intro p e h
    unfold parser_consume_newlines at h
    split_ifs at h
    simp only [Except.error.injEq] at h
    exact h.symm
  | succ f ih =>
    intro p e h
    rw [parser_consume_newlines] at h
    split_ifs at h
    cases ha : parser_advance p with
    | error e1 => exact absurd ha (parser_advance_not_error _ _)
    | ok p1 =>
      rw [ha] at h
      exact ih p1 e h

theorem parse_program_loop_error :
    ∀ (fuel : Nat) (statements : List ASTNode) (p : Parser) (e : Error),
      parse_program_loop fuel statements p = .error e →
      is_syntax_error e = true ∨ e = .UseAfterFree ∨ e = .OutOfFuel := by
  intro fuel
  induction fuel with
  | zero =>
    intro statements p e h
    unfold parse_program_loop at h
    split_ifs at h
    simp only [Except.error.injEq] at h
    exact Or.inr (Or.inr h.symm)
  | succ f ih =>
    intro statements p e h
    rw [parse_program_loop] at h
    split_ifs at h
    cases hs : parse_statement p with
    | error e1 =>
      rw [hs] at h
      simp only [Except.error.injEq] at h
      rw [← h]
      rcases parse_statement_error p e1 hs with hk | hk
      · exact Or.inl hk
      · exact Or.inr (Or.inl hk)
    | ok v =>
      obtain ⟨stmt, p1⟩ := v
      rw [hs] at h
      simp only at h
      cases hn : parser_consume_newlines (unread p1 + 2) p1 with
      | error e1 =>
        rw [hn] at h
        simp only [Except.error.injEq] at h
        rw [← h]
        exact Or.inr (Or.inr (parser_consume_newlines_error _ _ _ hn))
      | ok p2 =>
        rw [hn] at h
        exact ih _ p2 e h

theorem parse_source_error (code : List Char) (e : Error) (h : parse_source code = .error e) :
    is_syntax_error e = true ∨ e = .UseAfterFree := by
  have hfuel : e ≠ .OutOfFuel := fun hc => parse_source_fuel code (by rw [h, hc])
  unfold parse_source at h
  obtain ⟨parser, hi⟩ := parser_init_ok (lexer_init code)
  rw [hi] at h
  simp only at h
  cases hp : parse_program parser with
  | ok v => rw [hp] at h; simp at h
  | error e1 =>
    rw [hp] at h
    simp only [Except.error.injEq] at h
    subst h
    unfold parse_program at hp
    cases hn : parser_consume_newlines (unread parser + 2) parser with
    | error e2 =>
      rw [hn] at hp
      simp only [Except.error.injEq] at hp
      rw [← hp] at hfuel
      exact absurd (parser_consume_newlines_error _ _ _ hn) hfuel
    | ok p2 =>
      rw [hn] at hp
      simp only at hp
      rcases parse_program_loop_error _ [] p2 e1 hp with hk | hk | hk
      · exact Or.inl hk
      · exact Or.inr hk
      · exact absurd hk hfuel

/-! ## Token positions -/

theorem line_of_snoc (before : List Char) (c : Char) :
    line_of (before ++ [c]) = if c = '\n' then line_of before + 1 else line_of before := by
  unfold line_of
  by_cases h : c = '\n'
  · subst h
    simp only [List.count_append, if_true]
    simp
    ring
  · have : List.count '\n' [c] = 0 := by
      simp [List.count_cons, h]
    simp only [List.count_append, this, h, if_false, Nat.add_zero]

theorem column_of_snoc (before : List Char) (c : Char) :
    column_of (before ++ [c]) = if c = '\n' then 1 else column_of before + 1 := by
  unfold column_of
  by_cases h : c = '\n'
  · subst h
    simp [List.takeWhile_cons]
  · simp only [List.reverse_append, List.reverse_cons, List.reverse_nil, List.nil_append,
      List.singleton_append, List.takeWhile_cons, bne_iff_ne, ne_eq, h, not_false_eq_true,
      decide_True, if_true, if_false, List.length_cons]
    push_cast
    ring

theorem take_succ_of_drop (code : List Char) (pos : Nat) (c : Char) (r : List Char)
    (h : code.drop pos = c :: r) : code.take (pos + 1) = code.take pos ++ [c] := by
  have hsplit := List.take_append_drop pos code
  rw [h] at hsplit
  have hlen : (code.take pos).length = pos := by
    apply List.length_take_of_le
    by_contra hc
    have : code.drop pos = [] := List.drop_eq_nil_of_le (by omega)
    rw [this] at h
    exact absurd h (by simp)
  conv_lhs => rw [← hsplit]
  rw [List.take_append_eq_append_take, hlen]
  simp [List.take_of_length_le, hlen]

theorem tracks_step (lexer : Lexer) (c : Char) (r : List Char)
    (h : lexer.code.drop lexer.pos = c :: r) (ht : tracks_position lexer) :
    tracks_position (step_char c lexer)
      ∧ (step_char c lexer).code.drop (step_char c lexer).pos = r := by
  unfold tracks_position at ht ⊢
  rw [step_char_code, step_char_pos, take_succ_of_drop _ _ c r h, line_of_snoc, column_of_snoc]
  refine ⟨?_, ?_⟩
  · unfold step_char
    by_cases hc : c = '\n'
    · simp only [hc, if_true]
      exact ⟨by rw [ht.1], trivial⟩
    · simp only [hc, if_false]
      exact ⟨ht.1, by rw [ht.2]⟩
  · rw [← List.drop_drop, h]
    rfl

theorem tracks_advance_over :
    ∀ (cs : List Char) (lexer : Lexer) (r : List Char),
      lexer.code.drop lexer.pos = cs ++ r → tracks_position lexer →
      tracks_position (advance_over cs lexer)
        ∧ (advance_over cs lexer).code.drop (advance_over cs lexer).pos = r := by
  intro cs
  induction cs with
  | nil => intro lexer r h ht; exact ⟨ht, h⟩
  | cons c cs ih =>
    intro lexer r h ht
    obtain ⟨t1, d1⟩ := tracks_step lexer c (cs ++ r) h ht
    rw [advance_over_cons]
    exact ih (step_char c lexer) r d1 t1

theorem tracks_lexer_init (code : List Char) : tracks_position (lexer_init code) := by
  unfold tracks_position lexer_init line_of column_of
  simp

theorem advance_over_run_position (P : Char → Bool) (hP : P '\n' = false) (r : List Char)
    (start : Lexer) :
    (advance_over (r.takeWhile P) start).line = start.line
      ∧ (advance_over (r.takeWhile P) start).column - ((r.takeWhile P).length : Nat)
          = start.column := by
  have hline : ∀ c ∈ r.takeWhile P, c ≠ '\n' := by
    intro c hc hn
    have := List.mem_takeWhile_imp hc
    rw [hn, hP] at this
    exact absurd this (by simp)
  rw [advance_over_same_line _ _ hline]
  simp

theorem lexer_operator_token_position (lexer : Lexer) (c : Char) :
    (lexer_operator_token lexer c).line = lexer.line
      ∧ (lexer_operator_token lexer c).column = lexer.column
      ∧ (lexer_operator_token lexer c).value = some [c]
      ∧ (lexer_operator_token lexer c).type ≠ TOKEN_STRING
      ∧ (lexer_operator_token lexer c).type ≠ TOKEN_NEWLINE := by
  unfold lexer_operator_token
  simp only
  split_ifs <;> simp

/-- The position a token carries, against the position `start` of its first character:
the same line and column for every token but a String and a Newline; the same line and
column 1 for a Newline; for a String on one line the same line, and the same column
when its closing quote is there, one less when it is not. -/
theorem token_at_position (r : List Char) (start : Lexer) :
    ((token_at r start).1.type ≠ TOKEN_STRING → (token_at r start).1.type ≠ TOKEN_NEWLINE →
        (token_at r start).1.line = start.line ∧ (token_at r start).1.column = start.column)
    ∧ ((token_at r start).1.type = TOKEN_NEWLINE →
        (token_at r start).1.line = start.line ∧ (token_at r start).1.column = 1)
    ∧ ((token_at r start).1.type = TOKEN_STRING →
        (∀ c ∈ r.tail.takeWhile in_string, c ≠ '\n') →
        (token_at r start).1.line = start.line
          ∧ (token_at r start).1.column
              = if (r.tail.dropWhile in_string).headD NUL = '"' then start.column
                else start.column - 1) := by
  unfold token_at
  by_cases h0 : r.headD NUL = NUL
  · simp only [h0, if_true]
    refine ⟨fun _ _ => by simp, fun h => ?_, fun h => ?_⟩ <;> simp at h
  · simp only [h0, if_false]
    by_cases h1 : isdigit (r.headD NUL) = true
    · simp only [h1, if_true]
      obtain ⟨p1, p2⟩ := advance_over_run_position isdigit (by decide) r start
      refine ⟨fun _ _ => ⟨p1, p2⟩, fun h => ?_, fun h => ?_⟩ <;> simp at h
    · simp only [h1, if_false, Bool.false_eq_true]
      by_cases h2 : is_ident_start (r.headD NUL) = true
      · simp only [h2, if_true]
        obtain ⟨p1, p2⟩ := advance_over_run_position is_ident_char (by decide) r start
        have hty : (match keywords.find? (fun kw => kw.1 = r.takeWhile is_ident_char) with
            | some kw => kw.2
            | none => TOKEN_IDENTIFIER) = TOKEN_PRINT
            ∨ (match keywords.find? (fun kw => kw.1 = r.takeWhile is_ident_char) with
            | some kw => kw.2
            | none => TOKEN_IDENTIFIER) = TOKEN_IDENTIFIER := by
          cases hf : keywords.find? (fun kw => kw.1 = r.takeWhile is_ident_char) with
          | none => right; rfl
          | some kw =>
            left
            have hm := List.mem_of_find?_eq_some hf
            simp only [keywords, List.mem_singleton] at hm
            rw [hm]
        refine ⟨fun _ _ => ⟨p1, p2⟩, fun h => ?_, fun h => ?_⟩
        · rcases hty with e | e
          · exact absurd (e.symm.trans h) (by simp)
          · exact absurd (e.symm.trans h) (by simp)
        · rcases hty with e | e
          · exact absurd (e.symm.trans h) (by simp)
          · exact absurd (e.symm.trans h) (by simp)
      · simp only [h2, if_false, Bool.false_eq_true]
        by_cases h3 : r.headD NUL = '"'
        · simp only [h3, if_true]
          refine ⟨fun h => absurd rfl h, fun h => by simp at h, fun _ hline => ?_⟩
          have hq : ¬ ('"' = '\n') := by decide
          rw [advance_over_same_line _ _ hline]
          unfold close_string step_char
          by_cases hc : (r.tail.dropWhile in_string).headD NUL = '"'
          · simp only [hc, if_true, hq, if_false]
            exact ⟨trivial, by ring⟩
          · simp only [hc, if_false, hq]
            exact ⟨trivial, by ring⟩
        · simp only [h3, if_false]
          by_cases h4 : r.headD NUL = '\n'
          · simp only [h4, if_true]
            refine ⟨fun _ h => absurd rfl h, fun _ => ⟨?_, trivial⟩, fun h => by simp at h⟩
            unfold step_char
            simp
          · simp only [h4, if_false]
            obtain ⟨o1, o2, _, o4, o5⟩ := lexer_operator_token_position start (r.headD NUL)
            exact ⟨fun _ _ => ⟨o1, o2⟩, fun h => absurd h o5, fun h => absurd h o4⟩

theorem token_at_value (r : List Char) (start : Lexer)
    (h1 : (token_at r start).1.type ≠ TOKEN_EOF)
    (h2 : (token_at r start).1.type ≠ TOKEN_STRING) :
    (token_at r start).1.value = some (token_text r) := by
  unfold token_at at h1 h2 ⊢
  unfold token_text
  by_cases h0 : r.headD NUL = NUL
  · simp only [h0, if_true] at h1
    exact absurd rfl h1
  · simp only [h0, if_false] at h2 ⊢
    by_cases d1 : isdigit (r.headD NUL) = true
    · simp only [d1, if_true]
    · simp only [d1, if_false, Bool.false_eq_true] at h2 ⊢
      by_cases d2 : is_ident_start (r.headD NUL) = true
      · simp only [d2, if_true]
      · simp only [d2, if_false, Bool.false_eq_true] at h2 ⊢
        by_cases d3 : r.headD NUL = '"'
        · simp only [d3, if_true] at h2
          exact absurd rfl h2
        · simp only [d3, if_false]
          by_cases d4 : r.headD NUL = '\n'
          · simp only [d4, if_true]
          · simp only [d4, if_false]
            exact (lexer_operator_token_position start (r.headD NUL)).2.2.1

/-- One call of the lexer from a state whose line and column are those of its
position: where the token starts, where the call ends, and the position the token
carries. -/
theorem lexer_get_next_token_position (lexer next : Lexer) (token : Token)
    (hp : lexer.pos ≤ strlen lexer.code) (ht : tracks_position lexer)
    (h : lexer_get_next_token lexer = some (token, next)) :
    tracks_position next ∧ next.pos ≤ strlen next.code ∧ next.code = lexer.code
    ∧ next.pos = token_start lexer
        + (token_text (lexer.code.drop (token_start lexer))).length
    ∧ (token.type ≠ TOKEN_EOF → token.type ≠ TOKEN_STRING →
        token.value = some (token_text (lexer.code.drop (token_start lexer))))
    ∧ (token.type ≠ TOKEN_STRING → token.type ≠ TOKEN_NEWLINE →
        token.line = line_of (lexer.code.take (token_start lexer))
          ∧ token.column = column_of (lexer.code.take (token_start lexer)))
    ∧ (token.type = TOKEN_NEWLINE →
        token.line = line_of (lexer.code.take (token_start lexer)) ∧ token.column = 1)
    ∧ (token.type = TOKEN_STRING →
        (∀ c ∈ (lexer.code.drop (token_start lexer)).tail.takeWhile in_string, c ≠ '\n') →
        token.line = line_of (lexer.code.take (token_start lexer))
          ∧ token.column
              = if ((lexer.code.drop (token_start lexer)).tail.dropWhile in_string).headD NUL
                    = '"'
                then column_of (lexer.code.take (token_start lexer))
                else column_of (lexer.code.take (token_start lexer)) - 1) := by
  have hat : LexAt lexer (lexer.code.drop lexer.pos) := ⟨rfl, hp⟩
  obtain ⟨h1, h2⟩ := lexer_get_next_token_spec hat
  have hgap : lexer.code.drop lexer.pos
      = token_gap (lexer.code.drop lexer.pos) ++ after_gap (lexer.code.drop lexer.pos) :=
    (token_gap_append _).symm
  obtain ⟨ts, ds⟩ := tracks_advance_over (token_gap (lexer.code.drop lexer.pos)) lexer
    (after_gap (lexer.code.drop lexer.pos)) hgap ht
  have hspos : (advance_over (token_gap (lexer.code.drop lexer.pos)) lexer).pos
      = token_start lexer := by
    rw [advance_over_pos]; rfl
  have hscode : (advance_over (token_gap (lexer.code.drop lexer.pos)) lexer).code
      = lexer.code := advance_over_code _ _
  rw [hspos, hscode] at ds
  generalize hstart : advance_over (token_gap (lexer.code.drop lexer.pos)) lexer = start
    at h1 h2 ts hspos hscode
  rw [← ds] at h1 h2
  have hlex := token_at_lexer (lexer.code.drop (token_start lexer)) start
  have hval := token_at_value (lexer.code.drop (token_start lexer)) start
  have hpos := token_at_position (lexer.code.drop (token_start lexer)) start
  rw [h] at h1
  simp only [Option.some.injEq] at h1
  rw [← h1] at h2 hlex hval hpos
  simp only at h2 hlex hval hpos
  have htext : start.code.drop start.pos
      = token_text (lexer.code.drop (token_start lexer))
        ++ after_token (lexer.code.drop (token_start lexer)) := by
    rw [hscode, hspos]; exact (token_text_append _).symm
  obtain ⟨tn, _⟩ := tracks_advance_over _ start _ htext ts
  rw [← hlex] at tn
  have hsl : start.line = line_of (lexer.code.take (token_start lexer)) := by
    have := ts.1
    rw [hscode, hspos] at this
    exact this
  have hsc : start.column = column_of (lexer.code.take (token_start lexer)) := by
    have := ts.2
    rw [hscode, hspos] at this
    exact this
  rw [hsl, hsc] at hpos
  refine ⟨tn, h2.pos_le, ?_, ?_, hval, hpos.1, hpos.2.1, hpos.2.2⟩
  · rw [hlex, advance_over_code, hscode]
  · rw [hlex, advance_over_pos, hspos]

theorem lexer_calls_invariant :
    ∀ (n : Nat) (lexer last : Lexer) (tokens : List Token),
      lexer.pos ≤ strlen lexer.code → tracks_position lexer →
      lexer_calls n lexer = some (tokens, last) →
      tracks_position last ∧ last.pos ≤ strlen last.code ∧ last.code = lexer.code := by
  intro n
  induction n with
  | zero =>
    intro lexer last tokens hp ht h
    simp only [lexer_calls, Option.some.injEq, Prod.mk.injEq] at h
    rw [← h.2]
    exact ⟨ht, hp, rfl⟩
  | succ n ih =>
    intro lexer last tokens hp ht h
    rw [lexer_calls] at h
    cases hc : lexer_get_next_token lexer with
    | none => rw [hc] at h; simp at h
    | some r =>
      obtain ⟨token, next⟩ := r
      rw [hc] at h
      simp only at h
      obtain ⟨tn, pn, cn, _⟩ := lexer_get_next_token_position lexer next token hp ht hc
      cases hr : lexer_calls n next with
      | none => rw [hr] at h; simp at h
      | some r2 =>
        obtain ⟨toks, l2⟩ := r2
        rw [hr] at h
        simp only [Option.some.injEq, Prod.mk.injEq] at h
        obtain ⟨t3, p3, c3⟩ := ih next l2 toks pn tn hr
        rw [← h.2]
        exact ⟨t3, p3, by rw [c3, cn]⟩

/-! ## The claims -/

/-- Claim C1: multiplicative operators bind tighter than additive ones. When the parser
stands before the tokens of `a op1 b op2 c`, with `a`, `b`, `c` factors, `op1` one of
`+ -`, `op2` one of `* /` and no operator after `c`, `parse_expression` with enough fuel
returns `BinOp(a, op1, BinOp(b, op2, c))`; the print statement of `2 + 3 * 4` is lexed
and parsed to that shape and prints the line `14`. -/
theorem multiplicative_binds_tighter (na nb nc : Nat) (p0 p1 q1 p2 q2 p3 : Parser)
    (a b c : ASTNode)
    (ha : parse_factor na p0 = .ok (a, p1))
    (hop1 : is_additive p1.current_token.type)
    (hadv1 : parser_advance p1 = .ok q1)
    (hb : parse_factor nb q1 = .ok (b, p2))
    (hop2 : is_multiplicative p2.current_token.type)
    (hadv2 : parser_advance p2 = .ok q2)
    (hc : parse_factor nc q2 = .ok (c, p3))
    (hend : ¬ is_additive p3.current_token.type ∧ ¬ is_multiplicative p3.current_token.type) :
    (∀ fuel, max na (max nb nc) + 4 ≤ fuel →
      parse_expression fuel p0
        = .ok (NODE_BINOP a p1.current_token.type (NODE_BINOP b p2.current_token.type c), p3))
    ∧ parse_source "darshaya(2 + 3 * 4)".toList
        = .ok [NODE_PRINT (NODE_BINOP (NODE_NUMBER 2) TOKEN_PLUS
                (NODE_BINOP (NODE_NUMBER 3) TOKEN_TIMES (NODE_NUMBER 4)))]
    ∧ (∀ process : Process,
        execute_statements
          [NODE_PRINT (NODE_BINOP (NODE_NUMBER 2) TOKEN_PLUS
            (NODE_BINOP (NODE_NUMBER 3) TOKEN_TIMES (NODE_NUMBER 4)))] process
        = ({ process with stdout := process.stdout ++ "14\n".toList }, none)) := by
  refine ⟨?_, by decide!, ?_⟩
  · intro fuel hfuel
    have hpos := parse_factor_fuel_pos nc q2 _ hc
    obtain ⟨M, rfl, hna, hnb, hnc⟩ :
        ∃ M, fuel = M + 5 ∧ na ≤ M + 1 ∧ nb ≤ M + 1 ∧ nc ≤ M + 1 :=
      ⟨fuel - 5, by omega, by omega, by omega, by omega⟩
    have hT1 : parse_term (M + 4) p0 = .ok (a, p1) :=
      parse_term_of_factor (M + 2) p0 p1 a (parse_factor_mono (by omega) _ _ ha)
        (not_multiplicative_of_additive hop1)
    have hT2 : parse_term (M + 3) q1 = .ok (NODE_BINOP b p2.current_token.type c, p3) := by
      rw [parse_term_eq (M + 2) q1 p2 b (parse_factor_mono (by omega) _ _ hb),
        parse_term_loop_step (M + 1) b c p2 q2 p3 hop2 hadv2 (parse_factor_mono hnc _ _ hc)]
      exact parse_term_loop_exit _ _ _ hend.2
    rw [parse_expression_eq (M + 4) p0 p1 a hT1,
      parse_expression_loop_step (M + 3) a _ p1 q1 p3 hop1 hadv1 hT2]
    exact parse_expression_loop_exit _ _ _ hend.1
  · intro process
    have hv : evaluate_expression process.symbol_table
        (NODE_BINOP (NODE_NUMBER 2) TOKEN_PLUS
          (NODE_BINOP (NODE_NUMBER 3) TOKEN_TIMES (NODE_NUMBER 4))) = .ok 14 := by
      simp only [evaluate_expression]; decide
    have h14 : format_d 14 = "14".toList := by decide!
    rw [execute_statements_single_ok _ _ _
      (execute_print_value process _ 14 (fun s h => by cases h) hv), h14]
    simp

theorem multiplicative_binds_tighter_witness :
    parse_expression 5 (parser_of_text "7 - 6 / 2".toList)
      = .ok (NODE_BINOP (NODE_NUMBER 7) TOKEN_MINUS
              (NODE_BINOP (NODE_NUMBER 6) TOKEN_DIVIDE (NODE_NUMBER 2)),
             after_factor (after_advance (after_factor (after_advance
               (after_factor (parser_of_text "7 - 6 / 2".toList)))))) :=
  (multiplicative_binds_tighter 1 1 1
    (parser_of_text "7 - 6 / 2".toList)
    (after_factor (parser_of_text "7 - 6 / 2".toList))
    (after_advance (after_factor (parser_of_text "7 - 6 / 2".toList)))
    (after_factor (after_advance (after_factor (parser_of_text "7 - 6 / 2".toList))))
    (after_advance (after_factor (after_advance (after_factor
      (parser_of_text "7 - 6 / 2".toList)))))
    (after_factor (after_advance (after_factor (after_advance (after_factor
      (parser_of_text "7 - 6 / 2".toList))))))
    (NODE_NUMBER 7) (NODE_NUMBER 6) (NODE_NUMBER 2)
    (by decide!) (by decide!) (by decide!) (by decide!) (by decide!) (by decide!) (by decide!)
    (by decide!)).1 5 (by decide)

/-- Claim C2: operators of equal precedence are left-associative. When the parser stands
before `f0 op1 f1 ... opn fn` with factors `f_i`, all operators additive and no operator
after `fn`, `parse_expression` with enough fuel returns the left fold of the chain; with
all operators multiplicative and no multiplicative operator after `fn`, `parse_term` does.
The print statements of `10 - 4 - 3` and `8 / 4 / 2` parse to left folds, which evaluate
to 3 and 1. -/
theorem equal_precedence_left_associative :
    (∀ (n0 : Nat) (p0 p1 p_end : Parser) (f0 : ASTNode) (steps : List (TokenType × ASTNode)),
      parse_factor n0 p0 = .ok (f0, p1) →
      OperandChain is_additive p1 steps p_end →
      ¬ is_additive p_end.current_token.type →
      ¬ is_multiplicative p_end.current_token.type →
      ∃ N, ∀ fuel, N ≤ fuel → parse_expression fuel p0 = .ok (left_fold f0 steps, p_end))
    ∧ (∀ (n0 : Nat) (p0 p1 p_end : Parser) (f0 : ASTNode)
        (steps : List (TokenType × ASTNode)),
      parse_factor n0 p0 = .ok (f0, p1) →
      OperandChain is_multiplicative p1 steps p_end →
      ¬ is_multiplicative p_end.current_token.type →
      ∃ N, ∀ fuel, N ≤ fuel → parse_term fuel p0 = .ok (left_fold f0 steps, p_end))
    ∧ parse_source "darshaya(10 - 4 - 3)".toList
        = .ok [NODE_PRINT (NODE_BINOP (NODE_BINOP (NODE_NUMBER 10) TOKEN_MINUS (NODE_NUMBER 4))
                TOKEN_MINUS (NODE_NUMBER 3))]
    ∧ (∀ symbol_table, evaluate_expression symbol_table
          (NODE_BINOP (NODE_BINOP (NODE_NUMBER 10) TOKEN_MINUS (NODE_NUMBER 4))
            TOKEN_MINUS (NODE_NUMBER 3)) = .ok 3)
    ∧ parse_source "darshaya(8 / 4 / 2)".toList
        = .ok [NODE_PRINT (NODE_BINOP (NODE_BINOP (NODE_NUMBER 8) TOKEN_DIVIDE (NODE_NUMBER 4))
                TOKEN_DIVIDE (NODE_NUMBER 2))]
    ∧ (∀ symbol_table, evaluate_expression symbol_table
          (NODE_BINOP (NODE_BINOP (NODE_NUMBER 8) TOKEN_DIVIDE (NODE_NUMBER 4))
            TOKEN_DIVIDE (NODE_NUMBER 2)) = .ok 1) := by
  refine ⟨?_, ?_, by decide!, ?_, by decide!, ?_⟩
  · intro n0 p0 p1 p_end f0 steps hf hchain hend1 hend2
    obtain ⟨N, hN⟩ := parse_expression_loop_chain p1 p_end steps hchain ⟨hend1, hend2⟩ f0
    refine ⟨max N (n0 + 2) + 1, fun fuel hfuel => ?_⟩
    obtain ⟨k, rfl, hk1, hk2⟩ : ∃ k, fuel = k + 1 ∧ N ≤ k ∧ n0 + 2 ≤ k :=
      ⟨fuel - 1, by omega, by omega, by omega⟩
    have hT : parse_term k p0 = .ok (f0, p1) :=
      parse_term_mono hk2 _ _ (parse_term_of_factor n0 p0 p1 f0 hf
        (operand_chain_head_not_multiplicative p1 p_end steps hchain hend2))
    rw [parse_expression_eq k p0 p1 f0 hT]
    exact hN k hk1
  · intro n0 p0 p1 p_end f0 steps hf hchain hend
    obtain ⟨N, hN⟩ := parse_term_loop_chain p1 p_end steps hchain hend f0
    refine ⟨max N n0 + 1, fun fuel hfuel => ?_⟩
    obtain ⟨k, rfl, hk1, hk2⟩ : ∃ k, fuel = k + 1 ∧ N ≤ k ∧ n0 ≤ k :=
      ⟨fuel - 1, by omega, by omega, by omega⟩
    rw [parse_term_eq k p0 p1 f0 (parse_factor_mono hk2 _ _ hf)]
    exact hN k hk1
  · intro symbol_table
    simp only [evaluate_expression]; decide
  · intro symbol_table
    simp only [evaluate_expression]; decide

theorem equal_precedence_left_associative_witness :
    ∃ N, ∀ fuel, N ≤ fuel →
      parse_expression fuel (parser_of_text "10 - 4 + 3".toList)
        = .ok (NODE_BINOP (NODE_BINOP (NODE_NUMBER 10) TOKEN_MINUS (NODE_NUMBER 4))
                TOKEN_PLUS (NODE_NUMBER 3),
               after_factor (after_advance (after_factor (after_advance
                 (after_factor (parser_of_text "10 - 4 + 3".toList)))))) :=
  equal_precedence_left_associative.1 1
    (parser_of_text "10 - 4 + 3".toList)
    (after_factor (parser_of_text "10 - 4 + 3".toList))
    (after_factor (after_advance (after_factor (after_advance
      (after_factor (parser_of_text "10 - 4 + 3".toList))))))
    (NODE_NUMBER 10) [(TOKEN_MINUS, NODE_NUMBER 4), (TOKEN_PLUS, NODE_NUMBER 3)]
    (by decide!)
    (OperandChain.cons 1
      (after_factor (parser_of_text "10 - 4 + 3".toList))
      (after_advance (after_factor (parser_of_text "10 - 4 + 3".toList)))
      (after_factor (after_advance (after_factor (parser_of_text "10 - 4 + 3".toList))))
      _ (NODE_NUMBER 4) [(TOKEN_PLUS, NODE_NUMBER 3)]
      (by decide!) (by decide!) (by decide!)
      (OperandChain.cons 1
        (after_factor (after_advance (after_factor (parser_of_text "10 - 4 + 3".toList))))
        (after_advance (after_factor (after_advance (after_factor
          (parser_of_text "10 - 4 + 3".toList)))))
        (after_factor (after_advance (after_factor (after_advance (after_factor
          (parser_of_text "10 - 4 + 3".toList))))))
        _ (NODE_NUMBER 3) []
        (by decide!) (by decide!) (by decide!)
        (OperandChain.nil _)))
    (by decide!) (by decide!)

/-- Claim C3: parentheses override precedence. When the parser stands before the tokens
of `( a op1 b ) op2 c`, with `a`, `b`, `c` factors, `op1` one of `+ -`, `op2` one of `* /`
and no operator after `c`, `parse_expression` with enough fuel returns
`BinOp(BinOp(a, op1, b), op2, c)`; the print statement of `(2 + 3) * 4` is lexed and
parsed to that shape and prints the line `20`. -/
theorem parentheses_override_precedence (na nb nc : Nat)
    (p0 q0 p1 q1 p2 r2 q2 p3 : Parser) (a b c : ASTNode)
    (hopen : p0.current_token.type = TOKEN_LPAREN)
    (hadv0 : parser_advance p0 = .ok q0)
    (ha : parse_factor na q0 = .ok (a, p1))
    (hop1 : is_additive p1.current_token.type)
    (hadv1 : parser_advance p1 = .ok q1)
    (hb : parse_factor nb q1 = .ok (b, p2))
    (hclose : p2.current_token.type = TOKEN_RPAREN)
    (hadvc : parser_advance p2 = .ok r2)
    (hop2 : is_multiplicative r2.current_token.type)
    (hadv2 : parser_advance r2 = .ok q2)
    (hc : parse_factor nc q2 = .ok (c, p3))
    (hend : ¬ is_additive p3.current_token.type ∧ ¬ is_multiplicative p3.current_token.type) :
    (∀ fuel, max na (max nb nc) + 7 ≤ fuel →
      parse_expression fuel p0
        = .ok (NODE_BINOP (NODE_BINOP a p1.current_token.type b) r2.current_token.type c, p3))
    ∧ parse_source "darshaya((2 + 3) * 4)".toList
        = .ok [NODE_PRINT (NODE_BINOP
                (NODE_BINOP (NODE_NUMBER 2) TOKEN_PLUS (NODE_NUMBER 3))
                TOKEN_TIMES (NODE_NUMBER 4))]
    ∧ (∀ process : Process,
        execute_statements
          [NODE_PRINT (NODE_BINOP
            (NODE_BINOP (NODE_NUMBER 2) TOKEN_PLUS (NODE_NUMBER 3))
            TOKEN_TIMES (NODE_NUMBER 4))] process
        = ({ process with stdout := process.stdout ++ "20\n".toList }, none)) := by
  refine ⟨?_, by decide!, ?_⟩
  · intro fuel hfuel
    obtain ⟨M, rfl, hna, hnb, hnc⟩ :
        ∃ M, fuel = M + 7 ∧ na ≤ M ∧ nb ≤ M ∧ nc ≤ M :=
      ⟨fuel - 7, by omega, by omega, by omega, by omega⟩
    have hclose_na : ¬ is_additive p2.current_token.type := by rw [hclose]; decide
    have hclose_nm : ¬ is_multiplicative p2.current_token.type := by rw [hclose]; decide
    -- the parenthesised expression
    have hTa : parse_term (M + 2) q0 = .ok (a, p1) :=
      parse_term_of_factor M q0 p1 a (parse_factor_mono hna _ _ ha)
        (not_multiplicative_of_additive hop1)
    have hTb : parse_term (M + 2) q1 = .ok (b, p2) :=
      parse_term_of_factor M q1 p2 b (parse_factor_mono hnb _ _ hb) hclose_nm
    have hE : parse_expression (M + 4) q0 = .ok (NODE_BINOP a p1.current_token.type b, p2) := by
      rw [parse_expression_eq (M + 3) q0 p1 a (parse_term_mono (by omega) _ _ hTa),
        parse_expression_loop_step (M + 2) a b p1 q1 p2 hop1 hadv1 hTb]
      exact parse_expression_loop_exit _ _ _ hclose_na
    -- the factor `( ... )`
    have hF : parse_factor (M + 5) p0 = .ok (NODE_BINOP a p1.current_token.type b, r2) := by
      rw [parse_factor]
      simp [hopen, hadv0, hE, parser_expect, hclose, hadvc]
    have hT : parse_term (M + 6) p0
        = .ok (NODE_BINOP (NODE_BINOP a p1.current_token.type b) r2.current_token.type c, p3) := by
      rw [parse_term_eq (M + 5) p0 r2 _ hF,
        parse_term_loop_step (M + 4) _ c r2 q2 p3 hop2 hadv2
          (parse_factor_mono (by omega) _ _ hc)]
      exact parse_term_loop_exit _ _ _ hend.2
    rw [parse_expression_eq (M + 6) p0 p3 _ hT]
    exact parse_expression_loop_exit _ _ _ hend.1
  · intro process
    have hv : evaluate_expression process.symbol_table
        (NODE_BINOP (NODE_BINOP (NODE_NUMBER 2) TOKEN_PLUS (NODE_NUMBER 3))
          TOKEN_TIMES (NODE_NUMBER 4)) = .ok 20 := by
      simp only [evaluate_expression]; decide
    have h20 : format_d 20 = "20".toList := by decide!
    rw [execute_statements_single_ok _ _ _
      (execute_print_value process _ 20 (fun s h => by cases h) hv), h20]
    simp

theorem parentheses_override_precedence_witness :
    parse_expression 8 (parser_of_text "(7 - 1) / 2".toList)
      = .ok (NODE_BINOP (NODE_BINOP (NODE_NUMBER 7) TOKEN_MINUS (NODE_NUMBER 1))
              TOKEN_DIVIDE (NODE_NUMBER 2),
             after_factor (after_advance (after_advance (after_factor (after_advance
               (after_factor (after_advance (parser_of_text "(7 - 1) / 2".toList)))))))) :=
  (parentheses_override_precedence 1 1 1
    (parser_of_text "(7 - 1) / 2".toList)
    (after_advance (parser_of_text "(7 - 1) / 2".toList))
    (after_factor (after_advance (parser_of_text "(7 - 1) / 2".toList)))
    (after_advance (after_factor (after_advance (parser_of_text "(7 - 1) / 2".toList))))
    (after_factor (after_advance (after_factor (after_advance
      (parser_of_text "(7 - 1) / 2".toList)))))
    (after_advance (after_factor (after_advance (after_factor (after_advance
      (parser_of_text "(7 - 1) / 2".toList))))))
    (after_advance (after_advance (after_factor (after_advance (after_factor (after_advance
      (parser_of_text "(7 - 1) / 2".toList)))))))
    (after_factor (after_advance (after_advance (after_factor (after_advance
      (after_factor (after_advance (parser_of_text "(7 - 1) / 2".toList))))))))
    (NODE_NUMBER 7) (NODE_NUMBER 1) (NODE_NUMBER 2)
    (by decide!) (by decide!) (by decide!) (by decide!) (by decide!) (by decide!)
    (by decide!) (by decide!) (by decide!) (by decide!) (by decide!) (by decide!)).1 8
    (by decide)

/-- Claim C4: a divide node whose operands both evaluate and whose right operand is 0
fails with the division-by-zero error in every symbol table; a print statement of
`a / 0` for a number literal `a` stops with that error and leaves the process state, its
standard output included, as it was; for every integer literal the text
`darshaya(` literal ` / 0)` is lexed and parsed to such a print statement. -/
theorem division_by_zero_fails (symbol_table : List Symbol) (left right : ASTNode)
    (left_val : Int)
    (hl : evaluate_expression symbol_table left = .ok left_val)
    (hr : evaluate_expression symbol_table right = .ok 0) :
    evaluate_expression symbol_table (NODE_BINOP left TOKEN_DIVIDE right) = .error .DivisionByZero
    ∧ (∀ (a : Int) (process : Process),
        execute_statement (NODE_PRINT (NODE_BINOP (NODE_NUMBER a) TOKEN_DIVIDE (NODE_NUMBER 0)))
            process = .error .DivisionByZero
        ∧ execute_statements
            [NODE_PRINT (NODE_BINOP (NODE_NUMBER a) TOKEN_DIVIDE (NODE_NUMBER 0))] process
          = (process, some .DivisionByZero))
    ∧ (∀ ds : List Char, ds ≠ [] → (∀ c ∈ ds, isdigit c = true) →
        parse_source ("darshaya(".toList ++ ds ++ " / 0)".toList)
          = .ok [NODE_PRINT
                  (NODE_BINOP (NODE_NUMBER (atoi ds)) TOKEN_DIVIDE (NODE_NUMBER 0))])
    ∧ parse_source "darshaya(7 / 0)".toList
        = .ok [NODE_PRINT (NODE_BINOP (NODE_NUMBER 7) TOKEN_DIVIDE (NODE_NUMBER 0))] := by
  refine ⟨by simp [evaluate_expression, hl, hr], ?_,
    fun ds hne hds => parse_source_print_literal_over_zero ds hne hds, by decide!⟩
  intro a process
  simp [execute_statements, execute_statement, evaluate_expression]

theorem division_by_zero_fails_witness :
    evaluate_expression [⟨"x".toList, 0⟩]
        (NODE_BINOP (NODE_NUMBER 7) TOKEN_DIVIDE (NODE_VAR "x".toList)) = .error .DivisionByZero
    ∧ parse_source ("darshaya(".toList ++ "12".toList ++ " / 0)".toList)
        = .ok [NODE_PRINT
                (NODE_BINOP (NODE_NUMBER (atoi "12".toList)) TOKEN_DIVIDE (NODE_NUMBER 0))] :=
  ⟨(division_by_zero_fails [⟨"x".toList, 0⟩] (NODE_NUMBER 7) (NODE_VAR "x".toList) 7
      (by decide) (by decide)).1,
   (division_by_zero_fails [⟨"x".toList, 0⟩] (NODE_NUMBER 7) (NODE_VAR "x".toList) 7
      (by decide) (by decide)).2.2.1 "12".toList (by decide) (by decide)⟩

/-- Claim C5: when the operands evaluate to `a` and `b`, a divide node with `b ≠ 0` and
the quotient in the `int` range evaluates to the quotient `q` truncated toward zero
(`|q * b| ≤ |a|` and `|a - q * b| < |b|`), and
`+`, `-`, `*` nodes evaluate to the exact sum, difference and product when that is in the
`int` range; `7 / 2` is 3 and `(0 - 7) / 2` is -3. -/
theorem arithmetic_exact_in_range (symbol_table : List Symbol) (left right : ASTNode)
    (a b : Int)
    (hl : evaluate_expression symbol_table left = .ok a)
    (hr : evaluate_expression symbol_table right = .ok b) :
    (b ≠ 0 → INT_MIN ≤ Int.tdiv a b → Int.tdiv a b ≤ INT_MAX →
        evaluate_expression symbol_table (NODE_BINOP left TOKEN_DIVIDE right)
          = .ok (Int.tdiv a b)
        ∧ (Int.tdiv a b * b).natAbs ≤ a.natAbs
        ∧ (a - Int.tdiv a b * b).natAbs < b.natAbs)
    ∧ (INT_MIN ≤ a + b → a + b ≤ INT_MAX →
        evaluate_expression symbol_table (NODE_BINOP left TOKEN_PLUS right) = .ok (a + b))
    ∧ (INT_MIN ≤ a - b → a - b ≤ INT_MAX →
        evaluate_expression symbol_table (NODE_BINOP left TOKEN_MINUS right) = .ok (a - b))
    ∧ (INT_MIN ≤ a * b → a * b ≤ INT_MAX →
        evaluate_expression symbol_table (NODE_BINOP left TOKEN_TIMES right) = .ok (a * b))
    ∧ evaluate_expression symbol_table
        (NODE_BINOP (NODE_NUMBER 7) TOKEN_DIVIDE (NODE_NUMBER 2)) = .ok 3
    ∧ evaluate_expression symbol_table
        (NODE_BINOP (NODE_BINOP (NODE_NUMBER 0) TOKEN_MINUS (NODE_NUMBER 7)) TOKEN_DIVIDE
          (NODE_NUMBER 2)) = .ok (-3) := by
  refine ⟨?_, ?_, ?_, ?_, ?_, ?_⟩
  · intro hb h1 h2
    refine ⟨?_, tdiv_truncates a b hb⟩
    simp [evaluate_expression, hl, hr, hb, wrap32_of_range _ h1 h2]
  · intro h1 h2
    simp [evaluate_expression, hl, hr, wrap32_of_range _ h1 h2]
  · intro h1 h2
    simp [evaluate_expression, hl, hr, wrap32_of_range _ h1 h2]
  · intro h1 h2
    simp [evaluate_expression, hl, hr, wrap32_of_range _ h1 h2]
  · simp [evaluate_expression]; decide
  · simp [evaluate_expression]; decide

theorem arithmetic_exact_in_range_witness :
    evaluate_expression [⟨"x".toList, -7⟩]
        (NODE_BINOP (NODE_VAR "x".toList) TOKEN_DIVIDE (NODE_NUMBER 2)) = .ok (Int.tdiv (-7) 2)
    ∧ evaluate_expression [⟨"x".toList, -7⟩]
        (NODE_BINOP (NODE_VAR "x".toList) TOKEN_TIMES (NODE_NUMBER 2)) = .ok (-7 * 2) :=
  ⟨((arithmetic_exact_in_range [⟨"x".toList, -7⟩] (NODE_VAR "x".toList) (NODE_NUMBER 2) (-7) 2
      (by decide) (by decide)).1 (by decide) (by decide) (by decide)).1,
   (arithmetic_exact_in_range [⟨"x".toList, -7⟩] (NODE_VAR "x".toList) (NODE_NUMBER 2) (-7) 2
      (by decide) (by decide)).2.2.2.1 (by decide) (by decide)⟩

/-- Claim C6: for every non-empty run of decimal digits whose value `n` is in the `int`
range, the one-statement program `darshaya(` digits `)` is lexed and parsed to the print
statement of the number literal `n`, and executing it appends to standard output the
decimal rendering of `n` followed by a newline, and nothing else. -/
theorem integer_literal_prints_its_value (ds : List Char) (hne : ds ≠ [])
    (hds : ∀ c ∈ ds, isdigit c = true) (hrange : (decimal_value ds : Int) ≤ INT_MAX)
    (process : Process) :
    parse_source ("darshaya(".toList ++ ds ++ [')'])
      = .ok [NODE_PRINT (NODE_NUMBER (decimal_value ds))]
    ∧ execute_statements [NODE_PRINT (NODE_NUMBER (decimal_value ds))] process
      = ({ process with
            stdout := process.stdout ++ Nat.toDigits 10 (decimal_value ds) ++ ['\n'] }, none) := by
  constructor
  · have hparse := parse_source_print_token ds _ _
      (fun h => next_token_number ds [')'] h hne hds (by decide)) (Or.inl rfl)
    rw [hparse]
    simp [factor_node, atoi_of_digits ds hne hds hrange]
  · rw [execute_statements_single_ok _ _ _
      (execute_print_value process (NODE_NUMBER (decimal_value ds)) (decimal_value ds)
        (fun s h => by cases h) rfl),
      format_d_nonneg]

theorem integer_literal_prints_its_value_witness :
    parse_source ("darshaya(".toList ++ "0042".toList ++ [')'])
      = .ok [NODE_PRINT (NODE_NUMBER (decimal_value "0042".toList))]
    ∧ execute_statements [NODE_PRINT (NODE_NUMBER (decimal_value "0042".toList))]
        { symbol_table := [], stdout := "7\n".toList }
      = ({ ({ symbol_table := [], stdout := "7\n".toList } : Process) with
            stdout := "7\n".toList ++ Nat.toDigits 10 (decimal_value "0042".toList) ++ ['\n'] },
         none) :=
  integer_literal_prints_its_value "0042".toList (by decide) (by decide) (by decide)
    { symbol_table := [], stdout := "7\n".toList }

/-- Claim C7, as the code has it: for every string literal whose contents `s` hold no `"`
(and, the text being a C string, no NUL), the program `darshaya("s")` is lexed and parsed
to the print statement of a StringLiteral whose text is the lexeme `"s"`, quotes
included, and executing it appends exactly `"s"` followed by a newline to standard
output: the quote characters are printed, not stripped. -/
theorem string_literal_prints_with_quotes (s : List Char)
    (hs : ∀ c ∈ s, c ≠ '"' ∧ c ≠ NUL) (process : Process) :
    parse_source ("darshaya(".toList ++ ('"' :: (s ++ ['"'])) ++ [')'])
      = .ok [NODE_PRINT (NODE_STRING ('"' :: (s ++ ['"'])))]
    ∧ execute_statements [NODE_PRINT (NODE_STRING ('"' :: (s ++ ['"'])))] process
      = ({ process with stdout := process.stdout ++ ('"' :: (s ++ ['"'])) ++ ['\n'] }, none) := by
  constructor
  · have hparse := parse_source_print_token ('"' :: (s ++ ['"'])) _ _
      (fun h => next_token_string s [')'] (by simpa using h) hs) (Or.inr (Or.inl rfl))
    rw [hparse]
    simp [factor_node]
  · simp [execute_statements, execute_statement]

theorem string_literal_prints_with_quotes_witness :
    parse_source ("darshaya(".toList ++ ('"' :: ("a\\b c".toList ++ ['"'])) ++ [')'])
      = .ok [NODE_PRINT (NODE_STRING ('"' :: ("a\\b c".toList ++ ['"'])))]
    ∧ execute_statements [NODE_PRINT (NODE_STRING ('"' :: ("a\\b c".toList ++ ['"'])))]
        { symbol_table := [], stdout := [] }
      = ({ ({ symbol_table := [], stdout := [] } : Process) with
            stdout := [] ++ ('"' :: ("a\\b c".toList ++ ['"'])) ++ ['\n'] }, none) :=
  string_literal_prints_with_quotes "a\\b c".toList (by decide)
    { symbol_table := [], stdout := [] }

/-- Claim C7 as stated fails at the contents `hello`: the text `darshaya("hello")` is
parsed to the print statement of the StringLiteral `"hello"`, and executing it from the
empty process state writes `"hello"` with both quotes and a newline, which is not the
line `hello` of the claim. -/
theorem string_literal_quotes_not_stripped :
    parse_source "darshaya(\"hello\")".toList
      = .ok [NODE_PRINT (NODE_STRING "\"hello\"".toList)]
    ∧ execute_statements [NODE_PRINT (NODE_STRING "\"hello\"".toList)]
        { symbol_table := [], stdout := [] }
      = ({ symbol_table := [], stdout := "\"hello\"\n".toList }, none)
    ∧ (execute_statements [NODE_PRINT (NODE_STRING "\"hello\"".toList)]
        { symbol_table := [], stdout := [] }).1.stdout ≠ "hello\n".toList := by
  decide!

/-- Claim C8: string literals have no escape processing. At a position of the text that
holds `"`, `lexer_read_string` returns a String token whose lexeme is `"`, the contents,
`"`, where the contents are the characters after the opening quote up to, not including,
the next `"` or the end of the input, whatever precedes that `"`; the lexer stops after
the closing quote, or at the end of the input when the literal is unterminated. On the
text `"say \"hi\""` the first token is the String `"say \"` and the next one the
identifier `hi`. -/
theorem string_literal_no_escapes (lexer : Lexer) (hpos : lexer.pos < strlen lexer.code)
    (hq : charAt lexer.code lexer.pos = '"') :
    (∃ (contents : List Char) (token : Token) (next : Lexer),
      lexer_read_string lexer = some (token, next)
      ∧ token.type = TOKEN_STRING
      ∧ token.value = some ('"' :: (contents ++ ['"']))
      ∧ contents = substr lexer.code (lexer.pos + 1) contents.length
      ∧ (∀ c ∈ contents, c ≠ '"')
      ∧ (charAt lexer.code (lexer.pos + 1 + contents.length) = '"'
          ∨ lexer.pos + 1 + contents.length = strlen lexer.code)
      ∧ next.code = lexer.code
      ∧ next.pos = lexer.pos + 1 + contents.length
          + (if charAt lexer.code (lexer.pos + 1 + contents.length) = '"' then 1 else 0))
    ∧ lexer_get_next_token (lexer_init "\"say \\\"hi\\\"\"".toList)
        = some ({ type := TOKEN_STRING, value := some "\"say \\\"".toList, line := 1,
                  column := 1 },
                { code := "\"say \\\"hi\\\"\"".toList, pos := 7, line := 1, column := 8 })
    ∧ lexer_get_next_token
          { code := "\"say \\\"hi\\\"\"".toList, pos := 7, line := 1, column := 8 }
        = some ({ type := TOKEN_IDENTIFIER, value := some "hi".toList, line := 1,
                  column := 8 },
                { code := "\"say \\\"hi\\\"\"".toList, pos := 9, line := 1, column := 10 })
    ∧ lexer_read_string (lexer_init "\"abc".toList)
        = some ({ type := TOKEN_STRING, value := some "\"abc\"".toList, line := 1,
                  column := 0 },
                { code := "\"abc".toList, pos := 4, line := 1, column := 5 }) := by
  refine ⟨?_, by decide!, by decide!, by decide!⟩
  have hle : lexer.pos ≤ strlen lexer.code := Nat.le_of_lt hpos
  have hdrop : lexer.code.drop lexer.pos = '"' :: lexer.code.drop (lexer.pos + 1) := by
    have hlen : lexer.pos < lexer.code.length :=
      Nat.lt_of_lt_of_le hpos (strlen_le_length _)
    rw [List.drop_eq_getElem_cons hlen]
    congr 1
    have : charAt lexer.code lexer.pos = lexer.code[lexer.pos] := by
      unfold charAt
      rw [List.getD_eq_getElem _ _ hlen]
    rw [← this, hq]
  have hat : LexAt lexer ('"' :: lexer.code.drop (lexer.pos + 1)) := ⟨hdrop, hle⟩
  obtain ⟨hspec, hnext⟩ := lexer_read_string_spec hat
  obtain ⟨_, hscan⟩ := lexer_read_string_loop_spec (lexAt_step hat (by decide)).2
  generalize hrest : lexer.code.drop (lexer.pos + 1) = rest at hspec hnext hscan
  have hscan_pos : (advance_over (rest.takeWhile in_string) (step_char '"' lexer)).pos
      = lexer.pos + 1 + (rest.takeWhile in_string).length := by
    rw [advance_over_pos, step_char_pos]
  have hscan_code : (advance_over (rest.takeWhile in_string) (step_char '"' lexer)).code
      = lexer.code := by
    rw [advance_over_code, step_char_code]
  have hafter : charAt lexer.code (lexer.pos + 1 + (rest.takeWhile in_string).length)
      = (rest.dropWhile in_string).headD NUL := by
    rw [← hscan_pos, ← hscan_code]
    exact hscan.charAt_eq
  refine ⟨rest.takeWhile in_string, _, _, hspec, rfl, rfl, ?_, ?_, ?_, ?_, ?_⟩
  · unfold substr
    rw [hrest, take_length_takeWhile]
  · intro c hc
    have := List.mem_takeWhile_imp hc
    unfold in_string at this
    simp only [decide_eq_true_eq] at this
    exact this.1
  · rw [hafter]
    by_cases hq2 : (rest.dropWhile in_string).headD NUL = '"'
    · exact Or.inl hq2
    · right
      have hnul := in_string_false_cases _ (headD_dropWhile in_string in_string_NUL rest) hq2
      have hge : ¬ (advance_over (rest.takeWhile in_string) (step_char '"' lexer)).pos
          < strlen (advance_over (rest.takeWhile in_string) (step_char '"' lexer)).code := by
        rw [hscan.pos_lt_iff]; exact not_not.mpr hnul
      have hle2 := hscan.pos_le
      rw [hscan_pos, hscan_code] at hge hle2
      omega
  · unfold close_string
    split
    · rw [step_char_code, hscan_code]
    · exact hscan_code
  · rw [hafter]
    unfold close_string
    split
    · rw [step_char_pos, hscan_pos]
    · rw [hscan_pos]; rfl

theorem string_literal_no_escapes_witness :
    ∃ (contents : List Char) (token : Token) (next : Lexer),
      lexer_read_string { code := "x = \"a\\\"b\"".toList, pos := 4, line := 1, column := 5 }
        = some (token, next)
      ∧ token.type = TOKEN_STRING
      ∧ token.value = some ('"' :: (contents ++ ['"']))
      ∧ contents = substr "x = \"a\\\"b\"".toList (4 + 1) contents.length
      ∧ (∀ c ∈ contents, c ≠ '"')
      ∧ (charAt "x = \"a\\\"b\"".toList (4 + 1 + contents.length) = '"'
          ∨ 4 + 1 + contents.length = strlen "x = \"a\\\"b\"".toList)
      ∧ next.code = "x = \"a\\\"b\"".toList
      ∧ next.pos = 4 + 1 + contents.length
          + (if charAt "x = \"a\\\"b\"".toList (4 + 1 + contents.length) = '"' then 1 else 0) :=
  (string_literal_no_escapes
    { code := "x = \"a\\\"b\"".toList, pos := 4, line := 1, column := 5 }
    (by decide!) (by decide!)).1
/-- Claim C9 at the failing input `x = 1`, `x = x + 1` and a print of `x` on three
lines: the first line is an assignment, and its name is read after it has been freed, so
the text is not parsed to its three statements and the line `2` is not written; no text
at all is parsed to a sequence that holds an assignment. The rest of the claim holds:
after `set_symbol` of `name` to `v` the lookup of `name` returns `v`, the lookup of every
other name is unchanged, a table with distinct names keeps distinct names, so every table
built from the empty one by `set_symbol` calls has no name twice; and the three statement
nodes that the text stands for, when they are given as nodes, bind `x` to 2 and print the
line `2` from any process state. -/
theorem reassignment_example_name_read_after_free (symbol_table : List Symbol)
    (name : List Char) (v : Int) :
    parse_source "x = 1\nx = x + 1\ndarshaya(x)".toList = .error .UseAfterFree
    ∧ (∀ code statements target expr, parse_source code = .ok statements →
        NODE_ASSIGN target expr ∉ statements)
    ∧ get_symbol (set_symbol symbol_table name v) name = .ok v
    ∧ (∀ other, other ≠ name →
        get_symbol (set_symbol symbol_table name v) other = get_symbol symbol_table other)
    ∧ ((symbol_table.map Symbol.name).Nodup →
        ((set_symbol symbol_table name v).map Symbol.name).Nodup)
    ∧ (∀ updates : List (List Char × Int),
        ((updates.foldl (fun table update => set_symbol table update.1 update.2) []).map
          Symbol.name).Nodup)
    ∧ (∀ process : Process,
        execute_statements
          [NODE_ASSIGN name (NODE_NUMBER 1),
           NODE_ASSIGN name (NODE_BINOP (NODE_VAR name) TOKEN_PLUS (NODE_NUMBER 1)),
           NODE_PRINT (NODE_VAR name)] process
        = ({ symbol_table := set_symbol (set_symbol process.symbol_table name 1) name 2,
             stdout := process.stdout ++ "2\n".toList }, none)) := by
  refine ⟨by decide!, ?_, get_symbol_set_symbol_same _ _ _,
    fun o ho => get_symbol_set_symbol_other _ _ _ _ ho,
    set_symbol_nodup _ _ _, fun updates => set_symbol_foldl_nodup updates [] (by simp), ?_⟩
  · intro code statements target expr h hmem
    obtain ⟨e, he⟩ := parse_source_nodes code statements h _ hmem
    exact absurd he (by simp)
  · intro process
    simp [execute_statements, execute_statement, evaluate_expression,
      get_symbol_set_symbol_same, wrap32_two, format_d_two]

theorem reassignment_example_name_read_after_free_witness :
    get_symbol (set_symbol [⟨"x".toList, 1⟩, ⟨"y".toList, 5⟩] "x".toList 2) "y".toList
        = get_symbol [⟨"x".toList, 1⟩, ⟨"y".toList, 5⟩] "y".toList
    ∧ ((set_symbol [⟨"x".toList, 1⟩, ⟨"y".toList, 5⟩] "x".toList 2).map Symbol.name).Nodup
    ∧ NODE_ASSIGN "x".toList (NODE_NUMBER 1)
        ∉ [NODE_PRINT (NODE_NUMBER 1), NODE_PRINT (NODE_NUMBER 2)] :=
  ⟨(reassignment_example_name_read_after_free [⟨"x".toList, 1⟩, ⟨"y".toList, 5⟩] "x".toList
      2).2.2.2.1 "y".toList (by decide),
   (reassignment_example_name_read_after_free [⟨"x".toList, 1⟩, ⟨"y".toList, 5⟩] "x".toList
      2).2.2.2.2.1 (by decide),
   (reassignment_example_name_read_after_free [] [] 0).2.1 "darshaya(1)\ndarshaya(2)".toList
      [NODE_PRINT (NODE_NUMBER 1), NODE_PRINT (NODE_NUMBER 2)] "x".toList (NODE_NUMBER 1)
      (by decide!)⟩
/-- Claim C10 at the failing input `x = 5` followed by a print of `x`: the first line is
an assignment, and its name is read after it has been freed, so the text is not parsed to
its two statements and the line `5` is not written; no text at all is parsed to a
sequence that holds an assignment. The rest of the claim holds: evaluating a variable
reference fails exactly when the name is not in the symbol table, the failure is the name
error, and a bound name yields its value; the two statement nodes that the text stands
for, when they are given as nodes, print `n`; and a print of an unbound `x` stops with the
name error and prints nothing, where the print statement of an identifier `x` is what the
text `darshaya(x)` is lexed and parsed to. -/
theorem assigned_variable_example_name_read_after_free (symbol_table : List Symbol)
    (name : List Char) :
    parse_source "x = 5\ndarshaya(x)".toList = .error .UseAfterFree
    ∧ (∀ code statements target expr, parse_source code = .ok statements →
        NODE_ASSIGN target expr ∉ statements)
    ∧ ((∃ e, evaluate_expression symbol_table (NODE_VAR name) = .error e)
        ↔ name ∉ symbol_table.map Symbol.name)
    ∧ (∀ e, evaluate_expression symbol_table (NODE_VAR name) = .error e → e = .NameError name)
    ∧ (∀ v, (symbol_table.map Symbol.name).Nodup →
        ({ name := name, value := v } : Symbol) ∈ symbol_table →
        evaluate_expression symbol_table (NODE_VAR name) = .ok v)
    ∧ (∀ (n : Int) (process : Process),
        execute_statements [NODE_ASSIGN name (NODE_NUMBER n), NODE_PRINT (NODE_VAR name)] process
          = ({ symbol_table := set_symbol process.symbol_table name n,
               stdout := process.stdout ++ format_d n ++ ['\n'] }, none))
    ∧ (∀ process : Process, name ∉ process.symbol_table.map Symbol.name →
        execute_statements [NODE_PRINT (NODE_VAR name)] process
          = (process, some (.NameError name)))
    ∧ (∀ (c : Char) (w : List Char), name = c :: w → is_ident_start c = true →
        (∀ d ∈ c :: w, is_ident_char d = true) → c :: w ≠ "darshaya".toList →
        parse_source ("darshaya(".toList ++ name ++ [')']) = .ok [NODE_PRINT (NODE_VAR name)])
    ∧ parse_source "darshaya(x)".toList = .ok [NODE_PRINT (NODE_VAR "x".toList)] := by
  refine ⟨by decide!, ?_, get_symbol_error_iff _ _,
    fun e h => get_symbol_error_is_name_error _ _ e h,
    fun v hn hm => get_symbol_of_mem _ _ v hn hm, ?_, ?_, ?_, by decide!⟩
  · intro code statements target expr h hmem
    obtain ⟨e, he⟩ := parse_source_nodes code statements h _ hmem
    exact absurd he (by simp)
  · intro n process
    simp [execute_statements, execute_statement, evaluate_expression,
      get_symbol_set_symbol_same]
  · intro process hnot
    obtain ⟨e, he⟩ := (get_symbol_error_iff _ _).mpr hnot
    have := get_symbol_error_is_name_error _ _ e he
    subst this
    simp [execute_statements, execute_statement, evaluate_expression, he]
  · intro c w hname hc hw hkw
    subst hname
    have hparse := parse_source_print_token (c :: w) _ _
      (fun h => next_token_word c w [')'] (by simpa using h) hc hw (by decide)) (by
        right; right
        rw [keywords_find_none _ hkw])
    rw [hparse, keywords_find_none _ hkw]
    simp [factor_node]

theorem assigned_variable_example_name_read_after_free_witness :
    evaluate_expression [⟨"x".toList, 5⟩] (NODE_VAR "x".toList) = .ok 5
    ∧ execute_statements [NODE_PRINT (NODE_VAR "x".toList)] ⟨[], []⟩
        = (⟨[], []⟩, some (.NameError "x".toList)) :=
  ⟨(assigned_variable_example_name_read_after_free [⟨"x".toList, 5⟩] "x".toList).2.2.2.2.1 5
      (by decide) (by decide),
   (assigned_variable_example_name_read_after_free [] "x".toList).2.2.2.2.2.2.1 ⟨[], []⟩
      (by decide)⟩
/-- Claim C11 at the failing input `x = 1`, a comment line, an empty line and a print of
`x`: the assignment on the first line is parsed by the branch of `parse_statement` that
reads the name after it has been freed, so the parse ends in the use after free and
delivers no statement; the run of `run_panlang_code` on the text ends earlier still, at
line 570, where the text is used as the lexer; in both the line `1` is not written. The
comment line and the empty line are not the cause: a line that holds only white space and
a comment, or only white space, is lexed as one Newline token from every lexer state, and
the program of two print statements with a comment line and empty lines before, between
and after them is parsed to the same two statements as without them, which print the
lines `1` and `2`. -/
theorem comment_example_name_read_after_free :
    parse_source "x = 1\n# comment\n\ndarshaya(x)".toList = .error .UseAfterFree
    ∧ run_panlang_code "x = 1\n# comment\n\ndarshaya(x)".toList ⟨[], []⟩
        = (⟨[], []⟩, some (.TextUsedAsLexer "x = 1\n# comment\n\ndarshaya(x)".toList))
    ∧ (∀ (lexer : Lexer) (pad text rest : List Char),
        LexAt lexer (pad ++ '#' :: (text ++ '\n' :: rest)) →
        (∀ c ∈ pad, is_blank c = true) → (∀ c ∈ text, in_comment c = true) →
        lexer_get_next_token lexer
          = some ({ type := TOKEN_NEWLINE, value := some ['\n'], line := lexer.line,
                    column := 1 },
                  { lexer with pos := lexer.pos + (pad ++ '#' :: text).length + 1,
                               line := lexer.line + 1, column := 1 })
          ∧ LexAt { lexer with pos := lexer.pos + (pad ++ '#' :: text).length + 1,
                               line := lexer.line + 1, column := 1 } rest)
    ∧ (∀ (lexer : Lexer) (pad rest : List Char), LexAt lexer (pad ++ '\n' :: rest) →
        (∀ c ∈ pad, is_blank c = true) →
        lexer_get_next_token lexer
          = some ({ type := TOKEN_NEWLINE, value := some ['\n'], line := lexer.line,
                    column := 1 },
                  { lexer with pos := lexer.pos + pad.length + 1, line := lexer.line + 1,
                               column := 1 })
          ∧ LexAt { lexer with pos := lexer.pos + pad.length + 1, line := lexer.line + 1,
                               column := 1 } rest)
    ∧ parse_source "darshaya(1)\ndarshaya(2)".toList
        = .ok [NODE_PRINT (NODE_NUMBER 1), NODE_PRINT (NODE_NUMBER 2)]
    ∧ parse_source "# first\n\ndarshaya(1)\n  # comment\n\n\ndarshaya(2)\n# last\n\n".toList
        = .ok [NODE_PRINT (NODE_NUMBER 1), NODE_PRINT (NODE_NUMBER 2)]
    ∧ execute_statements [NODE_PRINT (NODE_NUMBER 1), NODE_PRINT (NODE_NUMBER 2)] ⟨[], []⟩
        = (⟨[], "1\n2\n".toList⟩, none) := by
  exact ⟨by decide!, rfl,
    fun lexer pad text rest h hp ht => next_token_comment_line pad text rest h hp ht,
    fun lexer pad rest h hp => next_token_blank_line pad rest h hp,
    by decide!, by decide!, by decide!⟩

theorem comment_example_name_read_after_free_witness :
    (lexer_get_next_token (lexer_init "  # note\ndarshaya(1)".toList)
        = some (⟨TOKEN_NEWLINE, some ['\n'], 1, 1⟩, ⟨"  # note\ndarshaya(1)".toList, 9, 2, 1⟩)
      ∧ LexAt ⟨"  # note\ndarshaya(1)".toList, 9, 2, 1⟩ "darshaya(1)".toList)
    ∧ (lexer_get_next_token (lexer_init " \t\ndarshaya(1)".toList)
        = some (⟨TOKEN_NEWLINE, some ['\n'], 1, 1⟩, ⟨" \t\ndarshaya(1)".toList, 3, 2, 1⟩)
      ∧ LexAt ⟨" \t\ndarshaya(1)".toList, 3, 2, 1⟩ "darshaya(1)".toList) :=
  ⟨comment_example_name_read_after_free.2.2.1 (lexer_init "  # note\ndarshaya(1)".toList)
      "  ".toList " note".toList "darshaya(1)".toList
      (lexAt_init "  # note\ndarshaya(1)".toList) (by decide) (by decide),
   comment_example_name_read_after_free.2.2.2.1 (lexer_init " \t\ndarshaya(1)".toList)
      " \t".toList "darshaya(1)".toList (lexAt_init " \t\ndarshaya(1)".toList) (by decide)⟩
/-- Claim C12 at the failing input `darshaya(1 +)`: `run_panlang_code` does not reach the
parser with a lexer that reads the text. Its first call, that of line 570, hands the text
to `parser_init` as the lexer, and the run ends there for every text and every process
state, before a character is lexed and so before a syntax error is found; nothing has
been executed or written at that point. On a lexer that `lexer_init` has set on the text
the parser does stop with its syntax error diagnostic and returns no statement: for a
print statement of `1 +`, for a print statement without its `(` or its `)`, and also when
a well-formed print statement stands before the faulty one. -/
theorem syntax_error_run_uses_text_as_lexer :
    run_panlang_code "darshaya(1 +)".toList ⟨[], []⟩
        = (⟨[], []⟩, some (.TextUsedAsLexer "darshaya(1 +)".toList))
    ∧ (∀ code process,
        run_panlang_code code process = (process, some (.TextUsedAsLexer code)))
    ∧ (∀ code, is_syntax_error (.TextUsedAsLexer code) = false)
    ∧ parse_source "darshaya(1 +)".toList
        = .error (.SyntaxErrorFactor ⟨TOKEN_RPAREN, some [')'], 1, 13⟩)
    ∧ parse_source "darshaya 1)".toList
        = .error (.SyntaxErrorExpected TOKEN_LPAREN ⟨TOKEN_NUMBER, some ['1'], 1, 10⟩)
    ∧ parse_source "darshaya(1".toList
        = .error (.SyntaxErrorExpected TOKEN_RPAREN ⟨TOKEN_EOF, none, 1, 11⟩)
    ∧ parse_source "darshaya(1)\ndarshaya(1 +)".toList
        = .error (.SyntaxErrorFactor ⟨TOKEN_RPAREN, some [')'], 2, 13⟩) :=
  ⟨rfl, fun code process => run_panlang_code_text_as_lexer code process, fun _ => rfl,
    by decide!, by decide!, by decide!, by decide!⟩

/-- Claim C13: the end of input is absorbing. Once a call of `lexer_get_next_token` has
returned the end-of-input token, the next call on the lexer it left returns that same
token again and leaves the lexer as it is, position, line and column included; so any
number of later calls return end-of-input tokens only and end in that same lexer state.
On the text `1 # c` the second call skips the comment and returns end of input, and the
four calls after it return the same token from the same state. -/
theorem end_of_input_is_absorbing (lexer next : Lexer) (token : Token)
    (h : lexer_get_next_token lexer = some (token, next)) (ht : token.type = TOKEN_EOF) :
    lexer_get_next_token next = some (token, next)
    ∧ (∀ n, lexer_calls n next = some (List.replicate n token, next))
    ∧ (∀ n, lex_tokens n next = List.replicate n token)
    ∧ lexer_calls 2 (lexer_init "1 # c".toList)
        = some ([⟨TOKEN_NUMBER, some ['1'], 1, 1⟩, ⟨TOKEN_EOF, none, 1, 6⟩],
                ⟨"1 # c".toList, 5, 1, 6⟩)
    ∧ lexer_calls 6 (lexer_init "1 # c".toList)
        = some (⟨TOKEN_NUMBER, some ['1'], 1, 1⟩ :: List.replicate 5 ⟨TOKEN_EOF, none, 1, 6⟩,
                ⟨"1 # c".toList, 5, 1, 6⟩) := by
  obtain ⟨hend, htok⟩ := (lexer_get_next_token_fuel_type _ lexer next token h).2 ht
  refine ⟨?_, ?_, ?_, by decide!, by decide!⟩
  · rw [lexer_get_next_token_eof next hend, ← htok]
  · intro n
    rw [lexer_calls_at_end next hend n, ← htok]
  · intro n
    rw [lex_tokens_at_end next hend n, ← htok]

theorem end_of_input_is_absorbing_witness :
    lexer_get_next_token ⟨"1 # c".toList, 5, 1, 6⟩
      = some (⟨TOKEN_EOF, none, 1, 6⟩, ⟨"1 # c".toList, 5, 1, 6⟩) :=
  (end_of_input_is_absorbing ⟨"1 # c".toList, 1, 1, 2⟩ ⟨"1 # c".toList, 5, 1, 6⟩
    ⟨TOKEN_EOF, none, 1, 6⟩ (by decide!) rfl).1

/-- Claim C14: unrecognized characters are passed over one at a time and never reach
the parser. No call of `lexer_get_next_token` returns a token of kind Unknown, from any
lexer state; a call that finds an unrecognized character moves over that one character
and goes on as the call from the next position; every call returns a token. For every
source text the tokens returned, with their kinds, lexemes, lines and columns, are those
returned for the text in which every unrecognized character outside string literals and
comments is replaced by a space. On `1@@ 2 $x` the tokens are the numbers 1 and 2 and the
identifier `x`, as on the text with three spaces in place of `@@` and `$`. -/
theorem unknown_characters_are_skipped (code : List Char) :
    (∀ lexer token next, lexer_get_next_token lexer = some (token, next) →
        token.type ≠ TOKEN_UNKNOWN)
    ∧ (∀ n, ∀ token ∈ lex_tokens n (lexer_init code), token.type ≠ TOKEN_UNKNOWN)
    ∧ (∀ n, (lex_tokens n (lexer_init code)).length = n)
    ∧ (∀ n, lex_tokens n (lexer_init (replace_unrecognized .code code))
        = lex_tokens n (lexer_init code))
    ∧ (∀ n, (lex_tokens n (lexer_init (replace_unrecognized .code code))).map
          (fun token => (token.type, token.value))
        = (lex_tokens n (lexer_init code)).map (fun token => (token.type, token.value)))
    ∧ (∀ (lexer : Lexer) (c : Char) (rest : List Char), LexAt lexer (c :: rest) →
        is_unrecognized c = true →
        lexer_get_next_token lexer = lexer_get_next_token (step_char c lexer))
    ∧ replace_unrecognized .code "1@@ 2 $x".toList = "1   2  x".toList
    ∧ (lex_tokens 4 (lexer_init "1@@ 2 $x".toList)).map (fun token => (token.type, token.value))
        = [(TOKEN_NUMBER, some ['1']), (TOKEN_NUMBER, some ['2']),
            (TOKEN_IDENTIFIER, some ['x']), (TOKEN_EOF, none)] := by
  have hrep : ∀ n, lex_tokens n (lexer_init (replace_unrecognized .code code))
      = lex_tokens n (lexer_init code) := fun n =>
    lex_tokens_replace (replace_unrecognized .code code) n code (lexer_init code)
      (lexAt_init code) (lexAt_init (replace_unrecognized .code code))
  refine ⟨fun lexer token next h => (lexer_get_next_token_fuel_type _ lexer next token h).1,
    fun n => lex_tokens_no_unknown n (lexer_init code),
    fun n => lex_tokens_length n code (lexer_init code) (lexAt_init code),
    hrep, fun n => by rw [hrep n],
    fun lexer c rest h hc => lexer_get_next_token_unrecognized c rest h hc,
    by decide!, by decide!⟩

theorem unknown_characters_are_skipped_witness :
    (⟨TOKEN_NUMBER, some ['2'], 1, 3⟩ : Token).type ≠ TOKEN_UNKNOWN
    ∧ lexer_get_next_token (lexer_init "@1".toList)
        = lexer_get_next_token (step_char '@' (lexer_init "@1".toList)) :=
  ⟨(unknown_characters_are_skipped []).1 ⟨"1@2".toList, 1, 1, 2⟩ ⟨TOKEN_NUMBER, some ['2'], 1, 3⟩
      ⟨"1@2".toList, 3, 1, 4⟩ (by decide!),
   (unknown_characters_are_skipped []).2.2.2.2.2.1 (lexer_init "@1".toList) '@' ['1']
      (lexAt_init "@1".toList) (by decide)⟩

/-- Claim C15: a string literal node never evaluates to a number: in every symbol table
its evaluation is the string type error. An assignment of a string literal stops with that
error and binds nothing; a binary node with a string literal as its left operand is that
error, one with a string literal as its right operand fails (with that error once its left
operand has a value), and an assignment or a print statement of either stops with the
process state untouched. A print statement writes the text of a string only when its
argument node is itself a string literal; of any other argument that evaluates it writes
the decimal digits of the value. The text `darshaya("a" + 1)` is parsed to a print
statement of a sum with a string literal operand, whose execution stops with the string
type error and prints no line. -/
theorem string_literal_never_a_number (symbol_table : List Symbol) (s : List Char) :
    evaluate_expression symbol_table (NODE_STRING s) = .error (.StringNotInteger s)
    ∧ (∀ name process,
        execute_statements [NODE_ASSIGN name (NODE_STRING s)] process
          = (process, some (.StringNotInteger s)))
    ∧ (∀ op right,
        evaluate_expression symbol_table (NODE_BINOP (NODE_STRING s) op right)
          = .error (.StringNotInteger s))
    ∧ (∀ left op left_val, evaluate_expression symbol_table left = .ok left_val →
        evaluate_expression symbol_table (NODE_BINOP left op (NODE_STRING s))
          = .error (.StringNotInteger s))
    ∧ (∀ left op right name process, left = NODE_STRING s ∨ right = NODE_STRING s →
        ∃ e, evaluate_expression process.symbol_table (NODE_BINOP left op right) = .error e
          ∧ execute_statements [NODE_ASSIGN name (NODE_BINOP left op right)] process
              = (process, some e)
          ∧ execute_statements [NODE_PRINT (NODE_BINOP left op right)] process
              = (process, some e))
    ∧ (∀ process,
        execute_statement (NODE_PRINT (NODE_STRING s)) process
          = .ok { process with stdout := process.stdout ++ s ++ ['\n'] })
    ∧ (∀ expr process next, (∀ t, expr ≠ NODE_STRING t) →
        execute_statement (NODE_PRINT expr) process = .ok next →
        ∃ v, evaluate_expression process.symbol_table expr = .ok v
          ∧ next = { process with stdout := process.stdout ++ format_d v ++ ['\n'] })
    ∧ parse_source "darshaya(\"a\" + 1)".toList
        = .ok [NODE_PRINT (NODE_BINOP (NODE_STRING "\"a\"".toList) TOKEN_PLUS (NODE_NUMBER 1))]
    ∧ execute_statements
          [NODE_PRINT (NODE_BINOP (NODE_STRING "\"a\"".toList) TOKEN_PLUS (NODE_NUMBER 1))]
          ⟨[], []⟩
        = (⟨[], []⟩, some (.StringNotInteger "\"a\"".toList)) := by
  refine ⟨rfl, ?_, ?_, ?_, ?_, ?_, ?_, by decide!, by decide!⟩
  · intro name process
    simp [execute_statements, execute_statement, evaluate_expression]
  · intro op right
    simp [evaluate_expression]
  · intro left op left_val hl
    simp [evaluate_expression, hl]
  · intro left op right name process h
    have hfail : ∃ e, evaluate_expression process.symbol_table (NODE_BINOP left op right)
        = .error e := by
      rcases h with h | h
      · subst h
        exact ⟨.StringNotInteger s, by simp [evaluate_expression]⟩
      · subst h
        cases hl : evaluate_expression process.symbol_table left with
        | error e => exact ⟨e, by simp [evaluate_expression, hl]⟩
        | ok v => exact ⟨.StringNotInteger s, by simp [evaluate_expression, hl]⟩
    obtain ⟨e, he⟩ := hfail
    refine ⟨e, he, ?_, ?_⟩
    · simp [execute_statements, execute_statement, he]
    · exact execute_statements_single_error _ _ _
        (execute_print_error process _ e (fun t => by simp) he)
  · intro process
    simp [execute_statement]
  · intro expr process next hs h
    cases hv : evaluate_expression process.symbol_table expr with
    | error e =>
      rw [execute_print_error process expr e hs hv] at h
      exact absurd h (by simp)
    | ok v =>
      rw [execute_print_value process expr v hs hv] at h
      exact ⟨v, rfl, (Except.ok.inj h).symm⟩

theorem string_literal_never_a_number_witness :
    evaluate_expression [] (NODE_BINOP (NODE_NUMBER 1) TOKEN_PLUS (NODE_STRING "\"a\"".toList))
        = .error (.StringNotInteger "\"a\"".toList)
    ∧ (∃ e, evaluate_expression [] (NODE_BINOP (NODE_VAR "y".toList) TOKEN_PLUS
              (NODE_STRING "\"a\"".toList)) = .error e
          ∧ execute_statements [NODE_ASSIGN "x".toList (NODE_BINOP (NODE_VAR "y".toList)
              TOKEN_PLUS (NODE_STRING "\"a\"".toList))] ⟨[], []⟩ = (⟨[], []⟩, some e)
          ∧ execute_statements [NODE_PRINT (NODE_BINOP (NODE_VAR "y".toList)
              TOKEN_PLUS (NODE_STRING "\"a\"".toList))] ⟨[], []⟩ = (⟨[], []⟩, some e))
    ∧ (∃ v, evaluate_expression [] (NODE_NUMBER 7) = .ok v
          ∧ (⟨[], ['7', '\n']⟩ : Process) = { symbol_table := [], stdout := [] ++ format_d v ++ ['\n'] }) :=
  ⟨(string_literal_never_a_number [] "\"a\"".toList).2.2.2.1 (NODE_NUMBER 1) TOKEN_PLUS 1
      (by decide),
   (string_literal_never_a_number [] "\"a\"".toList).2.2.2.2.1 (NODE_VAR "y".toList) TOKEN_PLUS
      (NODE_STRING "\"a\"".toList) "x".toList ⟨[], []⟩ (Or.inr rfl),
   (string_literal_never_a_number [] []).2.2.2.2.2.2.1 (NODE_NUMBER 7) ⟨[], []⟩
      ⟨[], ['7', '\n']⟩ (by intro t; simp) (by decide!)⟩

/-- Claim C16, as the code has it: the single entry of the keyword table is the print
keyword written `darshaya`. Lexing the text `darshaya(1)` yields the token kinds Print,
LParen, Number, RParen, EndOfInput, and `parse_program` returns one print statement for
it. A word of letters, digits and underscores is lexed as the Print token exactly when it
is `darshaya`, and as an Identifier otherwise. -/
theorem print_keyword_is_darshaya :
    keywords = [("darshaya".toList, TOKEN_PRINT)]
    ∧ (lex_tokens 5 (lexer_init "darshaya(1)".toList)).map Token.type
        = [TOKEN_PRINT, TOKEN_LPAREN, TOKEN_NUMBER, TOKEN_RPAREN, TOKEN_EOF]
    ∧ parse_source "darshaya(1)".toList = .ok [NODE_PRINT (NODE_NUMBER 1)]
    ∧ (∀ (lexer : Lexer) (c : Char) (w rest : List Char), LexAt lexer (c :: w ++ rest) →
        is_ident_start c = true → (∀ d ∈ c :: w, is_ident_char d = true) →
        is_ident_char (rest.headD NUL) = false →
        ∃ token next, lexer_get_next_token lexer = some (token, next)
          ∧ token.value = some (c :: w)
          ∧ (token.type = TOKEN_PRINT ↔ c :: w = "darshaya".toList)
          ∧ (token.type ≠ TOKEN_PRINT → token.type = TOKEN_IDENTIFIER)) := by
  refine ⟨rfl, by decide!, by decide!, ?_⟩
  intro lexer c w rest h hc hw hr
  obtain ⟨htok, _⟩ := next_token_word c w rest h hc hw hr
  refine ⟨_, _, htok, rfl, ?_⟩
  by_cases hkw : c :: w = "darshaya".toList
  · have hfind : keywords.find? (fun kw => kw.1 = c :: w)
        = some ("darshaya".toList, TOKEN_PRINT) := by
      rw [hkw]; rfl
    rw [hfind]
    exact ⟨⟨fun _ => hkw, fun _ => rfl⟩, fun hne => absurd rfl hne⟩
  · rw [keywords_find_none _ hkw]
    exact ⟨⟨fun hp => absurd hp (by simp), fun hp => absurd hp hkw⟩, fun _ => rfl⟩

theorem print_keyword_is_darshaya_witness :
    ∃ token next, lexer_get_next_token (lexer_init "print(1)".toList) = some (token, next)
      ∧ token.value = some ('p' :: "rint".toList)
      ∧ (token.type = TOKEN_PRINT ↔ 'p' :: "rint".toList = "darshaya".toList)
      ∧ (token.type ≠ TOKEN_PRINT → token.type = TOKEN_IDENTIFIER) :=
  print_keyword_is_darshaya.2.2.2 (lexer_init "print(1)".toList) 'p' "rint".toList
    "(1)".toList (lexAt_init "print(1)".toList) (by decide) (by decide) (by decide)

/-- Claim C16 as stated fails at its own text: `print(1)` is lexed to the token kinds
Identifier, LParen, Number, RParen, EndOfInput, the first token being the identifier
`print` and not the Print token, and `parse_program` stops on it with the syntax error
for an unexpected statement start instead of returning a print statement. -/
theorem print_word_is_an_identifier :
    (lex_tokens 5 (lexer_init "print(1)".toList)).map Token.type
        = [TOKEN_IDENTIFIER, TOKEN_LPAREN, TOKEN_NUMBER, TOKEN_RPAREN, TOKEN_EOF]
    ∧ (lex_tokens 5 (lexer_init "print(1)".toList)).map Token.type
        ≠ [TOKEN_PRINT, TOKEN_LPAREN, TOKEN_NUMBER, TOKEN_RPAREN, TOKEN_EOF]
    ∧ parse_source "print(1)".toList
        = .error (.SyntaxErrorStatement ⟨TOKEN_IDENTIFIER, some "print".toList, 1, 1⟩) := by
  decide!

/-- Claim C17 at the failing input `x = 1`: the current token is an Identifier and the
lookahead is Assign, `parse_statement` takes the assignment branch, and after the
right-hand side has been parsed it builds the node from the name it kept on line 389,
whose block the `parser_advance` of line 390 has freed: the run ends in the use after
free and no Assignment node with a defined name is returned. This is so for every parser
state that starts an assignment. The rest of the claim holds: a node that
`parse_statement` returns is a print statement and was started by the Print token, a
start that is neither Print, nor Identifier before Assign, nor Newline is the statement
syntax error (an Identifier not followed by `=`, a Number and `(` among them), and every
node `parse_program` returns is a print statement. -/
theorem assignment_name_read_after_free :
    parse_source "x = 1".toList = .error .UseAfterFree
    ∧ (∀ parser p1 p2 expr p3, parser.current_token.type = TOKEN_IDENTIFIER →
        parser.peek_token.type = TOKEN_ASSIGN →
        parser_advance parser = .ok p1 → parser_advance p1 = .ok p2 →
        parse_expression (expression_fuel p2) p2 = .ok (expr, p3) →
        parse_statement parser = .error .UseAfterFree)
    ∧ (∀ parser, parser.current_token.type = TOKEN_IDENTIFIER →
        parser.peek_token.type = TOKEN_ASSIGN → ∀ r, parse_statement parser ≠ .ok r)
    ∧ (∀ parser node next, parse_statement parser = .ok (some node, next) →
        parser.current_token.type = TOKEN_PRINT ∧ ∃ expr, node = NODE_PRINT expr)
    ∧ (∀ parser, parser.current_token.type ≠ TOKEN_PRINT →
        ¬ (parser.current_token.type = TOKEN_IDENTIFIER
            ∧ parser.peek_token.type = TOKEN_ASSIGN) →
        parser.current_token.type ≠ TOKEN_NEWLINE →
        parse_statement parser = .error (.SyntaxErrorStatement parser.current_token))
    ∧ (∀ code statements, parse_source code = .ok statements →
        ∀ node ∈ statements, ∃ expr, node = NODE_PRINT expr)
    ∧ parse_source "x 1".toList
        = .error (.SyntaxErrorStatement ⟨TOKEN_IDENTIFIER, some ['x'], 1, 1⟩)
    ∧ parse_source "1".toList
        = .error (.SyntaxErrorStatement ⟨TOKEN_NUMBER, some ['1'], 1, 1⟩)
    ∧ parse_source "(1)".toList
        = .error (.SyntaxErrorStatement ⟨TOKEN_LPAREN, some ['('], 1, 1⟩) := by
  refine ⟨by decide!, ?_, fun parser h1 h2 => parse_statement_assignment parser h1 h2,
    fun parser node next h => parse_statement_node parser next node h,
    fun parser h1 h2 h3 => parse_statement_other parser h1 h2 h3,
    fun code statements h => parse_source_nodes code statements h,
    by decide!, by decide!, by decide!⟩
  intro parser p1 p2 expr p3 h1 h2 ha1 ha2 he
  unfold parse_statement
  have hp : ¬ parser.current_token.type = TOKEN_PRINT := by rw [h1]; simp
  rw [if_neg hp, if_pos ⟨h1, h2⟩]
  simp only [ha1, ha2, he]

theorem assignment_name_read_after_free_witness :
    parse_statement (parser_of_text "x = 1".toList) = .error .UseAfterFree
    ∧ parse_statement (parser_of_text "x 1".toList)
        = .error (.SyntaxErrorStatement (parser_of_text "x 1".toList).current_token)
    ∧ (∀ node ∈ [NODE_PRINT (NODE_NUMBER 1), NODE_PRINT (NODE_NUMBER 2)],
        ∃ expr, node = NODE_PRINT expr) :=
  ⟨assignment_name_read_after_free.2.1 (parser_of_text "x = 1".toList)
      (after_advance (parser_of_text "x = 1".toList))
      (after_advance (after_advance (parser_of_text "x = 1".toList)))
      (NODE_NUMBER 1)
      (after_advance (after_advance (after_advance (parser_of_text "x = 1".toList))))
      (by decide!) (by decide!) (by decide!) (by decide!) (by decide!),
   assignment_name_read_after_free.2.2.2.2.1 (parser_of_text "x 1".toList)
      (by decide!) (by decide!) (by decide!),
   assignment_name_read_after_free.2.2.2.2.2.1 "darshaya(1)\ndarshaya(2)".toList
      [NODE_PRINT (NODE_NUMBER 1), NODE_PRINT (NODE_NUMBER 2)] (by decide!)⟩
/-- Claim C18 at the failing input of the two lines `x = 1` and `darshaya(x)` given to
the read-eval loop: the loop does not reach its second line. The run of the first line
ends at line 570, where the text of the line is used as the lexer, and that ends the
process; this is so for every first line other than the exit word, so no run of
`run_panlang_code` ends without a fatal error. Parsed on a lexer of its own, the first
line is an assignment and ends in the use after free. What the claim says of the table
holds where it can be stated: `free_symbol_table` leaves the table empty, after any
executed statement sequence too, every variable reference in the freed table is the name
error, and the line `darshaya(` name `)` is parsed to a print of the variable, which in
an empty table stops with the name error and writes nothing. -/
theorem repl_first_line_uses_text_as_lexer :
    repl_loop ["x = 1\n".toList, "darshaya(x)\n".toList] ⟨[], []⟩
        = (⟨[], ">>> ".toList⟩, some (.TextUsedAsLexer "x = 1\n".toList))
    ∧ (∀ (line : List Char) (input : List (List Char)) (process : Process),
        strcmp_eq line "nirgam\n".toList = false →
        repl_loop (line :: input) process
          = ({ process with stdout := process.stdout ++ ">>> ".toList },
              some (.TextUsedAsLexer line)))
    ∧ (∀ code process final, run_panlang_code code process ≠ (final, none))
    ∧ parse_source "x = 1\n".toList = .error .UseAfterFree
    ∧ (∀ process, (free_symbol_table process).symbol_table = []
        ∧ (free_symbol_table process).stdout = process.stdout)
    ∧ (∀ (statements : List ASTNode) (start : Process) (name : List Char),
        evaluate_expression
            (free_symbol_table (execute_statements statements start).1).symbol_table
            (NODE_VAR name)
          = .error (.NameError name))
    ∧ (∀ (c : Char) (w : List Char) (process : Process), is_ident_start c = true →
        (∀ d ∈ c :: w, is_ident_char d = true) → c :: w ≠ "darshaya".toList →
        parse_source ("darshaya(".toList ++ (c :: w) ++ ")\n".toList)
            = .ok [NODE_PRINT (NODE_VAR (c :: w))]
          ∧ execute_statements [NODE_PRINT (NODE_VAR (c :: w))] (free_symbol_table process)
            = (free_symbol_table process, some (.NameError (c :: w)))) := by
  refine ⟨by decide!, fun line input process hq => repl_loop_first_line line input process hq,
    ?_, by decide!, fun process => ⟨rfl, rfl⟩, fun statements start name => rfl, ?_⟩
  · intro code process final h
    rw [run_panlang_code_text_as_lexer] at h
    simp at h
  · intro c w process hc hw hkw
    refine ⟨parse_source_print_word_line c w hc hw hkw, ?_⟩
    simp [execute_statements, execute_statement, evaluate_expression, free_symbol_table,
      get_symbol]

theorem repl_first_line_uses_text_as_lexer_witness :
    repl_loop ["darshaya(1)\n".toList, "darshaya(x)\n".toList] ⟨[⟨"x".toList, 1⟩], []⟩
        = (⟨[⟨"x".toList, 1⟩], [] ++ ">>> ".toList⟩,
            some (.TextUsedAsLexer "darshaya(1)\n".toList))
    ∧ (parse_source ("darshaya(".toList ++ ('x' :: []) ++ ")\n".toList)
          = .ok [NODE_PRINT (NODE_VAR ('x' :: []))]
        ∧ execute_statements [NODE_PRINT (NODE_VAR ('x' :: []))]
            (free_symbol_table ⟨[⟨"x".toList, 1⟩], []⟩)
          = (free_symbol_table ⟨[⟨"x".toList, 1⟩], []⟩, some (.NameError ('x' :: [])))) :=
  ⟨repl_first_line_uses_text_as_lexer.2.1 "darshaya(1)\n".toList ["darshaya(x)\n".toList]
      ⟨[⟨"x".toList, 1⟩], []⟩ (by decide),
   repl_first_line_uses_text_as_lexer.2.2.2.2.2.2 'x' [] ⟨[⟨"x".toList, 1⟩], []⟩
      (by decide) (by decide) (by decide)⟩

/-- Claim C19: in a binary node the left operand is evaluated first and both operands
before the operator is looked at. When the left operand fails the node fails with that
error whatever the right operand and the operator are; when the left operand yields a
value and the right operand fails, the node fails with the error of the right operand. So
an unbound variable divided by the literal 0 is the name error and not the division by
zero, and a string literal plus an unbound variable is the string type error. The two
texts `darshaya(y / 0)` and `darshaya("a" + y)` are parsed to print statements of such
nodes, whose execution stops with these errors and prints nothing. -/
theorem operands_evaluated_left_first (symbol_table : List Symbol) (left right : ASTNode)
    (op : TokenType) :
    (∀ e, evaluate_expression symbol_table left = .error e →
        evaluate_expression symbol_table (NODE_BINOP left op right) = .error e)
    ∧ (∀ left_val e, evaluate_expression symbol_table left = .ok left_val →
        evaluate_expression symbol_table right = .error e →
        evaluate_expression symbol_table (NODE_BINOP left op right) = .error e)
    ∧ (∀ name, name ∉ symbol_table.map Symbol.name →
        evaluate_expression symbol_table
            (NODE_BINOP (NODE_VAR name) TOKEN_DIVIDE (NODE_NUMBER 0)) = .error (.NameError name))
    ∧ (∀ s name,
        evaluate_expression symbol_table
            (NODE_BINOP (NODE_STRING s) TOKEN_PLUS (NODE_VAR name)) = .error (.StringNotInteger s))
    ∧ parse_source "darshaya(y / 0)".toList
        = .ok [NODE_PRINT (NODE_BINOP (NODE_VAR "y".toList) TOKEN_DIVIDE (NODE_NUMBER 0))]
    ∧ parse_source "darshaya(\"a\" + y)".toList
        = .ok [NODE_PRINT
            (NODE_BINOP (NODE_STRING "\"a\"".toList) TOKEN_PLUS (NODE_VAR "y".toList))]
    ∧ execute_statements
          [NODE_PRINT (NODE_BINOP (NODE_VAR "y".toList) TOKEN_DIVIDE (NODE_NUMBER 0))] ⟨[], []⟩
        = (⟨[], []⟩, some (.NameError "y".toList))
    ∧ execute_statements
          [NODE_PRINT
            (NODE_BINOP (NODE_STRING "\"a\"".toList) TOKEN_PLUS (NODE_VAR "y".toList))]
          ⟨[], []⟩
        = (⟨[], []⟩, some (.StringNotInteger "\"a\"".toList)) := by
  refine ⟨?_, ?_, ?_, ?_, by decide!, by decide!, by decide!, by decide!⟩
  · intro e h
    simp [evaluate_expression, h]
  · intro left_val e hl hr
    simp [evaluate_expression, hl, hr]
  · intro name hnot
    obtain ⟨e, he⟩ := (get_symbol_error_iff _ _).mpr hnot
    have := get_symbol_error_is_name_error _ _ e he
    subst this
    simp [evaluate_expression, he]
  · intro s name
    simp [evaluate_expression]

theorem operands_evaluated_left_first_witness :
    evaluate_expression [] (NODE_BINOP (NODE_VAR "y".toList) TOKEN_COMMA (NODE_STRING []))
        = .error (.NameError "y".toList)
    ∧ evaluate_expression [] (NODE_BINOP (NODE_NUMBER 1) TOKEN_DIVIDE
          (NODE_BINOP (NODE_NUMBER 1) TOKEN_DIVIDE (NODE_NUMBER 0))) = .error .DivisionByZero
    ∧ evaluate_expression [⟨"x".toList, 1⟩]
          (NODE_BINOP (NODE_VAR "y".toList) TOKEN_DIVIDE (NODE_NUMBER 0))
        = .error (.NameError "y".toList) :=
  ⟨(operands_evaluated_left_first [] (NODE_VAR "y".toList) (NODE_STRING []) TOKEN_COMMA).1
      (.NameError "y".toList) (by decide),
   (operands_evaluated_left_first [] (NODE_NUMBER 1)
      (NODE_BINOP (NODE_NUMBER 1) TOKEN_DIVIDE (NODE_NUMBER 0)) TOKEN_DIVIDE).2.1
      1 .DivisionByZero (by decide) (by decide),
   (operands_evaluated_left_first [⟨"x".toList, 1⟩] (NODE_NUMBER 0) (NODE_NUMBER 0)
      TOKEN_PLUS).2.2.1 "y".toList (by decide)⟩

/-- Claim C20: the statements of a parsed sequence are executed in order and the run
stops at the first one that fails. The output of the sequence is what the statements
before the first failing one write, line after line; when the statements of `pre` all
succeed and the next statement fails, the run ends in the state reached after `pre` with
the error of that statement, whatever statements follow it; when `pre` succeeds the rest
is executed from the state `pre` leaves. An assignment of `x + 1` to an unbound `x` stops
with the name error and leaves the symbol table as it was. The text of three print
statements whose second one reads an unbound variable is parsed to its three statements,
and in their execution only the line of the first is written. -/
theorem statements_run_in_order_until_first_error (statements : List ASTNode)
    (process : Process) :
    (execute_statements statements process).1.stdout
        = process.stdout ++ output_before_first_failure statements process
    ∧ (∀ pre node post mid e, statements = pre ++ node :: post →
        execute_statements pre process = (mid, none) →
        execute_statement node mid = .error e →
        execute_statements statements process = (mid, some e)
          ∧ output_before_first_failure statements process
              = output_before_first_failure pre process)
    ∧ (∀ pre post mid, statements = pre ++ post →
        execute_statements pre process = (mid, none) →
        execute_statements statements process = execute_statements post mid)
    ∧ (∀ name, name ∉ process.symbol_table.map Symbol.name →
        execute_statements
            [NODE_ASSIGN name (NODE_BINOP (NODE_VAR name) TOKEN_PLUS (NODE_NUMBER 1))] process
          = (process, some (.NameError name)))
    ∧ parse_source "darshaya(1)\ndarshaya(y)\ndarshaya(2)".toList
        = .ok [NODE_PRINT (NODE_NUMBER 1), NODE_PRINT (NODE_VAR "y".toList),
            NODE_PRINT (NODE_NUMBER 2)]
    ∧ execute_statements
          [NODE_PRINT (NODE_NUMBER 1), NODE_PRINT (NODE_VAR "y".toList),
            NODE_PRINT (NODE_NUMBER 2)] ⟨[], []⟩
        = (⟨[], ['1', '\n']⟩, some (.NameError "y".toList)) := by
  refine ⟨execute_statements_output statements process, ?_, ?_, ?_, by decide!, by decide!⟩
  · intro pre node post mid e hst hpre hnode
    subst hst
    have hrun := execute_statements_stops pre node post process mid e hpre hnode
    refine ⟨hrun, ?_⟩
    have h1 := execute_statements_output (pre ++ node :: post) process
    have h2 := execute_statements_output pre process
    rw [hrun] at h1
    rw [hpre] at h2
    simp only at h1 h2
    rw [h2] at h1
    exact (List.append_cancel_left h1).symm
  · intro pre post mid hst hpre
    subst hst
    exact execute_statements_append_ok pre post process mid hpre
  · intro name hnot
    obtain ⟨e, he⟩ := (get_symbol_error_iff _ _).mpr hnot
    have := get_symbol_error_is_name_error _ _ e he
    subst this
    simp [execute_statements, execute_statement, evaluate_expression, he]

theorem statements_run_in_order_until_first_error_witness :
    (execute_statements
        [NODE_PRINT (NODE_NUMBER 1), NODE_PRINT (NODE_VAR "y".toList),
          NODE_ASSIGN "y".toList (NODE_NUMBER 2), NODE_PRINT (NODE_NUMBER 3)] ⟨[], []⟩
      = (⟨[], ['1', '\n']⟩, some (.NameError "y".toList))
      ∧ output_before_first_failure
          [NODE_PRINT (NODE_NUMBER 1), NODE_PRINT (NODE_VAR "y".toList),
            NODE_ASSIGN "y".toList (NODE_NUMBER 2), NODE_PRINT (NODE_NUMBER 3)] ⟨[], []⟩
        = output_before_first_failure [NODE_PRINT (NODE_NUMBER 1)] ⟨[], []⟩)
    ∧ execute_statements
        [NODE_ASSIGN "x".toList (NODE_BINOP (NODE_VAR "x".toList) TOKEN_PLUS (NODE_NUMBER 1))]
        ⟨[⟨"z".toList, 4⟩], []⟩
      = (⟨[⟨"z".toList, 4⟩], []⟩, some (.NameError "x".toList))
    ∧ execute_statements
        ([NODE_PRINT (NODE_NUMBER 1), NODE_ASSIGN "y".toList (NODE_NUMBER 2)]
          ++ [NODE_PRINT (NODE_VAR "y".toList)]) ⟨[], []⟩
      = execute_statements [NODE_PRINT (NODE_VAR "y".toList)] ⟨[⟨"y".toList, 2⟩], ['1', '\n']⟩ :=
  ⟨(statements_run_in_order_until_first_error _ ⟨[], []⟩).2.1
      [NODE_PRINT (NODE_NUMBER 1)] (NODE_PRINT (NODE_VAR "y".toList))
      [NODE_ASSIGN "y".toList (NODE_NUMBER 2), NODE_PRINT (NODE_NUMBER 3)]
      ⟨[], ['1', '\n']⟩ (.NameError "y".toList) rfl (by decide!) (by decide),
   (statements_run_in_order_until_first_error [] ⟨[⟨"z".toList, 4⟩], []⟩).2.2.2.1
      "x".toList (by decide),
   (statements_run_in_order_until_first_error
      ([NODE_PRINT (NODE_NUMBER 1), NODE_ASSIGN "y".toList (NODE_NUMBER 2)]
        ++ [NODE_PRINT (NODE_VAR "y".toList)]) ⟨[], []⟩).2.2.1
      [NODE_PRINT (NODE_NUMBER 1), NODE_ASSIGN "y".toList (NODE_NUMBER 2)]
      [NODE_PRINT (NODE_VAR "y".toList)] ⟨[⟨"y".toList, 2⟩], ['1', '\n']⟩ rfl (by decide!)⟩

/-- Claim C21 at the failing input `x = 1 y = 2`: the first statement is an assignment,
`parse_statement` reads its name after the block has been freed, and the parse ends in
the use after free instead of returning two statements; the same happens on the two-line
text `x = 1`, newline, `y = 2`. The loop of `parse_program` itself asks for no Newline
between statements: after a statement it consumes the Newline tokens that are there,
none included, and goes on with the next statement from the token it then finds. So two
print statements on one line, with or without a blank between them, parse to the same
two statements as on two lines or with empty lines between and after them. -/
theorem one_line_assignments_read_after_free :
    parse_source "x = 1 y = 2".toList = .error .UseAfterFree
    ∧ parse_source "x = 1\ny = 2".toList = .error .UseAfterFree
    ∧ (∀ (fuel : Nat) (statements : List ASTNode) (parser p1 : Parser) (stmt : ASTNode),
        parser.current_token.type ≠ TOKEN_EOF →
        parse_statement parser = .ok (some stmt, p1) →
        p1.current_token.type ≠ TOKEN_NEWLINE →
        parse_program_loop (fuel + 1) statements parser
          = parse_program_loop fuel (statements ++ [stmt]) p1)
    ∧ (∀ (fuel : Nat) (statements : List ASTNode) (parser p1 : Parser) (stmt : ASTNode),
        parser.current_token.type ≠ TOKEN_EOF →
        parse_statement parser = .ok (some stmt, p1) →
        ∃ p2, parser_consume_newlines (unread p1 + 2) p1 = .ok p2
          ∧ p2.current_token.type ≠ TOKEN_NEWLINE
          ∧ parse_program_loop (fuel + 1) statements parser
              = parse_program_loop fuel (statements ++ [stmt]) p2)
    ∧ parse_source "darshaya(1) darshaya(2)".toList
        = .ok [NODE_PRINT (NODE_NUMBER 1), NODE_PRINT (NODE_NUMBER 2)]
    ∧ parse_source "darshaya(1)darshaya(2)".toList
        = .ok [NODE_PRINT (NODE_NUMBER 1), NODE_PRINT (NODE_NUMBER 2)]
    ∧ parse_source "darshaya(1)\ndarshaya(2)".toList
        = .ok [NODE_PRINT (NODE_NUMBER 1), NODE_PRINT (NODE_NUMBER 2)]
    ∧ parse_source "darshaya(1)\n\n\ndarshaya(2)\n\n".toList
        = .ok [NODE_PRINT (NODE_NUMBER 1), NODE_PRINT (NODE_NUMBER 2)] := by
  refine ⟨by decide!, by decide!, ?_, ?_, by decide!, by decide!, by decide!, by decide!⟩
  · intro fuel statements parser p1 stmt hne hs hnl
    exact parse_program_loop_step fuel statements parser p1 p1 stmt hne hs
      (parser_consume_newlines_none _ p1 hnl)
  · intro fuel statements parser p1 stmt hne hs
    cases hc : parser_consume_newlines (unread p1 + 2) p1 with
    | error e =>
      have he := parser_consume_newlines_error _ _ _ hc
      rw [he] at hc
      exact absurd hc (parser_consume_newlines_fuel _ p1 (pending_le p1))
    | ok p2 =>
      exact ⟨p2, rfl, (parser_consume_newlines_progress _ p1 p2 hc).2,
        parse_program_loop_step fuel statements parser p1 p2 stmt hne hs hc⟩

theorem one_line_assignments_read_after_free_witness :
    parse_program_loop (1 + 1) [] (parser_of_text "darshaya(1) darshaya(2)".toList)
      = parse_program_loop 1 ([] ++ [NODE_PRINT (NODE_NUMBER 1)])
          (after_advance (after_advance (after_advance (after_advance
            (parser_of_text "darshaya(1) darshaya(2)".toList))))) :=
  one_line_assignments_read_after_free.2.2.1 1 []
    (parser_of_text "darshaya(1) darshaya(2)".toList)
    (after_advance (after_advance (after_advance (after_advance
      (parser_of_text "darshaya(1) darshaya(2)".toList)))))
    (NODE_PRINT (NODE_NUMBER 1)) (by decide!) (by decide!) (by decide!)

/-- Claim C22 at the failing input `a`, newline, `"b`: the Newline token that ends the
first line carries line 1 and column 1, though its first character stands at line 1,
column 2; the unterminated String token carries line 2 and column 0, though its first
character stands at line 2, column 1; and a String token that runs over a line end
carries the line on which it ends. For every source text and every call of the lexer
reached from its start the rest of the claim holds: the lexer's own line and column are
those of its position; a token that is neither a String nor a Newline (a Number, an
Identifier, the print keyword, a one-character operator) carries the line and column of
its first character, and its text is read from there; a Newline token carries the line of
its character and column 1; a String token on one line carries the line of its opening
quote, with the column of that quote when it is terminated and one less when it is not. -/
theorem newline_and_open_string_columns (code : List Char) :
    lexer_calls 3 (lexer_init "a\n\"b".toList)
        = some ([⟨TOKEN_IDENTIFIER, some ['a'], 1, 1⟩, ⟨TOKEN_NEWLINE, some ['\n'], 1, 1⟩,
                  ⟨TOKEN_STRING, some ['"', 'b', '"'], 2, 0⟩],
                ⟨"a\n\"b".toList, 4, 2, 3⟩)
    ∧ (line_of "a".toList = 1 ∧ column_of "a".toList = 2)
    ∧ (line_of "a\n".toList = 2 ∧ column_of "a\n".toList = 1)
    ∧ lex_tokens 1 (lexer_init "\"a\nb\"".toList)
        = [⟨TOKEN_STRING, some ['"', 'a', '\n', 'b', '"'], 2, -2⟩]
    ∧ (∀ (n : Nat) (tokens : List Token) (lexer next : Lexer) (token : Token),
        lexer_calls n (lexer_init code) = some (tokens, lexer) →
        lexer_get_next_token lexer = some (token, next) →
        lexer.code = code ∧ tracks_position lexer ∧ tracks_position next
        ∧ next.pos = token_start lexer + (token_text (code.drop (token_start lexer))).length
        ∧ (token.type ≠ TOKEN_EOF → token.type ≠ TOKEN_STRING →
            token.value = some (token_text (code.drop (token_start lexer))))
        ∧ (token.type ≠ TOKEN_STRING → token.type ≠ TOKEN_NEWLINE →
            token.line = line_of (code.take (token_start lexer))
              ∧ token.column = column_of (code.take (token_start lexer)))
        ∧ (token.type = TOKEN_NEWLINE →
            token.line = line_of (code.take (token_start lexer)) ∧ token.column = 1)
        ∧ (token.type = TOKEN_STRING →
            (∀ c ∈ (code.drop (token_start lexer)).tail.takeWhile in_string, c ≠ '\n') →
            token.line = line_of (code.take (token_start lexer))
              ∧ token.column
                  = if ((code.drop (token_start lexer)).tail.dropWhile in_string).headD NUL
                        = '"'
                    then column_of (code.take (token_start lexer))
                    else column_of (code.take (token_start lexer)) - 1)) := by
  refine ⟨by decide!, by decide!, by decide!, by decide!, ?_⟩
  intro n tokens lexer next token hcalls h
  obtain ⟨ht, hp, hc⟩ := lexer_calls_invariant n (lexer_init code) lexer tokens
    (by simp [lexer_init]) (tracks_lexer_init code) hcalls
  have hcode : lexer.code = code := hc
  obtain ⟨g1, _, _, g4, g5, g6, g7, g8⟩ :=
    lexer_get_next_token_position lexer next token hp ht h
  rw [hcode] at g4 g5 g6 g7 g8
  exact ⟨hcode, ht, g1, g4, g5, g6, g7, g8⟩

theorem newline_and_open_string_columns_witness :
    (⟨TOKEN_NUMBER, some ['4', '2'], 2, 3⟩ : Token).line
        = line_of ("a\n  42 b".toList.take (token_start ⟨"a\n  42 b".toList, 2, 2, 1⟩))
    ∧ (⟨TOKEN_NUMBER, some ['4', '2'], 2, 3⟩ : Token).column
        = column_of ("a\n  42 b".toList.take (token_start ⟨"a\n  42 b".toList, 2, 2, 1⟩)) :=
  ((newline_and_open_string_columns "a\n  42 b".toList).2.2.2.2 2
    [⟨TOKEN_IDENTIFIER, some ['a'], 1, 1⟩, ⟨TOKEN_NEWLINE, some ['\n'], 1, 1⟩]
    ⟨"a\n  42 b".toList, 2, 2, 1⟩ ⟨"a\n  42 b".toList, 6, 2, 5⟩
    ⟨TOKEN_NUMBER, some ['4', '2'], 2, 3⟩ (by decide!) (by decide!)).2.2.2.2.2.1
    (by decide) (by decide)

/-- Claim C23: the lexer and the parser always come to an end. Every call of
`lexer_get_next_token`, from any lexer state, returns a token; it leaves the text alone,
never moves the position back, and when the token is not the end of input the position
has grown and is at most the length of the text. So on a text of length `n` the tokens
from the `n`-th call on are all the end of input, and no more than `n` of the tokens
returned are anything else. `parse_program` never exhausts the counters that stand for
its loops and its recursion: from every parser state, and so for every source text, it
ends with a statement list or with one of the ways the program stops. -/
theorem lexer_and_parser_terminate :
    (∀ lexer : Lexer, ∃ token next, lexer_get_next_token lexer = some (token, next))
    ∧ (∀ (lexer next : Lexer) (token : Token),
        lexer_get_next_token lexer = some (token, next) →
        next.code = lexer.code ∧ lexer.pos ≤ next.pos
          ∧ (lexer.pos ≤ strlen lexer.code → next.pos ≤ strlen lexer.code)
          ∧ (token.type ≠ TOKEN_EOF → lexer.pos < next.pos ∧ next.pos ≤ strlen lexer.code))
    ∧ (∀ (code : List Char) (m : Nat),
        (lex_tokens m (lexer_init code)).length = m
          ∧ (∀ token ∈ (lex_tokens m (lexer_init code)).drop (strlen code),
              token.type = TOKEN_EOF)
          ∧ ((lex_tokens m (lexer_init code)).filter
              (fun token => decide (token.type ≠ TOKEN_EOF))).length ≤ strlen code
          ∧ strlen code ≤ code.length)
    ∧ (∀ parser : Parser, parse_program parser ≠ .error .OutOfFuel)
    ∧ (∀ code : List Char, parse_source code ≠ .error .OutOfFuel)
    ∧ (∀ code : List Char,
        (∃ statements, parse_source code = .ok statements)
          ∨ (∃ e, parse_source code = .error e ∧ (is_syntax_error e = true ∨ e = .UseAfterFree)))
        := by
  refine ⟨?_, fun lexer next token h => lexer_get_next_token_moves lexer next token h, ?_,
    parse_program_fuel, parse_source_fuel, ?_⟩
  · intro lexer
    obtain ⟨token, next, h, _⟩ := lexer_get_next_token_progress lexer
    exact ⟨token, next, h⟩
  · intro code m
    refine ⟨lex_tokens_length m code (lexer_init code) (lexAt_init code), ?_, ?_,
      strlen_le_length code⟩
    · exact lex_tokens_drop_unread (strlen code) (lexer_init code) m (by simp [lexer_init])
    · have := lex_tokens_count (lexer_init code) m
      simpa [lexer_init] using this
  · intro code
    cases h : parse_source code with
    | ok statements => exact Or.inl ⟨statements, rfl⟩
    | error e =>
      exact Or.inr ⟨e, rfl, parse_source_error code e h⟩

theorem lexer_and_parser_terminate_witness :
    (⟨"12 +".toList, 2, 1, 3⟩ : Lexer).code = (lexer_init "12 +".toList).code
    ∧ (lexer_init "12 +".toList).pos ≤ (⟨"12 +".toList, 2, 1, 3⟩ : Lexer).pos
    ∧ (⟨"12 +".toList, 2, 1, 3⟩ : Lexer).pos ≤ strlen (lexer_init "12 +".toList).code
    ∧ ((lexer_init "12 +".toList).pos < (⟨"12 +".toList, 2, 1, 3⟩ : Lexer).pos
        ∧ (⟨"12 +".toList, 2, 1, 3⟩ : Lexer).pos ≤ strlen (lexer_init "12 +".toList).code) :=
  ⟨(lexer_and_parser_terminate.2.1 (lexer_init "12 +".toList) ⟨"12 +".toList, 2, 1, 3⟩
      ⟨TOKEN_NUMBER, some ['1', '2'], 1, 1⟩ (by decide!)).1,
   (lexer_and_parser_terminate.2.1 (lexer_init "12 +".toList) ⟨"12 +".toList, 2, 1, 3⟩
      ⟨TOKEN_NUMBER, some ['1', '2'], 1, 1⟩ (by decide!)).2.1,
   (lexer_and_parser_terminate.2.1 (lexer_init "12 +".toList) ⟨"12 +".toList, 2, 1, 3⟩
      ⟨TOKEN_NUMBER, some ['1', '2'], 1, 1⟩ (by decide!)).2.2.1 (by decide),
   (lexer_and_parser_terminate.2.1 (lexer_init "12 +".toList) ⟨"12 +".toList, 2, 1, 3⟩
      ⟨TOKEN_NUMBER, some ['1', '2'], 1, 1⟩ (by decide!)).2.2.2 (by decide)⟩

end PanLang
